import Mathlib

/-!
# Approacher: concept matching and similarity scoring

A shallow embedding of `ConceptDatabase.cpp` (string similarity, exact concept matching,
overlap analysis and the main similarity score) together with proofs of the properties the
specification states about it.

Modelling conventions.

* A `std::string` is the list of its `char`s (`Str`).
* `int` and `size_t` values are unbounded `Int`/`Nat`: every counter below is bounded by the
  length of a list held in memory, so no 32-bit wrap-around is reachable.
* `double` is an arbitrary linearly ordered field `K` (exact arithmetic); `sqrt` from `<cmath>`
  is a parameter of the functions that call it.  The definitions can be run with `K := ℚ`
  and `Rat.sqrt`.
* `vector` is `List`; `push_back` appends at the end.
* The ObjectBox store is the list of its concepts, whose identifiers are pairwise distinct.
-/

namespace Approacher

/-! ## Data model -/

/-- A C++ `std::string`: the sequence of its characters. -/
abbrev Str := List Char

/-- User input feature (`struct Feature`): an empty `key` means "match on the value only". -/
structure Feature where
  key : Str
  value : Str
deriving DecidableEq, Repr

/-- A stored concept: identifier plus the parallel vectors `feature_keys`/`feature_values`. -/
structure Concept where
  id : Nat
  feature_keys : List Str
  feature_values : List Str
deriving DecidableEq, Repr

/-- Result of matching one concept (`struct MatchResult`). -/
structure MatchResult where
  concept_id : Nat
  match_count : Int
  matched_indices : List Nat
deriving DecidableEq, Repr

/-- Modelled from the spec: the ObjectBox store behind `conceptBox` (`objectbox.hpp` is not
part of the sources).  It is an in-memory collection of concepts, each with a unique
identifier; `getAll` returns all of them. -/
structure Store where
  concepts : List Concept
  unique_ids : (concepts.map Concept.id).Nodup

/-- The call `conceptBox->getAll()`. -/
def Store.getAll (s : Store) : List Concept := s.concepts

/-! ## String similarity -/

/-- The matrix `vector<vector<int>> dp`, addressed by row and column. -/
abbrev Table := Nat → Nat → Nat

/-- The assignment `dp[i][j] = v`. -/
def Table.set (dp : Table) (i j v : Nat) : Table :=
  fun a b => if a = i ∧ b = j then v else dp a b

/-- Embedding of `ConceptDatabase::calculateStringDistance`: the table is zero-initialised,
the two border loops fill column 0 and row 0, the nested loops fill rows `1..m`, columns
`1..n`. -/
def calculateStringDistance (str1 str2 : Str) : Nat :=
  let m := str1.length
  let n := str2.length
  let dp0 : Table := fun _ _ => 0
  let dp1 := (List.range (m + 1)).foldl (fun dp i => dp.set i 0 i) dp0
  let dp2 := (List.range (n + 1)).foldl (fun dp j => dp.set 0 j j) dp1
  let dp3 := (List.range' 1 m).foldl (fun dp i =>
    (List.range' 1 n).foldl (fun dp j =>
      if str1[i - 1]? = str2[j - 1]? then
        dp.set i j (dp (i - 1) (j - 1))
      else
        dp.set i j (1 + min (min (dp (i - 1) j) (dp i (j - 1))) (dp (i - 1) (j - 1)))) dp) dp2
  dp3 m n

/-- Embedding of `ConceptDatabase::calculateStringSimilarity`. -/
def calculateStringSimilarity (K : Type) [LinearOrderedField K] (str1 str2 : Str) : K :=
  if str1.isEmpty && str2.isEmpty then 1
  else if str1.isEmpty || str2.isEmpty then 0
  else
    let edit_distance := calculateStringDistance str1 str2
    let max_length := max str1.length str2.length
    1 - (edit_distance : K) / (max_length : K)

/-! ### The reference recursion of the specification -/

/-- One row of the reference recursion: `levStep x n f b` is the distance between `a·x` and
`b` when `f` gives the distances from `a` and `n = |a·x|`.  Strings are held with their last
character first. -/
def levStep (x : Char) (n : Nat) (f : Str → Nat) : Str → Nat
  | [] => n
  | y :: b => if x = y then f b else 1 + min (min (f (y :: b)) (levStep x n f b)) (f b)

/-- The reference recursion on strings held with their last character first. -/
def levRev : Str → Str → Nat
  | [] => fun b => b.length
  | x :: a => levStep x (a.length + 1) (levRev a)

/-- Levenshtein distance by the reference recursion of the specification:
`d(a, "") = |a|`, `d("", b) = |b|`, `d(a·x, b·y) = d(a, b)` if `x = y`, else
`1 + min(d(a, b·y), d(a·x, b), d(a, b))`. -/
def levenshtein (a b : Str) : Nat := levRev a.reverse b.reverse

/-- An edit script turning `a` into `b` with `k` unit-cost operations: the characters of `a`
are read left to right and each is kept, substituted or deleted, and characters of `b` may
be inserted in between. -/
inductive EditScript : Str → Str → Nat → Prop
  | done : EditScript [] [] 0
  | keep (x : Char) {a b : Str} {k : Nat} : EditScript a b k → EditScript (x :: a) (x :: b) k
  | substitute (x y : Char) {a b : Str} {k : Nat} :
      EditScript a b k → EditScript (x :: a) (y :: b) (k + 1)
  | insert (y : Char) {a b : Str} {k : Nat} : EditScript a b k → EditScript a (y :: b) (k + 1)
  | delete (x : Char) {a b : Str} {k : Nat} : EditScript a b k → EditScript (x :: a) b (k + 1)

/-! ## Exact matching -/

/-- Embedding of `ConceptDatabase::matchConceptExact`.  The inner loops search for a hit and
`break`; the outer loop runs over the input features with their indices.  A read of
`feature_values[j]` past the end of the vector, which can only happen when the two vectors
of the concept are not parallel, finds nothing. -/
def matchConceptExact (input_features : List Feature) (c : Concept) : MatchResult :=
  input_features.enum.foldl
    (fun result p =>
      let i := p.1
      let input_feature := p.2
      let matched :=
        if input_feature.key.isEmpty then
          c.feature_values.any (fun concept_value => input_feature.value = concept_value)
        else
          (List.range c.feature_keys.length).any (fun j =>
            c.feature_keys[j]? = some input_feature.key ∧
            c.feature_values[j]? = some input_feature.value)
      if matched then
        { result with
          match_count := result.match_count + 1
          matched_indices := result.matched_indices ++ [i] }
      else result)
    { concept_id := c.id, match_count := 0, matched_indices := [] }

/-- Embedding of `ConceptDatabase::findMatchingConcepts(input_features)`, the exact-match
overload. -/
def findMatchingConcepts (store : Store) (input_features : List Feature) : List MatchResult :=
  store.getAll.foldl
    (fun results c =>
      let match_result := matchConceptExact input_features c
      if match_result.match_count > 0 then results ++ [match_result] else results)
    []

/-! ## Overlap analysis and scoring -/

/-- Embedding of `ConceptDatabase::calculateMatchLevel`. -/
def calculateMatchLevel (K : Type) [LinearOrderedField K]
    (matched_features total_features : Int) : Int :=
  if total_features = 0 ∨ matched_features ≤ 0 then 1
  else
    let match_percentage : K := (matched_features : K) / (total_features : K) * 100
    if match_percentage ≤ 20 then 1
    else if match_percentage ≤ 40 then 2
    else if match_percentage ≤ 60 then 3
    else if match_percentage ≤ 80 then 4
    else 5

/-- A key of the overlap map, `pair<int,int>`. -/
abbrev LevelPair := Int × Int

/-- The order `operator<` of `pair<int,int>` (lexicographic). -/
def LevelPair.lt (a b : LevelPair) : Prop := a.1 < b.1 ∨ (a.1 = b.1 ∧ a.2 < b.2)

instance LevelPair.decLt (a b : LevelPair) : Decidable (LevelPair.lt a b) := by
  unfold LevelPair.lt; infer_instance

/-- A `map<pair<int,int>, int>`: its entries in iteration (key) order. -/
abbrev OverlapMap := List (LevelPair × Int)

/-- The statement `overlap_map[k]++`: a missing key is inserted at its place with value 0
and then incremented. -/
def OverlapMap.increment : OverlapMap → LevelPair → OverlapMap
  | [], k => [(k, 1)]
  | (k', v) :: rest, k =>
    if k = k' then (k', v + 1) :: rest
    else if LevelPair.lt k k' then (k, 1) :: (k', v) :: rest
    else (k', v) :: OverlapMap.increment rest k

/-- The statement `overlap_map[k] = v`. -/
def OverlapMap.assign : OverlapMap → LevelPair → Int → OverlapMap
  | [], k, v => [(k, v)]
  | (k', v') :: rest, k, v =>
    if k = k' then (k', v) :: rest
    else if LevelPair.lt k k' then (k, v) :: (k', v') :: rest
    else (k', v') :: OverlapMap.assign rest k v

/-- The `unordered_map<obx_id, int>` of `analyzeOverlap`; only assignment and `find` are
used on it. -/
abbrev IdMap := Nat → Option Int

/-- The statement `matches_B_map[id] = v`. -/
def IdMap.assign (mp : IdMap) (id : Nat) (v : Int) : IdMap :=
  fun k => if k = id then some v else mp k

/-- The parameter table, `unordered_map<string, double>`, as its list of entries. -/
abbrev Params (K : Type) := List (Str × K)

/-- The lookup `params.find(key)`; `none` stands for `params.end()`. -/
def Params.find {K : Type} (params : Params K) (key : Str) : Option K :=
  (List.find? (fun e => e.1 = key) params).map Prod.snd

/-- The key `"p" + to_string(level_A) + to_string(level_B)`. -/
def paramKey (level_A level_B : Int) : Str :=
  "p".toList ++ (toString level_A).toList ++ (toString level_B).toList

/-- The weight read for a level pair: the table entry, or `1.0` when the key is missing. -/
def paramValue {K : Type} [LinearOrderedField K] (params : Params K)
    (level_A level_B : Int) : K :=
  match params.find (paramKey level_A level_B) with
  | some v => v
  | none => 1

/-- Embedding of `ConceptDatabase::analyzeOverlap`; the second component is the out-parameter
`total_matches`. -/
def analyzeOverlap (K : Type) [LinearOrderedField K] (matches_A matches_B : List MatchResult)
    (total_features_A total_features_B : Int) : OverlapMap × Int :=
  let matches_B_map : IdMap :=
    matches_B.foldl (fun mp match_B => mp.assign match_B.concept_id match_B.match_count)
      (fun _ => none)
  matches_A.foldl
    (fun st match_A =>
      match matches_B_map match_A.concept_id with
      | some match_count_B =>
        let match_count_A := match_A.match_count
        let level_A := calculateMatchLevel K match_count_A total_features_A
        let level_B := calculateMatchLevel K match_count_B total_features_B
        (st.1.increment (level_A, level_B), st.2 + 1)
      | none => st)
    ([], 0)

/-- Embedding of `ConceptDatabase::calculatePartialSimilarity`. -/
def calculatePartialSimilarity {K : Type} [LinearOrderedField K] (overlap_map : OverlapMap)
    (divisor : Int) (params : Params K) : K :=
  if divisor = 0 then 0
  else
    let weighted_sum : K :=
      overlap_map.foldl
        (fun weighted_sum entry =>
          let level_A := entry.1.1
          let level_B := entry.1.2
          let concept_count := entry.2
          let param_value := paramValue params level_A level_B
          weighted_sum + (concept_count : K) * param_value)
        0
    weighted_sum / (divisor : K)

/-- The map `overlap_map_B` built in `calculateMainSimilarity`: every entry of `overlap_map`
is stored under its swapped key. -/
def swapOverlap (overlap_map : OverlapMap) : OverlapMap :=
  overlap_map.foldl (fun mp entry => mp.assign (entry.1.2, entry.1.1) entry.2) []

/-- Embedding of `ConceptDatabase::calculateMainSimilarity`. -/
def calculateMainSimilarity {K : Type} [LinearOrderedField K] (sqrt : K → K) (store : Store)
    (features_A features_B : List Feature) (params : Params K) : K :=
  let matches_A := findMatchingConcepts store features_A
  let matches_B := findMatchingConcepts store features_B
  let total_features_A : Int := features_A.length
  let total_features_B : Int := features_B.length
  let r := analyzeOverlap K matches_A matches_B total_features_A total_features_B
  let overlap_map := r.1
  let total_matches := r.2
  if total_matches = 0 then 0
  else
    let matches_A_count : Int := matches_A.length
    let matches_B_count : Int := matches_B.length
    let partial_similarity_A := calculatePartialSimilarity overlap_map matches_A_count params
    let overlap_map_B := swapOverlap overlap_map
    let partial_similarity_B := calculatePartialSimilarity overlap_map_B matches_B_count params
    sqrt (partial_similarity_A * partial_similarity_B)

/-- The default table `g_similarity_params`. -/
def g_similarity_params (K : Type) [LinearOrderedField K] : Params K :=
  [ ("p11".toList, 1.0), ("p12".toList, 0.9), ("p13".toList, 0.8), ("p14".toList, 0.7),
    ("p15".toList, 0.6),
    ("p21".toList, 0.9), ("p22".toList, 1.2), ("p23".toList, 1.1), ("p24".toList, 1.0),
    ("p25".toList, 0.9),
    ("p31".toList, 0.8), ("p32".toList, 1.1), ("p33".toList, 1.5), ("p34".toList, 1.4),
    ("p35".toList, 1.3),
    ("p41".toList, 0.7), ("p42".toList, 1.0), ("p43".toList, 1.4), ("p44".toList, 1.8),
    ("p45".toList, 1.7),
    ("p51".toList, 0.6), ("p52".toList, 0.9), ("p53".toList, 1.3), ("p54".toList, 1.7),
    ("p55".toList, 2.0) ]

/-! ## Fuzzy matching -/

/-- Embedding of `ConceptDatabase::matchConceptFuzzy`.  The state of each inner loop is the
pair (`best_similarity`, `matched`), started at `(0.0, false)`.  As in `matchConceptExact`, a
read of `feature_values[j]` past the end of the vector finds nothing. -/
def matchConceptFuzzy {K : Type} [LinearOrderedField K] (input_features : List Feature)
    (c : Concept) (fuzzy_threshold : K) : MatchResult :=
  input_features.enum.foldl
    (fun result p =>
      let i := p.1
      let input_feature := p.2
      let st : K × Bool :=
        if input_feature.key.isEmpty then
          c.feature_values.foldl
            (fun st concept_value =>
              let similarity := calculateStringSimilarity K input_feature.value concept_value
              if similarity ≥ fuzzy_threshold ∧ similarity > st.1 then (similarity, true)
              else st)
            (0, false)
        else
          (List.range c.feature_keys.length).foldl
            (fun st j =>
              if c.feature_keys[j]? = some input_feature.key then
                match c.feature_values[j]? with
                | some concept_value =>
                  let similarity :=
                    calculateStringSimilarity K input_feature.value concept_value
                  if similarity ≥ fuzzy_threshold ∧ similarity > st.1 then (similarity, true)
                  else st
                | none => st
              else st)
            (0, false)
      if st.2 then
        { result with
          match_count := result.match_count + 1
          matched_indices := result.matched_indices ++ [i] }
      else result)
    { concept_id := c.id, match_count := 0, matched_indices := [] }

/-- The library call `std::sort(first, last, comp)`: the elements are rearranged so that no
element is followed by one that `comp` puts before it.  Elements that `comp` does not
separate keep their order here (the C++ standard leaves their order open). -/
def stdSort {α : Type} (comp : α → α → Bool) (l : List α) : List α :=
  List.insertionSort (fun a b => ¬(comp b a = true)) l

/-- The library call `std::unique(first, last, pred)` followed by `erase`: an element is
dropped when `pred` relates the last kept element to it. -/
def stdUnique {α : Type} (pred : α → α → Bool) : List α → List α
  | [] => []
  | a :: l => a :: stdUniqueFrom pred a l
where
  /-- The elements kept after `kept`, the last element written so far. -/
  stdUniqueFrom {α : Type} (pred : α → α → Bool) (kept : α) : List α → List α
  | [] => []
  | x :: l => if pred kept x then stdUniqueFrom pred kept l else x :: stdUniqueFrom pred x l

/-- The call `unique_values.insert(value)` on a `std::set<string>`, held as the list of its
elements in increasing order. -/
def setInsert : List Str → Str → List Str
  | [], v => [v]
  | u :: rest, v =>
    if v = u then u :: rest
    else if v < u then v :: u :: rest
    else u :: setInsert rest v

/-- Embedding of `ConceptDatabase::findSimilarValues`. -/
def findSimilarValues {K : Type} [LinearOrderedField K] (store : Store) (query_value : Str)
    (min_similarity : K) : List (Str × K) :=
  let all_concepts := store.getAll
  let unique_values : List Str :=
    all_concepts.foldl (fun s c => c.feature_values.foldl setInsert s) []
  let similar_values : List (Str × K) :=
    unique_values.foldl
      (fun similar_values value =>
        let similarity := calculateStringSimilarity K query_value value
        if similarity ≥ min_similarity then similar_values ++ [(value, similarity)]
        else similar_values)
      []
  stdSort (fun a b => decide (a.2 > b.2)) similar_values

/-- The list `modified_features` of `recursiveMatch`: every feature whose value is
`old_value` gets the value `new_value`. -/
def substituteValue (input_features : List Feature) (old_value new_value : Str) :
    List Feature :=
  input_features.map (fun feature =>
    if feature.value = old_value then { feature with value := new_value } else feature)

/-- The decay `match_count = max(1, match_count / 2)` applied to a recursive result; the
division is the truncating division of C++. -/
def decayResult (recursive_result : MatchResult) : MatchResult :=
  { recursive_result with match_count := max 1 (Int.tdiv recursive_result.match_count 2) }

/-- The loop over `similar_values` in `recursiveMatch`, with `recurse` standing for the call
`recursiveMatch(·, max_depth - 1, fuzzy_threshold)`.  It returns the result vector and the
flag `found_recursive_match`; the loop is left by `break` at the first substitute whose
recursive results are not empty. -/
def substituteLoop {K : Type} (recurse : List Feature → List MatchResult)
    (input_features : List Feature) (input_feature : Feature) :
    List (Str × K) → List MatchResult → List MatchResult × Bool
  | [], results => (results, false)
  | similar_pair :: rest, results =>
    let modified_features := substituteValue input_features input_feature.value similar_pair.1
    let recursive_results := recurse modified_features
    if !recursive_results.isEmpty then
      (results ++ recursive_results.map decayResult, true)
    else substituteLoop recurse input_features input_feature rest results

/-- The loop over the input features in the substitution branch of `recursiveMatch`; the
last argument is the flag `found_recursive_match`. -/
def featureLoop {K : Type} [LinearOrderedField K] (recurse : List Feature → List MatchResult)
    (store : Store) (fuzzy_threshold : K) (input_features : List Feature) :
    List Feature → List MatchResult → Bool → List MatchResult
  | [], results, _ => results
  | input_feature :: rest, results, found_recursive_match =>
    if found_recursive_match then results
    else
      let similar_values := findSimilarValues store input_feature.value fuzzy_threshold
      let r := substituteLoop recurse input_features input_feature similar_values results
      featureLoop recurse store fuzzy_threshold input_features rest r.1 r.2

/-- The body of the loop over all concepts in `recursiveMatch`: the result vector after
concept `c` has been handled. -/
def recursiveMatchConcept {K : Type} [LinearOrderedField K]
    (recurse : List Feature → Int → K → List MatchResult) (store : Store)
    (input_features : List Feature) (max_depth : Int) (fuzzy_threshold : K)
    (results : List MatchResult) (c : Concept) : List MatchResult :=
  let direct_match := matchConceptFuzzy input_features c fuzzy_threshold
  if direct_match.match_count > 0 then results ++ [direct_match]
  else if max_depth > 1 then
    featureLoop (fun modified_features => recurse modified_features (max_depth - 1)
      fuzzy_threshold) store fuzzy_threshold input_features input_features results false
  else results

/-- The comparator of the `sort` call in `recursiveMatch`. -/
def resultBefore (a b : MatchResult) : Bool :=
  if a.concept_id = b.concept_id then decide (a.match_count > b.match_count)
  else decide (a.concept_id < b.concept_id)

/-- The body of `ConceptDatabase::recursiveMatch`, with `recurse` standing for the function
itself in the recursive call. -/
def recursiveMatchStep {K : Type} [LinearOrderedField K]
    (recurse : List Feature → Int → K → List MatchResult) (store : Store)
    (input_features : List Feature) (max_depth : Int) (fuzzy_threshold : K) :
    List MatchResult :=
  let all_concepts := store.getAll
  let results :=
    all_concepts.foldl
      (recursiveMatchConcept recurse store input_features max_depth fuzzy_threshold) []
  let sorted := stdSort resultBefore results
  stdUnique (fun a b => decide (a.concept_id = b.concept_id)) sorted

/-- The recursion of `recursiveMatch` unrolled `fuel` times. -/
def recursiveMatchFuel {K : Type} [LinearOrderedField K] (store : Store) :
    Nat → List Feature → Int → K → List MatchResult
  | 0 => fun _ _ _ => []
  | fuel + 1 => recursiveMatchStep (recursiveMatchFuel store fuel) store

/-- Embedding of `ConceptDatabase::recursiveMatch`.  A recursive call is made only when
`max_depth > 1`, with `max_depth - 1`, so `max(max_depth, 1)` unrollings of the body reach
every call; `recursiveMatch_eq` shows that the function satisfies the recursive definition
of the source. -/
def recursiveMatch {K : Type} [LinearOrderedField K] (store : Store)
    (input_features : List Feature) (max_depth : Int) (fuzzy_threshold : K) :
    List MatchResult :=
  recursiveMatchFuel store ((max_depth - 1).toNat + 1) input_features max_depth
    fuzzy_threshold

/-- Embedding of the overload `ConceptDatabase::findMatchingConcepts(input_features,
use_fuzzy_matching, fuzzy_threshold, max_recursive_depth)`. -/
def findMatchingConceptsFuzzy {K : Type} [LinearOrderedField K] (store : Store)
    (input_features : List Feature) (use_fuzzy_matching : Bool) (fuzzy_threshold : K)
    (max_recursive_depth : Int) : List MatchResult :=
  if !use_fuzzy_matching then findMatchingConcepts store input_features
  else if max_recursive_depth > 1 then
    recursiveMatch store input_features max_recursive_depth fuzzy_threshold
  else
    store.getAll.foldl
      (fun results c =>
        let match_result := matchConceptFuzzy input_features c fuzzy_threshold
        if match_result.match_count > 0 then results ++ [match_result] else results)
      []

/-! ## Parameter learning -/

/-- Training sample (`struct TrainingSample`). -/
structure TrainingSample (K : Type) where
  features_A : List Feature
  features_B : List Feature
  expected_similarity : K
  confidence : K

/-- Embedding of `ConceptDatabase::evaluateParameters`; the member `training_samples` is an
argument.  The loop carries the pair (`total_error`, `total_weight`). -/
def evaluateParameters {K : Type} [LinearOrderedField K] (sqrt : K → K) (store : Store)
    (training_samples : List (TrainingSample K)) (params : Params K) : K :=
  if training_samples.isEmpty then 1
  else
    let totals : K × K :=
      training_samples.foldl
        (fun totals sample =>
          let calculated_similarity :=
            calculateMainSimilarity sqrt store sample.features_A sample.features_B params
          let error := |calculated_similarity - sample.expected_similarity|
          let weight := sample.confidence
          (totals.1 + error * weight, totals.2 + weight))
        (0, 0)
    let total_error := totals.1
    let total_weight := totals.2
    let average_error := if total_weight > 0 then total_error / total_weight else 1
    1 / (1 + average_error)

/-! ## Parameter optimisation -/

/-- Embedding of the assignment `g_similarity_params[param_name] = v`: the entry of the key is
overwritten in place; a key that is absent is added. -/
def Params.assign {K : Type} (params : Params K) (param_name : Str) (v : K) : Params K :=
  if params.any (fun e => e.1 = param_name) then
    params.map (fun e => if e.1 = param_name then (e.1, v) else e)
  else params ++ [(param_name, v)]

/-- The state read and written by the learner: the global table `g_similarity_params` and the
member `training_samples`. -/
structure LearnerState (K : Type) where
  g_similarity_params : Params K
  training_samples : List (TrainingSample K)

/-- The variables of the round loop of `optimizeParameters`: the live table and the tracked
pair (`best_params`, `best_score`). -/
structure OptimizerState (K : Type) where
  g_similarity_params : Params K
  best_params : Params K
  best_score : K

/-- Body of the loop `for (auto& param_pair : g_similarity_params)` of `optimizeParameters`:
the numerical gradient step on the entry `param_pair` of the live table `g`. -/
def optimizeEntry {K : Type} [LinearOrderedField K] (sqrt : K → K) (store : Store)
    (training_samples : List (TrainingSample K)) (learning_rate : K)
    (g : Params K) (param_pair : Str × K) : Params K :=
  let param_name := param_pair.1
  let current_value := param_pair.2
  let epsilon : K := 0.001
  let g := g.assign param_name (current_value + epsilon)
  let score_plus := evaluateParameters sqrt store training_samples g
  let g := g.assign param_name (current_value - epsilon)
  let score_minus := evaluateParameters sqrt store training_samples g
  let gradient := (score_plus - score_minus) / (2.0 * epsilon)
  let new_value := current_value + learning_rate * gradient
  let new_value := max 0.1 (min 5.0 new_value)
  g.assign param_name new_value

/-- One pass of the loop over the entries of the live table: the entries are visited by
position, each read from the live table when it is reached. -/
def optimizeRound {K : Type} [LinearOrderedField K] (sqrt : K → K) (store : Store)
    (training_samples : List (TrainingSample K)) (learning_rate : K) (g : Params K) : Params K :=
  (List.range g.length).foldl
    (fun g i =>
      match g[i]? with
      | some param_pair => optimizeEntry sqrt store training_samples learning_rate g param_pair
      | none => g)
    g

/-- Body of the loop over `iteration` of `optimizeParameters`: one round on the live table, the
re-evaluation, and the replacement of the tracked best on a strictly greater score. -/
def optimizeIteration {K : Type} [LinearOrderedField K] (sqrt : K → K) (store : Store)
    (training_samples : List (TrainingSample K)) (learning_rate : K)
    (st : OptimizerState K) : OptimizerState K :=
  let g := optimizeRound sqrt store training_samples learning_rate st.g_similarity_params
  let current_score := evaluateParameters sqrt store training_samples g
  if current_score > st.best_score then
    { g_similarity_params := g, best_params := g, best_score := current_score }
  else
    { g_similarity_params := g, best_params := st.best_params, best_score := st.best_score }

/-- The variables of `optimizeParameters` after its round loop has run `max_iterations` times
(no time when `max_iterations` is not positive). -/
def optimizeLoop {K : Type} [LinearOrderedField K] (sqrt : K → K) (store : Store)
    (s : LearnerState K) (max_iterations : Int) (learning_rate : K) : OptimizerState K :=
  (List.range max_iterations.toNat).foldl
    (fun st _ => optimizeIteration sqrt store s.training_samples learning_rate st)
    { g_similarity_params := s.g_similarity_params
      best_params := s.g_similarity_params
      best_score := evaluateParameters sqrt store s.training_samples s.g_similarity_params }

/-- Embedding of `ConceptDatabase::optimizeParameters` as a function on the learner state. -/
def optimizeParameters {K : Type} [LinearOrderedField K] (sqrt : K → K) (store : Store)
    (s : LearnerState K) (max_iterations : Int) (learning_rate : K) : LearnerState K :=
  if s.training_samples.isEmpty then s
  else
    { g_similarity_params := (optimizeLoop sqrt store s max_iterations learning_rate).best_params
      training_samples := s.training_samples }

/-! ## Text input -/

/-- The position of the first character satisfying `p`; `none` stands for `string::npos`. -/
def firstIndex (p : Char → Bool) : Str → Option Nat
  | [] => none
  | c :: cs => if p c then some 0 else (firstIndex p cs).map (· + 1)

/-- The value of `string::npos` for a 64-bit `size_t`. -/
def npos : Nat := 2 ^ 64 - 1

/-- Embedding of `s.find(c)`. -/
def strFind (s : Str) (c : Char) : Option Nat := firstIndex (fun x => x = c) s

/-- Embedding of `s.find(c, pos)`, where `pos` may itself be `npos`. -/
def strFindFrom (s : Str) (c : Char) (pos : Option Nat) : Option Nat :=
  match pos with
  | some pos => (firstIndex (fun x => x = c) (s.drop pos)).map (· + pos)
  | none => none

/-- Embedding of `s.find_first_not_of(chars)`. -/
def find_first_not_of (s : Str) (chars : List Char) : Option Nat :=
  firstIndex (fun x => !chars.contains x) s

/-- Embedding of `s.find_last_not_of(chars)`. -/
def find_last_not_of (s : Str) (chars : List Char) : Option Nat :=
  (firstIndex (fun x => !chars.contains x) s.reverse).map (fun i => s.length - 1 - i)

/-- Embedding of `s.substr(pos, n)` for a position inside the string. -/
def substr (s : Str) (pos n : Nat) : Str := (s.drop pos).take n

/-- The characters `" \t"` removed around an item. -/
def blanks : List Char := [' ', '\t']

/-- The expression `s.substr(start, end - start + 1)` where `end = s.find_last_not_of(" \t")`;
the length is computed in `size_t`, which matters only if `end` is `npos`. -/
def substrToLast (s : Str) (start : Nat) : Str :=
  match find_last_not_of s blanks with
  | some end_ => substr s start (end_ - start + 1)
  | none => substr s start ((npos - start + 1) % 2 ^ 64)

/-- The items read by `while (getline(ss, item, delim))`: `rest` is the unread input and
`item` holds the characters of the current item, last one first.  An item ends at a delimiter;
the end of the input ends an item only if a character was read for it. -/
def getlineItems (delim : Char) : Str → Str → List Str
  | [], item => if item.isEmpty then [] else [item.reverse]
  | c :: rest, item =>
    if c = delim then item.reverse :: getlineItems delim rest []
    else getlineItems delim rest (c :: item)

/-- Embedding of `parseCommaInput` (approacher.cpp). -/
def parseCommaInput (input : Str) : List Str :=
  (getlineItems ',' input []).filterMap (fun item =>
    match find_first_not_of item blanks with
    | none => none
    | some start =>
      let item := substrToLast item start
      if !item.isEmpty then some item else none)

/-- Embedding of `parseFeatureList`. -/
def parseFeatureList (input_list : List Str) : List Feature :=
  input_list.map (fun input =>
    match strFind input ':' with
    | some colon_pos =>
      let key := substr input 0 colon_pos
      let value := input.drop (colon_pos + 1)
      { key := key, value := value }
    | none => { key := [], value := input })

/-- The outcomes of `std::stoi`: a value, or one of its two exceptions. -/
inductive StoiResult where
  | value (n : Int)
  | invalid_argument
  | out_of_range
  deriving DecidableEq

/-- The characters accepted by `isspace` in the C locale. -/
def isSpace (c : Char) : Bool :=
  c = ' ' || c = '\t' || c = '\n' || c = '\x0b' || c = '\x0c' || c = '\r'

/-- Embedding of `std::stoi(str)`: white space is skipped, then an optional sign and the longest
run of decimal digits are read; no digit gives `invalid_argument`, a value outside the range of
`int` gives `out_of_range`. -/
def stoi (str : Str) : StoiResult :=
  let rest := str.dropWhile isSpace
  let signed : Bool × Str :=
    match rest with
    | '-' :: r => (true, r)
    | '+' :: r => (false, r)
    | _ => (false, rest)
  let digits := signed.2.takeWhile Char.isDigit
  if digits.isEmpty then StoiResult.invalid_argument
  else
    let magnitude : Int := (digits.foldl (fun acc d => 10 * acc + (d.toNat - 48)) 0 : Nat)
    let v : Int := if signed.1 then -magnitude else magnitude
    if v < -2147483648 ∨ 2147483647 < v then StoiResult.out_of_range
    else StoiResult.value v

/-- The statement `if (!s.empty()) { start = s.find_first_not_of(" \t"); end =
s.find_last_not_of(" \t"); if (start != npos) s = s.substr(start, end - start + 1); }` that
`loadFromFile` applies to `key` and to `value`. -/
def trimInPlace (s : Str) : Str :=
  if !s.isEmpty then
    match find_first_not_of s blanks with
    | some start => substrToLast s start
    | none => s
  else s

/-- Body of the loop over the comma-separated pieces of `features_str` in `loadFromFile`: the
concept after the piece `feature_str` has been read. -/
def loadFeature (c : Concept) (feature_str : Str) : Concept :=
  match find_first_not_of feature_str blanks with
  | none => c
  | some start =>
    let feature_str := substrToLast feature_str start
    match strFind feature_str ':' with
    | none => c
    | some colon_pos =>
      let key := substr feature_str 0 colon_pos
      let value := feature_str.drop (colon_pos + 1)
      let key := trimInPlace key
      let value := trimInPlace value
      if !key.isEmpty && !value.isEmpty then
        { c with feature_keys := c.feature_keys ++ [key]
                 feature_values := c.feature_values ++ [value] }
      else c

/-- What the body of the line loop of `loadFromFile` does with one line. -/
inductive LineOutcome where
  | skipped
  | raised
  | dropped (c : Concept)
  | put (c : Concept)
  deriving DecidableEq

/-- Body of the line loop of `loadFromFile`.  The outcomes are: `skipped` for `continue`,
`raised` for an exception that leaves the loop, `put c` for `conceptBox->put(c)`, and
`dropped c` for a concept that is built and not put. -/
def loadLine (line : Str) : LineOutcome :=
  if line.isEmpty || (find_first_not_of line [' ', '\t', '\r', '\n']).isNone then
    LineOutcome.skipped
  else
    match strFind line '.' with
    | none => LineOutcome.skipped
    | some dot_pos =>
      match stoi (substr line 0 dot_pos) with
      | StoiResult.invalid_argument => LineOutcome.skipped
      | StoiResult.out_of_range => LineOutcome.raised
      | StoiResult.value _ =>
        let bracket_start := strFindFrom line '[' (some dot_pos)
        let bracket_end := strFindFrom line ']' bracket_start
        match bracket_start, bracket_end with
        | some bracket_start, some bracket_end =>
          let features_str := substr line (bracket_start + 1) (bracket_end - bracket_start - 1)
          let c : Concept := { id := 0, feature_keys := [], feature_values := [] }
          let c :=
            if !features_str.isEmpty then
              (getlineItems ',' features_str []).foldl loadFeature c
            else c
          if !c.feature_keys.isEmpty then LineOutcome.put c else LineOutcome.dropped c
        | _, _ => LineOutcome.skipped

/-- Embedding of the line loop of `loadFromFile` on the lines of the file: the concepts put into
the box, in order, or `none` when an exception leaves the function. -/
def loadFromFile : List Str → Option (List Concept)
  | [] => some []
  | line :: lines =>
    match loadLine line with
    | LineOutcome.raised => none
    | LineOutcome.put c => (loadFromFile lines).map (fun cs => c :: cs)
    | _ => loadFromFile lines

/-! ## Sequence containment and key-value pairs -/

/-- Noun segment (`struct NounSegment`). -/
structure NounSegment where
  noun : Str
  adjectives : List Str

/-- Embedding of `transform(s.begin(), s.end(), s.begin(), ::tolower)`. -/
def tolower (s : Str) : Str := s.map Char.toLower

/-- Embedding of `checkAdjectiveSubset`. -/
def checkAdjectiveSubset (container_adjs contained_adjs : List Str) : Bool :=
  let container_lower := container_adjs.map tolower
  let contained_lower := contained_adjs.map tolower
  contained_lower.all (fun contained_adj =>
    container_lower.any (fun container_adj => container_adj = contained_adj))

/-- Embedding of `checkSequenceContainment`.  The loops over `i` run over the positions of two
lists of equal length, that is over the zipped list. -/
def checkSequenceContainment (K : Type) [LinearOrderedField K]
    (container_segments contained_segments : List NounSegment) : K :=
  if container_segments.length ≠ contained_segments.length then 0
  else if (container_segments.zip contained_segments).any
      (fun p => tolower p.1.noun ≠ tolower p.2.noun) then 0
  else if (container_segments.zip contained_segments).any
      (fun p => !checkAdjectiveSubset p.1.adjectives p.2.adjectives) then 0
  else
    let total_container_adjs : Int :=
      (container_segments.map (fun s => (s.adjectives.length : Int))).sum
    let total_contained_adjs : Int :=
      (contained_segments.map (fun s => (s.adjectives.length : Int))).sum
    if total_container_adjs > 0 ∧
        (total_contained_adjs : K) / (total_container_adjs : K) < 0.3 then 3.5
    else 4.0

/-- Embedding of `isEqualsKeyValuePair`. -/
def isEqualsKeyValuePair (input : Str) : Bool :=
  match strFind input '=' with
  | some equals_pos => 0 < equals_pos && equals_pos < input.length - 1
  | none => false

/-- Embedding of `extractKeyFromEqualsKeyValue`. -/
def extractKeyFromEqualsKeyValue (input : Str) : Str :=
  if !isEqualsKeyValuePair input then []
  else
    match strFind input '=' with
    | none => []
    | some equals_pos =>
      let key := substr input 0 equals_pos
      match find_first_not_of key blanks with
      | none => []
      | some start => substrToLast key start

/-- Embedding of `handleEqualsKeyValueSpecialCases`. -/
def handleEqualsKeyValueSpecialCases (K : Type) [LinearOrderedField K]
    (input_a input_b : Str) : K :=
  let a_is_equals_kv := isEqualsKeyValuePair input_a
  let b_is_equals_kv := isEqualsKeyValuePair input_b
  if a_is_equals_kv && b_is_equals_kv && input_a = input_b then 100.0
  else if a_is_equals_kv && !b_is_equals_kv &&
      (!(extractKeyFromEqualsKeyValue input_a).isEmpty &&
        extractKeyFromEqualsKeyValue input_a = input_b) then 100.0
  else if !a_is_equals_kv && b_is_equals_kv &&
      (!(extractKeyFromEqualsKeyValue input_b).isEmpty &&
        input_a = extractKeyFromEqualsKeyValue input_b) then 100.0
  else -1.0

/-! ## Noun segments of a sequence -/

/-- The UTF-8 bytes of a character, each held as a `Char`. -/
def utf8Char (c : Char) : Str :=
  let n := c.toNat
  if n < 128 then [Char.ofNat n]
  else if n < 2048 then [Char.ofNat (192 + n / 64), Char.ofNat (128 + n % 64)]
  else if n < 65536 then
    [Char.ofNat (224 + n / 4096), Char.ofNat (128 + n / 64 % 64), Char.ofNat (128 + n % 64)]
  else
    [Char.ofNat (240 + n / 262144), Char.ofNat (128 + n / 4096 % 64),
      Char.ofNat (128 + n / 64 % 64), Char.ofNat (128 + n % 64)]

/-- A string literal of the sources as the `std::string` it denotes: the bytes of its UTF-8
encoding. -/
def utf8 (s : String) : Str := s.toList.flatMap utf8Char

/-- Embedding of `s.find(str)` for a string argument. -/
def strFindString (s str : Str) : Option Nat :=
  (List.range (s.length + 1)).find? (fun pos => str.isPrefixOf (s.drop pos))

/-- Embedding of `applyBackupPOSRules`. -/
def applyBackupPOSRules (word : Str) : Str :=
  if (strFindString word (utf8 "的")).isSome && word.length > 3 then "adj".toList
  else
    let noun_suffixes : List Str := ["人", "者", "生", "师", "员", "家", "手", "工"].map utf8
    if noun_suffixes.any (fun suffix =>
        word.length ≥ suffix.length && word.drop (word.length - suffix.length) = suffix) then
      "noun".toList
    else
      let known_nouns : List Str :=
        ["女孩", "学生", "老师", "汽车", "轿车", "苹果", "书", "电脑", "手机"].map utf8
      let known_adjs : List Str :=
        ["美丽", "温柔", "聪明", "勤奋", "快速", "红色", "新的", "优秀", "漂亮", "可爱"].map utf8
      if known_nouns.any (fun noun => word = noun) then "noun".toList
      else if known_adjs.any (fun adj => word = adj) then "adj".toList
      else "unknown".toList

/-- Embedding of `identifyPartOfSpeech`; the global `g_semantic_database` is an argument, `none`
standing for the null pointer.  The nested loops return at the first `word_class` entry that is
`adjective` or `noun` in a concept whose `name` is the word. -/
def identifyPartOfSpeech (g_semantic_database : Option Store) (word : Str) : Str :=
  match g_semantic_database with
  | none => applyBackupPOSRules word
  | some db =>
    let all_concepts := db.getAll
    let found : Option Str :=
      all_concepts.findSome? (fun c =>
        (List.range c.feature_keys.length).findSome? (fun i =>
          if c.feature_keys[i]? = some "name".toList ∧ c.feature_values[i]? = some word then
            (List.range c.feature_keys.length).findSome? (fun j =>
              if c.feature_keys[j]? = some "word_class".toList then
                if c.feature_values[j]? = some "adjective".toList then some "adj".toList
                else if c.feature_values[j]? = some "noun".toList then some "noun".toList
                else none
              else none)
          else none))
    match found with
    | some pos => pos
    | none => applyBackupPOSRules word

/-- Embedding of `parseSequenceToNounSegments`; the loop carries the pair (`segments`,
`current_adjectives`). -/
def parseSequenceToNounSegments (g_semantic_database : Option Store) (sequence : Str) :
    List NounSegment :=
  let words := parseCommaInput sequence
  let st : List NounSegment × List Str :=
    words.foldl
      (fun st word =>
        let pos := identifyPartOfSpeech g_semantic_database word
        if pos = "noun".toList then
          (st.1 ++ [{ noun := word, adjectives := st.2 }], [])
        else if pos = "adj".toList then (st.1, st.2 ++ [word])
        else (st.1, st.2 ++ [word]))
      ([], [])
  st.1

/-- Embedding of `detectSemanticContainment`. -/
def detectSemanticContainment (K : Type) [LinearOrderedField K]
    (g_semantic_database : Option Store) (sequence1 sequence2 : Str) : K :=
  let segments1 := parseSequenceToNounSegments g_semantic_database sequence1
  let segments2 := parseSequenceToNounSegments g_semantic_database sequence2
  checkSequenceContainment K segments1 segments2

/-! ## Objects of the worked examples -/

/-- The concept `{color:red, kind:fruit}` of the specification's examples. -/
def redFruit : Concept :=
  { id := 1
    feature_keys := ["color".toList, "kind".toList]
    feature_values := ["red".toList, "fruit".toList] }

/-- The store holding only `redFruit`. -/
def redFruitStore : Store := ⟨[redFruit], by decide⟩

/-- A learner state whose single parameter lies outside `[0.1, 5.0]` and whose single sample
matches no concept of `redFruitStore`. -/
def outOfRangeState : LearnerState ℚ :=
  { g_similarity_params := [("p55".toList, 10)]
    training_samples :=
      [{ features_A := [{ key := [], value := "zzz".toList }]
         features_B := [{ key := [], value := "zzz".toList }]
         expected_similarity := 0
         confidence := 1 }] }

/-- A learner state with one parameter and one sample that matches `redFruit` on both sides. -/
def redState : LearnerState ℚ :=
  { g_similarity_params := [("p55".toList, 1)]
    training_samples :=
      [{ features_A := [{ key := [], value := "red".toList }]
         features_B := [{ key := [], value := "red".toList }]
         expected_similarity := 3
         confidence := 1 }] }

/-- A learner state without training samples. -/
def idleState : LearnerState ℚ :=
  { g_similarity_params := [("p55".toList, 10)], training_samples := [] }

/-- A container segment list with one noun and four adjectives. -/
def fourAdjectives : List NounSegment :=
  [{ noun := "girl".toList
     adjectives := ["kind".toList, "tall".toList, "smart".toList, "calm".toList] }]

/-- The same noun, written with a capital, without adjectives. -/
def noAdjectives : List NounSegment :=
  [{ noun := "Girl".toList, adjectives := [] }]

/-- The same noun, written with a capital, with two of the four adjectives. -/
def twoAdjectives : List NounSegment :=
  [{ noun := "Girl".toList, adjectives := ["Tall".toList, "kind".toList] }]

/-- A training sample of confidence `0`. -/
def unweighedSample : TrainingSample ℚ :=
  { features_A := [{ key := [], value := "red".toList }]
    features_B := [{ key := [], value := "fruit".toList }]
    expected_similarity := 1
    confidence := 0 }

/-! ## Auxiliary definitions used in the proofs -/

/-- The flag `matched` computed by the body of the feature loop of `matchConceptExact`. -/
def exactMatched (c : Concept) (input_feature : Feature) : Bool :=
  if input_feature.key.isEmpty then
    c.feature_values.any (fun concept_value => input_feature.value = concept_value)
  else
    (List.range c.feature_keys.length).any (fun j =>
      c.feature_keys[j]? = some input_feature.key ∧
      c.feature_values[j]? = some input_feature.value)

/-- The keys of an overlap map, in iteration order. -/
def OverlapMap.keys (om : OverlapMap) : List LevelPair := om.map Prod.fst

/-- The sum of `count * w key` over the entries of a map. -/
def entrySum {K : Type} [LinearOrderedField K] (w : LevelPair → K) (om : OverlapMap) : K :=
  (om.map (fun e => (e.2 : K) * w e.1)).sum

/-- The map `matches_B_map` built by the first loop of `analyzeOverlap`. -/
def matchesMap (matches_B : List MatchResult) : IdMap :=
  matches_B.foldl (fun mp match_B => mp.assign match_B.concept_id match_B.match_count)
    (fun _ => none)

/-- The level pairs that the second loop of `analyzeOverlap` increments, in order. -/
def overlapKeys (K : Type) [LinearOrderedField K] (matches_A : List MatchResult)
    (bmap : IdMap) (tA tB : Int) : List LevelPair :=
  matches_A.filterMap (fun a =>
    (bmap a.concept_id).map (fun cb =>
      (calculateMatchLevel K a.match_count tA, calculateMatchLevel K cb tB)))

/-- The level pairs of the concepts of a store that both feature lists match, in store
order. -/
def coMatchedKeys (K : Type) [LinearOrderedField K] (cs : List Concept)
    (A B : List Feature) : List LevelPair :=
  cs.filterMap (fun c =>
    if 0 < (matchConceptExact A c).match_count ∧ 0 < (matchConceptExact B c).match_count then
      some (calculateMatchLevel K (matchConceptExact A c).match_count (A.length : Int),
        calculateMatchLevel K (matchConceptExact B c).match_count (B.length : Int))
    else none)

/-- The value `weighted_sum / divisor` of `calculatePartialSimilarity`, with its guard. -/
def guardedQuotient {K : Type} [LinearOrderedField K] (s : K) (d : Int) : K :=
  if d = 0 then 0 else s / (d : K)

/-- The similarities that the loops of `matchConceptFuzzy` compute for one input feature, in
loop order: against every concept value when the key is empty, else against the values
stored under the same key. -/
def fuzzyCandidates (c : Concept) (input_feature : Feature) : List Str :=
  if input_feature.key.isEmpty then c.feature_values
  else
    (List.range c.feature_keys.length).filterMap (fun j =>
      if c.feature_keys[j]? = some input_feature.key then c.feature_values[j]? else none)

/-- The flag `matched` at the end of the body of the feature loop of `matchConceptFuzzy`. -/
def fuzzyMatched {K : Type} [LinearOrderedField K] (c : Concept) (fuzzy_threshold : K)
    (input_feature : Feature) : Bool :=
  (if input_feature.key.isEmpty then
    c.feature_values.foldl
      (fun st concept_value =>
        let similarity := calculateStringSimilarity K input_feature.value concept_value
        if similarity ≥ fuzzy_threshold ∧ similarity > st.1 then (similarity, true)
        else st)
      (0, false)
  else
    (List.range c.feature_keys.length).foldl
      (fun st j =>
        if c.feature_keys[j]? = some input_feature.key then
          match c.feature_values[j]? with
          | some concept_value =>
            let similarity :=
              calculateStringSimilarity K input_feature.value concept_value
            if similarity ≥ fuzzy_threshold ∧ similarity > st.1 then (similarity, true)
            else st
          | none => st
        else st)
      ((0 : K), false)).2

/-- The count stored in an overlap map at a key, `0` when the key is absent. -/
def OverlapMap.count (om : OverlapMap) (k : LevelPair) : Int :=
  match om.find? (fun e => e.1 = k) with
  | some e => e.2
  | none => 0

/-- The live parameter table at the end of round `k` of `optimizeParameters` (`k = 0`: the
initial table). -/
def liveTable {K : Type} [LinearOrderedField K] (sqrt : K → K) (store : Store)
    (s : LearnerState K) (learning_rate : K) : Nat → Params K
  | 0 => s.g_similarity_params
  | k + 1 => optimizeRound sqrt store s.training_samples learning_rate
      (liveTable sqrt store s learning_rate k)

/-- The score of the live table at the end of round `k`. -/
def liveScore {K : Type} [LinearOrderedField K] (sqrt : K → K) (store : Store)
    (s : LearnerState K) (learning_rate : K) (k : Nat) : K :=
  evaluateParameters sqrt store s.training_samples (liveTable sqrt store s learning_rate k)

/-- The recursion of `recursiveMatch` unrolled `fuel` times over an arbitrary function `deeper`
standing for every call nested more than `fuel` levels deep. -/
def recursiveMatchUnrolled {K : Type} [LinearOrderedField K] (store : Store)
    (deeper : List Feature → Int → K → List MatchResult) :
    Nat → List Feature → Int → K → List MatchResult
  | 0 => deeper
  | fuel + 1 => recursiveMatchStep (recursiveMatchUnrolled store deeper fuel) store

/-- The invariant of the concepts put by `loadFromFile`: at least one feature, as many keys as
values, no empty key and no empty value. -/
def WellFormedConcept (c : Concept) : Prop :=
  c.feature_keys ≠ [] ∧ c.feature_keys.length = c.feature_values.length ∧
    (∀ key ∈ c.feature_keys, key ≠ []) ∧ ∀ value ∈ c.feature_values, value ≠ []

/-- The containment relation between two noun-segment lists: as many segments, and position by
position the same noun up to letter case and every adjective of the contained segment present,
up to letter case, among the adjectives of the container segment. -/
def SequenceContained (container_segments contained_segments : List NounSegment) : Prop :=
  List.Forall₂
    (fun container contained =>
      tolower container.noun = tolower contained.noun ∧
        ∀ adj ∈ contained.adjectives, ∃ adj1 ∈ container.adjectives, tolower adj1 = tolower adj)
    container_segments contained_segments

/-- The total number of adjectives of a noun-segment list. -/
def adjectiveCount (segments : List NounSegment) : Int :=
  (segments.map (fun s => (s.adjectives.length : Int))).sum

/-- The text `s` without the blanks and tabs at its two ends. -/
def trimBlanks (s : Str) : Str :=
  ((s.dropWhile (fun c => blanks.contains c)).reverse.dropWhile
    (fun c => blanks.contains c)).reverse

/-- A `=` key-value pair: the first `=` of the string is neither its first nor its last
character. -/
def IsEqualsPair (s : Str) : Prop :=
  ∃ key value : Str, s = key ++ '=' :: value ∧ '=' ∉ key ∧ key ≠ [] ∧ value ≠ []

/-- The trimmed key of a `=` key-value pair: the text before the first `=`, without the blanks
and tabs at its two ends. -/
def trimmedKey (s : Str) : Str := trimBlanks (s.takeWhile (fun c => c ≠ '='))

/-! ## String distance: the table computes the reference recursion -/

theorem levRev_nil_right (a : Str) : levRev a [] = a.length := by
  cases a <;> simp [levRev, levStep]

theorem levRev_cons_cons (x y : Char) (a b : Str) :
    levRev (x :: a) (y :: b) =
      if x = y then levRev a b
      else 1 + min (min (levRev a (y :: b)) (levRev (x :: a) b)) (levRev a b) := by
  simp [levRev, levStep]

theorem levenshtein_nil_left (b : Str) : levenshtein [] b = b.length := by
  simp [levenshtein, levRev]

theorem levenshtein_nil_right (a : Str) : levenshtein a [] = a.length := by
  simp [levenshtein, levRev_nil_right]

theorem levenshtein_snoc (a b : Str) (x y : Char) :
    levenshtein (a ++ [x]) (b ++ [y]) =
      if x = y then levenshtein a b
      else 1 + min (min (levenshtein a (b ++ [y])) (levenshtein (a ++ [x]) b))
        (levenshtein a b) := by
  simp [levenshtein, levRev_cons_cons]

/-! ### Edit scripts: the reference distance is the least cost -/

theorem EditScript.insert_all (b : Str) : EditScript [] b b.length := by
  induction b with
  | nil => exact EditScript.done
  | cons y b ih => exact EditScript.insert y ih

theorem EditScript.delete_all (a : Str) : EditScript a [] a.length := by
  induction a with
  | nil => exact EditScript.done
  | cons x a ih => exact EditScript.delete x ih

theorem EditScript.snoc_keep (x : Char) {a b : Str} {k : Nat} (h : EditScript a b k) :
    EditScript (a ++ [x]) (b ++ [x]) k := by
  induction h with
  | done => exact EditScript.keep x EditScript.done
  | keep c _ ih => exact EditScript.keep c ih
  | substitute c d _ ih => exact EditScript.substitute c d ih
  | insert d _ ih => exact EditScript.insert d ih
  | delete c _ ih => exact EditScript.delete c ih

theorem EditScript.snoc_substitute (x y : Char) {a b : Str} {k : Nat} (h : EditScript a b k) :
    EditScript (a ++ [x]) (b ++ [y]) (k + 1) := by
  induction h with
  | done => exact EditScript.substitute x y EditScript.done
  | keep c _ ih => exact EditScript.keep c ih
  | substitute c d _ ih => exact EditScript.substitute c d ih
  | insert d _ ih => exact EditScript.insert d ih
  | delete c _ ih => exact EditScript.delete c ih

theorem EditScript.snoc_insert (y : Char) {a b : Str} {k : Nat} (h : EditScript a b k) :
    EditScript a (b ++ [y]) (k + 1) := by
  induction h with
  | done => exact EditScript.insert y EditScript.done
  | keep c _ ih => exact EditScript.keep c ih
  | substitute c d _ ih => exact EditScript.substitute c d ih
  | insert d _ ih => exact EditScript.insert d ih
  | delete c _ ih => exact EditScript.delete c ih

theorem EditScript.snoc_delete (x : Char) {a b : Str} {k : Nat} (h : EditScript a b k) :
    EditScript (a ++ [x]) b (k + 1) := by
  induction h with
  | done => exact EditScript.delete x EditScript.done
  | keep c _ ih => exact EditScript.keep c ih
  | substitute c d _ ih => exact EditScript.substitute c d ih
  | insert d _ ih => exact EditScript.insert d ih
  | delete c _ ih => exact EditScript.delete c ih

theorem EditScript.reverse {a b : Str} {k : Nat} (h : EditScript a b k) :
    EditScript a.reverse b.reverse k := by
  induction h with
  | done => exact EditScript.done
  | keep c _ ih => simpa using EditScript.snoc_keep c ih
  | substitute c d _ ih => simpa using EditScript.snoc_substitute c d ih
  | insert d _ ih => simpa using EditScript.snoc_insert d ih
  | delete c _ ih => simpa using EditScript.snoc_delete c ih

theorem min3_cases (p q r : Nat) :
    min (min p q) r = p ∨ min (min p q) r = q ∨ min (min p q) r = r := by
  omega

theorem EditScript.of_levRev (a : Str) : ∀ b : Str, EditScript a b (levRev a b) := by
  induction a with
  | nil => intro b; simpa [levRev] using EditScript.insert_all b
  | cons x a iha =>
    intro b
    induction b with
    | nil => rw [levRev_nil_right]; exact EditScript.delete_all (x :: a)
    | cons y b ihb =>
      rw [levRev_cons_cons]
      split
      · rename_i hxy
        subst hxy
        exact EditScript.keep x (iha b)
      · rw [Nat.add_comm]
        rcases min3_cases (levRev a (y :: b)) (levRev (x :: a) b) (levRev a b) with h | h | h
        · rw [h]; exact EditScript.delete x (iha (y :: b))
        · rw [h]; exact EditScript.insert y ihb
        · rw [h]; exact EditScript.substitute x y (iha b)

theorem levRev_comm (a : Str) : ∀ b : Str, levRev a b = levRev b a := by
  induction a with
  | nil => intro b; rw [levRev_nil_right]; rfl
  | cons x a iha =>
    intro b
    induction b with
    | nil => rw [levRev_nil_right]; rfl
    | cons y b ihb =>
      rw [levRev_cons_cons, levRev_cons_cons, iha b, iha (y :: b), ← ihb]
      by_cases hxy : x = y
      · simp [hxy]
      · have hyx : ¬y = x := fun h => hxy h.symm
        simp only [hxy, hyx, if_false]
        omega

theorem levRev_delete_of_drop (a : Str)
    (hdrop : ∀ (b : Str) (y : Char), levRev a b ≤ 1 + levRev a (y :: b)) (b : Str) (x : Char) :
    levRev (x :: a) b ≤ 1 + levRev a b := by
  cases b with
  | nil => simp [levRev_nil_right]; omega
  | cons y b =>
    rw [levRev_cons_cons]
    split
    · exact hdrop b y
    · have : min (min (levRev a (y :: b)) (levRev (x :: a) b)) (levRev a b) ≤
          levRev a (y :: b) := le_trans (min_le_left _ _) (min_le_left _ _)
      omega

theorem levRev_drop (a : Str) : ∀ (b : Str) (y : Char), levRev a b ≤ 1 + levRev a (y :: b) := by
  induction a with
  | nil => intro b y; simp [levRev]; omega
  | cons x a ih =>
    intro b y
    have hdel := levRev_delete_of_drop a ih
    rw [levRev_cons_cons x y a b]
    split
    · exact hdel b x
    · have h1 := hdel b x
      have h2 := ih b y
      omega

theorem levRev_delete (a b : Str) (x : Char) : levRev (x :: a) b ≤ 1 + levRev a b :=
  levRev_delete_of_drop a (levRev_drop a) b x

theorem levRev_insert (a b : Str) (y : Char) : levRev a (y :: b) ≤ 1 + levRev a b := by
  rw [levRev_comm a (y :: b), levRev_comm a b]
  exact levRev_delete b a y

theorem levRev_le_of_editScript {a b : Str} {k : Nat} (h : EditScript a b k) :
    levRev a b ≤ k := by
  induction h with
  | done => simp [levRev]
  | keep c _ ih => rw [levRev_cons_cons]; simpa using ih
  | @substitute c d a b k _ ih =>
    rw [levRev_cons_cons]
    split
    · omega
    · have : min (min (levRev a (d :: b)) (levRev (c :: a) b)) (levRev a b) ≤ levRev a b :=
        min_le_right _ _
      omega
  | @insert d a b k _ ih =>
    have := levRev_insert a b d
    omega
  | @delete c a b k _ ih =>
    have := levRev_delete a b c
    omega

theorem levenshtein_editScript (a b : Str) : EditScript a b (levenshtein a b) := by
  have h := (EditScript.of_levRev a.reverse b.reverse).reverse
  simpa [levenshtein] using h

theorem levenshtein_le_of_editScript {a b : Str} {k : Nat} (h : EditScript a b k) :
    levenshtein a b ≤ k :=
  levRev_le_of_editScript h.reverse

/-! ### Loop invariants of the table -/

theorem foldl_range'_invariant {σ : Type} (P : Nat → σ → Prop) (f : σ → Nat → σ) :
    ∀ (k s : Nat) (init : σ), P s init →
      (∀ i st, s ≤ i → i < s + k → P i st → P (i + 1) (f st i)) →
      P (s + k) ((List.range' s k).foldl f init) := by
  intro k
  induction k with
  | zero => intro s init h _; simpa using h
  | succ k ih =>
    intro s init h hstep
    rw [List.range'_succ, List.foldl_cons]
    have h1 := ih (s + 1) (f init s) (hstep s init (le_refl _) (by omega) h)
      (fun i st hi hlt hp => hstep i st (by omega) (by omega) hp)
    have e : s + 1 + k = s + (k + 1) := by omega
    rw [e] at h1
    exact h1

theorem take_snoc_getElem (s : Str) (i : Nat) (h : i < s.length) :
    s.take (i + 1) = s.take i ++ [s[i]] := by
  rw [List.take_succ]
  simp [List.getElem?_eq_getElem h]

theorem calculateStringDistance_eq_levenshtein (str1 str2 : Str) :
    calculateStringDistance str1 str2 = levenshtein str1 str2 := by
  unfold calculateStringDistance
  simp only []
  set m := str1.length with hm
  set n := str2.length with hn
  let L : Nat → Nat → Nat := fun a b => levenshtein (str1.take a) (str2.take b)
  have hL0r : ∀ a, a ≤ m → L a 0 = a := by
    intro a ha; simp [L, levenshtein_nil_right]; omega
  have hL0l : ∀ b, b ≤ n → L 0 b = b := by
    intro b hb; simp [L, levenshtein_nil_left]; omega
  -- first boundary loop
  have h1 := foldl_range'_invariant (fun k (dp : Table) => ∀ a, a < k → dp a 0 = a)
    (fun dp i => dp.set i 0 i) (m + 1) 0 (fun _ _ => 0) (by intro a ha; omega)
    (by
      intro i st _ _ hp a ha
      by_cases hai : a = i
      · simp [Table.set, hai]
      · have : a < i := by omega
        simp [Table.set, hai, hp a this])
  rw [← List.range_eq_range'] at h1
  set dp1 := (List.range (m + 1)).foldl (fun dp i => Table.set dp i 0 i) (fun _ _ => 0) with hdp1
  -- second boundary loop
  have h2 := foldl_range'_invariant
    (fun k (dp : Table) => (∀ a, a ≤ m → dp a 0 = a) ∧ ∀ b, b < k → dp 0 b = b)
    (fun dp j => dp.set 0 j j) (n + 1) 0 dp1
    ⟨fun a ha => h1 a (by omega), by intro b hb; omega⟩
    (by
      rintro j st _ _ ⟨hp1, hp2⟩
      refine ⟨?_, ?_⟩
      · intro a ha
        by_cases h0 : a = 0 ∧ 0 = j
        · simp [Table.set, h0.1, h0.2.symm]
        · have := hp1 a ha
          simp only [Table.set, h0, if_false]
          exact this
      · intro b hb
        by_cases hbj : b = j
        · simp [Table.set, hbj]
        · have : b < j := by omega
          simp [Table.set, hbj, hp2 b this])
  rw [← List.range_eq_range'] at h2
  set dp2 := (List.range (n + 1)).foldl (fun dp j => Table.set dp 0 j j) dp1 with hdp2
  -- main loops
  have h3 := foldl_range'_invariant
    (fun i (dp : Table) => ∀ a b, a ≤ m → b ≤ n → (a = 0 ∨ b = 0 ∨ a < i) → dp a b = L a b)
    (fun dp i =>
      (List.range' 1 n).foldl (fun dp j =>
        if str1[i - 1]? = str2[j - 1]? then
          dp.set i j (dp (i - 1) (j - 1))
        else
          dp.set i j (1 + min (min (dp (i - 1) j) (dp i (j - 1))) (dp (i - 1) (j - 1)))) dp)
    m 1 dp2
    (by
      intro a b ha hb h
      rcases h with h | h | h
      · subst h; rw [hL0l b hb]; exact h2.2 b (by omega)
      · subst h; rw [hL0r a ha]; exact h2.1 a ha
      · have : a = 0 := by omega
        subst this; rw [hL0l b hb]; exact h2.2 b (by omega))
    (by
      intro i st hi1 him hP
      have h4 := foldl_range'_invariant
        (fun j (dp : Table) => ∀ a b, a ≤ m → b ≤ n →
          (a = 0 ∨ b = 0 ∨ a < i ∨ (a = i ∧ b < j)) → dp a b = L a b)
        (fun dp j =>
          if str1[i - 1]? = str2[j - 1]? then
            dp.set i j (dp (i - 1) (j - 1))
          else
            dp.set i j (1 + min (min (dp (i - 1) j) (dp i (j - 1))) (dp (i - 1) (j - 1))))
        n 1 st
        (by
          intro a b ha hb h
          apply hP a b ha hb
          rcases h with h | h | h | h
          · exact Or.inl h
          · exact Or.inr (Or.inl h)
          · exact Or.inr (Or.inr h)
          · exact Or.inr (Or.inl (by omega)))
        (by
          intro j dp hj1 hjn hQ a b ha hb h
          have hi' : i - 1 < str1.length := by omega
          have hj' : j - 1 < str2.length := by omega
          have e1 : str1[i - 1]? = some str1[i - 1] := List.getElem?_eq_getElem hi'
          have e2 : str2[j - 1]? = some str2[j - 1] := List.getElem?_eq_getElem hj'
          have t1 : str1.take i = str1.take (i - 1) ++ [str1[i - 1]] := by
            have := take_snoc_getElem str1 (i - 1) hi'
            rwa [Nat.sub_add_cancel hi1] at this
          have t2 : str2.take j = str2.take (j - 1) ++ [str2[j - 1]] := by
            have := take_snoc_getElem str2 (j - 1) hj'
            rwa [Nat.sub_add_cancel hj1] at this
          have c1 : dp (i - 1) (j - 1) = L (i - 1) (j - 1) :=
            hQ _ _ (by omega) (by omega) (Or.inr (Or.inr (Or.inl (by omega))))
          have c2 : dp (i - 1) j = L (i - 1) j :=
            hQ _ _ (by omega) (by omega) (Or.inr (Or.inr (Or.inl (by omega))))
          have c3 : dp i (j - 1) = L i (j - 1) :=
            hQ _ _ (by omega) (by omega) (Or.inr (Or.inr (Or.inr ⟨rfl, by omega⟩)))
          have key : L i j = if str1[i - 1] = str2[j - 1] then L (i - 1) (j - 1)
              else 1 + min (min (L (i - 1) j) (L i (j - 1))) (L (i - 1) (j - 1)) := by
            simp only [L]
            rw [t1, t2, levenshtein_snoc, ← t1, ← t2]
          beta_reduce
          rw [e1, e2]
          simp only [Option.some_inj]
          by_cases hab : a = i ∧ b = j
          · obtain ⟨rfl, rfl⟩ := hab
            rw [key]
            by_cases hc : str1[a - 1] = str2[b - 1]
            · simp [hc, Table.set, c1]
            · simp [hc, Table.set, c1, c2, c3]
          · have hold : dp a b = L a b := by
              apply hQ a b ha hb
              rcases h with h | h | h | h
              · exact Or.inl h
              · exact Or.inr (Or.inl h)
              · exact Or.inr (Or.inr (Or.inl h))
              · exact Or.inr (Or.inr (Or.inr ⟨h.1, by omega⟩))
            split <;> simp [Table.set, hab, hold])
      intro a b ha hb h
      apply h4 a b ha hb
      rcases h with h | h | h
      · exact Or.inl h
      · exact Or.inr (Or.inl h)
      · by_cases hai : a = i
        · exact Or.inr (Or.inr (Or.inr ⟨hai, by omega⟩))
        · exact Or.inr (Or.inr (Or.inl (by omega))))
  have := h3 m n (le_refl _) (le_refl _) (by omega)
  rw [this]
  simp [L, hm, hn]

theorem levRev_le_max (a : Str) : ∀ b : Str, levRev a b ≤ max a.length b.length := by
  induction a with
  | nil => intro b; simp [levRev]
  | cons x a ih =>
    intro b
    cases b with
    | nil => simp [levRev_nil_right]
    | cons y b =>
      rw [levRev_cons_cons]
      have h := ih b
      simp only [List.length_cons]
      split
      · omega
      · have : min (min (levRev a (y :: b)) (levRev (x :: a) b)) (levRev a b) ≤ levRev a b :=
          min_le_right _ _
        omega

theorem levRev_self (a : Str) : levRev a a = 0 := by
  induction a with
  | nil => simp [levRev]
  | cons x a ih => rw [levRev_cons_cons]; simp [ih]

theorem calculateStringDistance_le_max (a b : Str) :
    calculateStringDistance a b ≤ max a.length b.length := by
  rw [calculateStringDistance_eq_levenshtein, levenshtein]
  simpa using levRev_le_max a.reverse b.reverse

theorem calculateStringDistance_self (s : Str) : calculateStringDistance s s = 0 := by
  rw [calculateStringDistance_eq_levenshtein, levenshtein, levRev_self]

/-- C4: the string similarity always lies in `[0, 1]`; the edit distance never exceeds the
longer of the two lengths. -/
theorem calculateStringSimilarity_mem_unit_interval (K : Type) [LinearOrderedField K]
    (a b : Str) :
    (0 ≤ calculateStringSimilarity K a b ∧ calculateStringSimilarity K a b ≤ 1) ∧
      calculateStringDistance a b ≤ max a.length b.length := by
  refine ⟨?_, calculateStringDistance_le_max a b⟩
  unfold calculateStringSimilarity
  split
  · exact ⟨zero_le_one, le_refl _⟩
  · split
    · exact ⟨le_refl _, zero_le_one⟩
    · rename_i h1 h2
      have hpos : 0 < max a.length b.length := by
        cases a with
        | nil => simp at h2
        | cons x a => simp
      have hK : (0 : K) < ((max a.length b.length : Nat) : K) := by exact_mod_cast hpos
      have hle : ((calculateStringDistance a b : Nat) : K) ≤
          ((max a.length b.length : Nat) : K) := by
        exact_mod_cast calculateStringDistance_le_max a b
      have h0 : (0 : K) ≤ ((calculateStringDistance a b : Nat) : K) := Nat.cast_nonneg _
      have hq1 : ((calculateStringDistance a b : Nat) : K) /
          ((max a.length b.length : Nat) : K) ≤ 1 :=
        (div_le_one hK).mpr hle
      have hq0 : 0 ≤ ((calculateStringDistance a b : Nat) : K) /
          ((max a.length b.length : Nat) : K) :=
        div_nonneg h0 hK.le
      constructor
      · simpa using hq1
      · simpa using hq0

/-- C5: every string, the empty one included, has similarity `1.0` with itself. -/
theorem calculateStringSimilarity_self (K : Type) [LinearOrderedField K] (s : Str) :
    calculateStringSimilarity K s s = 1 := by
  unfold calculateStringSimilarity
  split
  · rfl
  · split
    · rename_i h1 h2
      cases s <;> simp at h1 h2
    · simp [calculateStringDistance_self]

/-- C6: when exactly one of the strings is empty the similarity is `0.0`, and for two
non-empty strings it is `1 - calculateStringDistance(a, b) / max(|a|, |b|)`. -/
theorem calculateStringSimilarity_cases (K : Type) [LinearOrderedField K] (a b : Str) :
    ((a = [] ∧ b ≠ []) ∨ (a ≠ [] ∧ b = []) → calculateStringSimilarity K a b = 0) ∧
      (a ≠ [] → b ≠ [] →
        calculateStringSimilarity K a b =
          1 - (calculateStringDistance a b : K) / ((max a.length b.length : Nat) : K)) := by
  constructor
  · intro h
    rcases h with ⟨rfl, hb⟩ | ⟨ha, rfl⟩
    · cases b with
      | nil => exact absurd rfl hb
      | cons y b => simp [calculateStringSimilarity]
    · cases a with
      | nil => exact absurd rfl ha
      | cons x a => simp [calculateStringSimilarity]
  · intro ha hb
    cases a with
    | nil => exact absurd rfl ha
    | cons x a =>
      cases b with
      | nil => exact absurd rfl hb
      | cons y b => simp [calculateStringSimilarity]

/-- The instance of C6 at `("", "x")`, and a pair of non-empty strings. -/
theorem calculateStringSimilarity_cases_witness :
    calculateStringSimilarity ℚ [] ['x'] = 0 ∧
      calculateStringSimilarity ℚ ['a', 'b'] ['a'] =
        1 - (calculateStringDistance ['a', 'b'] ['a'] : ℚ) / ((max 2 1 : Nat) : ℚ) :=
  ⟨(calculateStringSimilarity_cases ℚ [] ['x']).1 (Or.inl ⟨rfl, by decide⟩),
   (calculateStringSimilarity_cases ℚ ['a', 'b'] ['a']).2 (by decide) (by decide)⟩

/-- C7: the iterative table of `calculateStringDistance` computes the Levenshtein distance of
the reference recursion, and so satisfies that recursion itself: `d(a, "") = |a|`,
`d("", b) = |b|`, and `d(a·x, b·y)` is `d(a, b)` when `x = y` and
`1 + min(d(a, b·y), d(a·x, b), d(a, b))` otherwise.  It is the least number of unit-cost
insertions, deletions and substitutions turning `a` into `b`: some edit script has that
cost and none has a smaller one. -/
theorem calculateStringDistance_refines_levenshtein :
    (∀ a b : Str, calculateStringDistance a b = levenshtein a b) ∧
      (∀ a : Str, calculateStringDistance a [] = a.length) ∧
      (∀ b : Str, calculateStringDistance [] b = b.length) ∧
      (∀ (a b : Str) (x y : Char),
        calculateStringDistance (a ++ [x]) (b ++ [y]) =
          if x = y then calculateStringDistance a b
          else 1 + min (min (calculateStringDistance a (b ++ [y]))
            (calculateStringDistance (a ++ [x]) b)) (calculateStringDistance a b)) ∧
      (∀ a b : Str, EditScript a b (calculateStringDistance a b)) ∧
      (∀ (a b : Str) (k : Nat), EditScript a b k → calculateStringDistance a b ≤ k) := by
  refine ⟨calculateStringDistance_eq_levenshtein, ?_, ?_, ?_, ?_, ?_⟩
  · intro a; rw [calculateStringDistance_eq_levenshtein, levenshtein_nil_right]
  · intro b; rw [calculateStringDistance_eq_levenshtein, levenshtein_nil_left]
  · intro a b x y
    simp only [calculateStringDistance_eq_levenshtein]
    exact levenshtein_snoc a b x y
  · intro a b
    rw [calculateStringDistance_eq_levenshtein]
    exact levenshtein_editScript a b
  · intro a b k h
    rw [calculateStringDistance_eq_levenshtein]
    exact levenshtein_le_of_editScript h

/-! ## Match levels -/

theorem percentage_le_iff {K : Type} [LinearOrderedField K] (m t : Int) (ht : 0 < t)
    (k : Int) :
    (m : K) / (t : K) * 100 ≤ ((20 * k : Int) : K) ↔ 5 * m ≤ k * t := by
  have htK : (0 : K) < (t : K) := by exact_mod_cast ht
  rw [div_mul_eq_mul_div, div_le_iff₀ htK]
  have e1 : (m : K) * 100 = ((m * 100 : Int) : K) := by push_cast; ring
  have e2 : ((20 * k : Int) : K) * (t : K) = ((20 * k * t : Int) : K) := by push_cast; ring
  rw [e1, e2, Int.cast_le]
  constructor <;> intro h <;> nlinarith

theorem calculateMatchLevel_pos {K : Type} [LinearOrderedField K] (m t : Int)
    (hm : 0 < m) (ht : 0 < t) :
    calculateMatchLevel K m t =
      if 5 * m ≤ t then 1 else if 5 * m ≤ 2 * t then 2 else if 5 * m ≤ 3 * t then 3
      else if 5 * m ≤ 4 * t then 4 else 5 := by
  have h1 := percentage_le_iff (K := K) m t ht 1
  have h2 := percentage_le_iff (K := K) m t ht 2
  have h3 := percentage_le_iff (K := K) m t ht 3
  have h4 := percentage_le_iff (K := K) m t ht 4
  norm_num at h1 h2 h3 h4
  have hc : ¬(t = 0 ∨ m ≤ 0) := by omega
  simp only [calculateMatchLevel, hc, if_false, h1, h2, h3, h4]

theorem calculateMatchLevel_neg_total {K : Type} [LinearOrderedField K] (m t : Int)
    (hm : 0 < m) (ht : t < 0) : calculateMatchLevel K m t = 1 := by
  have hc : ¬(t = 0 ∨ m ≤ 0) := by omega
  have htK : (t : K) < 0 := by exact_mod_cast ht
  have hmK : (0 : K) < (m : K) := by exact_mod_cast hm
  have hq : (m : K) / (t : K) * 100 ≤ 20 := by
    have : (m : K) / (t : K) < 0 := div_neg_of_pos_of_neg hmK htK
    nlinarith
  simp only [calculateMatchLevel, hc, if_false, hq, if_true]

theorem calculateMatchLevel_degenerate {K : Type} [LinearOrderedField K] (m t : Int)
    (h : t = 0 ∨ m ≤ 0) : calculateMatchLevel K m t = 1 := by
  simp [calculateMatchLevel, h]

theorem calculateMatchLevel_range {K : Type} [LinearOrderedField K] (m t : Int) :
    1 ≤ calculateMatchLevel K m t ∧ calculateMatchLevel K m t ≤ 5 := by
  by_cases hc : t = 0 ∨ m ≤ 0
  · rw [calculateMatchLevel_degenerate m t hc]; omega
  · rcases lt_trichotomy t 0 with ht | ht | ht
    · rw [calculateMatchLevel_neg_total m t (by omega) ht]; omega
    · omega
    · rw [calculateMatchLevel_pos m t (by omega) ht]
      split_ifs <;> omega

theorem calculateMatchLevel_full {K : Type} [LinearOrderedField K] (m : Int) (hm : 0 < m) :
    calculateMatchLevel K m m = 5 := by
  rw [calculateMatchLevel_pos m m hm hm]
  split_ifs <;> omega

/-- C8: `calculateMatchLevel` always returns a level in `1..5`; the level is 1 when the total
is 0 or nothing matched; and for positive arguments the level is the 20%-band of `m / t`,
upper bounds included, so that a full match `m = t` has level 5. -/
theorem calculateMatchLevel_spec (K : Type) [LinearOrderedField K] (m t : Int) :
    (1 ≤ calculateMatchLevel K m t ∧ calculateMatchLevel K m t ≤ 5) ∧
      (t = 0 ∨ m ≤ 0 → calculateMatchLevel K m t = 1) ∧
      (0 < m → 0 < t →
        (calculateMatchLevel K m t = 1 ↔ 5 * m ≤ t) ∧
        (calculateMatchLevel K m t = 2 ↔ t < 5 * m ∧ 5 * m ≤ 2 * t) ∧
        (calculateMatchLevel K m t = 3 ↔ 2 * t < 5 * m ∧ 5 * m ≤ 3 * t) ∧
        (calculateMatchLevel K m t = 4 ↔ 3 * t < 5 * m ∧ 5 * m ≤ 4 * t) ∧
        (calculateMatchLevel K m t = 5 ↔ 4 * t < 5 * m) ∧
        (m = t → calculateMatchLevel K m t = 5)) := by
  refine ⟨calculateMatchLevel_range m t, calculateMatchLevel_degenerate m t, ?_⟩
  intro hm ht
  rw [calculateMatchLevel_pos m t hm ht]
  split_ifs <;> omega

/-- Instances of C8: `1/5` is level 1, `2/5` level 2, `3/5` level 3, `4/5` level 4 and a full
match `5/5` level 5. -/
theorem calculateMatchLevel_spec_witness :
    calculateMatchLevel ℚ 1 5 = 1 ∧ calculateMatchLevel ℚ 2 5 = 2 ∧
      calculateMatchLevel ℚ 3 5 = 3 ∧ calculateMatchLevel ℚ 4 5 = 4 ∧
      calculateMatchLevel ℚ 5 5 = 5 ∧ calculateMatchLevel ℚ 3 0 = 1 :=
  ⟨((calculateMatchLevel_spec ℚ 1 5).2.2 (by decide) (by decide)).1.mpr (by decide),
   ((calculateMatchLevel_spec ℚ 2 5).2.2 (by decide) (by decide)).2.1.mpr (by decide),
   ((calculateMatchLevel_spec ℚ 3 5).2.2 (by decide) (by decide)).2.2.1.mpr (by decide),
   ((calculateMatchLevel_spec ℚ 4 5).2.2 (by decide) (by decide)).2.2.2.1.mpr (by decide),
   ((calculateMatchLevel_spec ℚ 5 5).2.2 (by decide) (by decide)).2.2.2.2.2 rfl,
   (calculateMatchLevel_spec ℚ 3 0).2.1 (Or.inl rfl)⟩

/-- C9: for a fixed positive total, the level is monotone non-decreasing in the number of
matched features. -/
theorem calculateMatchLevel_mono (K : Type) [LinearOrderedField K] (t m1 m2 : Int)
    (ht : 0 < t) (h : m1 ≤ m2) :
    calculateMatchLevel K m1 t ≤ calculateMatchLevel K m2 t := by
  by_cases h1 : m1 ≤ 0
  · rw [calculateMatchLevel_degenerate m1 t (Or.inr h1)]
    exact (calculateMatchLevel_range m2 t).1
  · rw [calculateMatchLevel_pos m1 t (by omega) ht, calculateMatchLevel_pos m2 t (by omega) ht]
    split_ifs <;> omega

/-- An instance of C9: with 5 features, 2 matches give a level below that of 4 matches. -/
theorem calculateMatchLevel_mono_witness :
    calculateMatchLevel ℚ 2 5 ≤ calculateMatchLevel ℚ 4 5 :=
  calculateMatchLevel_mono ℚ 5 2 4 (by decide) (by decide)

/-! ## Exact matching -/

theorem exactMatched_iff (c : Concept) (f : Feature) :
    exactMatched c f = true ↔
      (f.key = [] ∧ ∃ v ∈ c.feature_values, f.value = v) ∨
      (f.key ≠ [] ∧ ∃ j, j < c.feature_keys.length ∧ j < c.feature_values.length ∧
        c.feature_keys[j]? = some f.key ∧ c.feature_values[j]? = some f.value) := by
  unfold exactMatched
  by_cases hk : f.key = []
  · simp [hk]
  · have hk' : f.key.isEmpty = false := by
      cases hf : f.key with
      | nil => exact absurd hf hk
      | cons x xs => rfl
    simp only [hk', Bool.false_eq_true, if_false, hk, false_and, false_or, ne_eq,
      not_false_eq_true, true_and, List.any_eq_true, List.mem_range, decide_eq_true_eq]
    constructor
    · rintro ⟨j, hj, h1, h2⟩
      refine ⟨j, hj, ?_, h1, h2⟩
      by_contra hlt
      rw [List.getElem?_eq_none (by omega)] at h2
      exact absurd h2 (by simp)
    · rintro ⟨j, hj, _, h1, h2⟩
      exact ⟨j, hj, h1, h2⟩

theorem matchConceptExact_foldl (c : Concept) (l : List (Nat × Feature)) (r : MatchResult) :
    l.foldl
      (fun result p =>
        let i := p.1
        let input_feature := p.2
        let matched :=
          if input_feature.key.isEmpty then
            c.feature_values.any (fun concept_value => input_feature.value = concept_value)
          else
            (List.range c.feature_keys.length).any (fun j =>
              c.feature_keys[j]? = some input_feature.key ∧
              c.feature_values[j]? = some input_feature.value)
        if matched then
          { result with
            match_count := result.match_count + 1
            matched_indices := result.matched_indices ++ [i] }
        else result) r =
      { concept_id := r.concept_id
        match_count := r.match_count + ((l.filter (fun p => exactMatched c p.2)).length : Int)
        matched_indices :=
          r.matched_indices ++ (l.filter (fun p => exactMatched c p.2)).map Prod.fst } := by
  induction l generalizing r with
  | nil => simp
  | cons p l ih =>
    rw [List.foldl_cons, ih]
    by_cases h : exactMatched c p.2 = true
    · have h' := h
      unfold exactMatched at h'
      simp only [h', if_true, List.filter_cons, h, List.length_cons, List.map_cons,
        Nat.cast_add, Nat.cast_one, List.append_assoc, List.singleton_append]
      congr 1
      omega
    · have h' := h
      unfold exactMatched at h'
      simp only [h', List.filter_cons, h]
      simp

theorem matchConceptExact_eq (fs : List Feature) (c : Concept) :
    matchConceptExact fs c =
      { concept_id := c.id
        match_count := ((fs.enum.filter (fun p => exactMatched c p.2)).length : Int)
        matched_indices := (fs.enum.filter (fun p => exactMatched c p.2)).map Prod.fst } := by
  unfold matchConceptExact
  rw [matchConceptExact_foldl]
  simp

theorem matchConceptExact_concept_id (fs : List Feature) (c : Concept) :
    (matchConceptExact fs c).concept_id = c.id := by
  rw [matchConceptExact_eq]

/-- C10: `matchConceptExact` records input index `i` exactly when the feature at `i` has an
empty key and its value is one of the concept's values, or has a non-empty key and some
position of the concept carries both that key and that value; no index is recorded twice and
`match_count` is the number of recorded indices. -/
theorem matchConceptExact_spec (fs : List Feature) (c : Concept)
    (hpar : c.feature_keys.length = c.feature_values.length) :
    (∀ i : Nat, i ∈ (matchConceptExact fs c).matched_indices ↔
      ∃ f, fs[i]? = some f ∧
        ((f.key = [] ∧ ∃ v ∈ c.feature_values, f.value = v) ∨
         (f.key ≠ [] ∧ ∃ j, j < c.feature_keys.length ∧
            c.feature_keys[j]? = some f.key ∧ c.feature_values[j]? = some f.value))) ∧
      (matchConceptExact fs c).matched_indices.Nodup ∧
      (matchConceptExact fs c).match_count = (matchConceptExact fs c).matched_indices.length ∧
      (matchConceptExact fs c).concept_id = c.id := by
  rw [matchConceptExact_eq]
  refine ⟨?_, ?_, ?_, rfl⟩
  · intro i
    simp only [List.mem_map, List.mem_filter, Prod.exists, exists_and_right, exists_eq_right]
    constructor
    · rintro ⟨f, hmem, hhit⟩
      refine ⟨f, List.mk_mem_enum_iff_getElem?.mp hmem, ?_⟩
      rcases (exactMatched_iff c f).mp hhit with h | ⟨hk, j, hj, _, h1, h2⟩
      · exact Or.inl h
      · exact Or.inr ⟨hk, j, hj, h1, h2⟩
    · rintro ⟨f, hget, hspec⟩
      refine ⟨f, List.mk_mem_enum_iff_getElem?.mpr hget, (exactMatched_iff c f).mpr ?_⟩
      rcases hspec with h | ⟨hk, j, hj, h1, h2⟩
      · exact Or.inl h
      · exact Or.inr ⟨hk, j, hj, by omega, h1, h2⟩
  · have hsub : ((fs.enum.filter (fun p => exactMatched c p.2)).map Prod.fst).Sublist
        (fs.enum.map Prod.fst) := List.Sublist.map _ (List.filter_sublist _)
    rw [List.enum_map_fst] at hsub
    exact hsub.nodup (List.nodup_range _)
  · simp

/-- An instance of C10: against `{color:red, kind:fruit}` the unkeyed `red` matches, the keyed
`kind:red` does not, and the keyed `kind:fruit` does. -/
theorem matchConceptExact_spec_witness :
    (∀ i : Nat, i ∈ (matchConceptExact
        [⟨[], "red".toList⟩, ⟨"kind".toList, "red".toList⟩, ⟨"kind".toList, "fruit".toList⟩]
        redFruit).matched_indices ↔
      ∃ f, [(⟨[], "red".toList⟩ : Feature), ⟨"kind".toList, "red".toList⟩,
          ⟨"kind".toList, "fruit".toList⟩][i]? = some f ∧
        ((f.key = [] ∧ ∃ v ∈ redFruit.feature_values, f.value = v) ∨
         (f.key ≠ [] ∧ ∃ j, j < redFruit.feature_keys.length ∧
            redFruit.feature_keys[j]? = some f.key ∧
            redFruit.feature_values[j]? = some f.value))) ∧
      matchConceptExact
        [⟨[], "red".toList⟩, ⟨"kind".toList, "red".toList⟩, ⟨"kind".toList, "fruit".toList⟩]
        redFruit = ⟨1, 2, [0, 2]⟩ :=
  ⟨(matchConceptExact_spec _ redFruit (by decide)).1, by decide⟩

/-! ## Overlap maps: weighted sums, sorted keys, swapping -/

section OverlapMaps
variable {K : Type} [LinearOrderedField K]

theorem foldl_weighted_sum (w : LevelPair → K) (om : OverlapMap) (init : K) :
    om.foldl (fun acc e => acc + (e.2 : K) * w e.1) init = init + entrySum w om := by
  induction om generalizing init with
  | nil => simp [entrySum]
  | cons e om ih =>
    rw [List.foldl_cons, ih]
    simp [entrySum, add_assoc]

theorem calculatePartialSimilarity_eq (om : OverlapMap) (d : Int) (params : Params K) :
    calculatePartialSimilarity om d params =
      if d = 0 then 0 else entrySum (fun k => paramValue params k.1 k.2) om / (d : K) := by
  unfold calculatePartialSimilarity
  split
  · rfl
  · have := foldl_weighted_sum (fun k => paramValue params k.1 k.2) om 0
    simp only [zero_add] at this
    simp only [this]

theorem LevelPair.lt_trans {a b c : LevelPair} (h1 : LevelPair.lt a b) (h2 : LevelPair.lt b c) :
    LevelPair.lt a c := by
  unfold LevelPair.lt at *
  omega

theorem LevelPair.lt_irrefl (a : LevelPair) : ¬LevelPair.lt a a := by
  unfold LevelPair.lt
  omega

theorem LevelPair.lt_of_not_lt {a b : LevelPair} (hne : a ≠ b) (h : ¬LevelPair.lt a b) :
    LevelPair.lt b a := by
  unfold LevelPair.lt at *
  have : a.1 ≠ b.1 ∨ a.2 ≠ b.2 := by
    by_contra hc
    push_neg at hc
    exact hne (Prod.ext hc.1 hc.2)
  omega

theorem entrySum_increment (w : LevelPair → K) (om : OverlapMap) (k : LevelPair) :
    entrySum w (OverlapMap.increment om k) = entrySum w om + w k := by
  induction om with
  | nil => simp [OverlapMap.increment, entrySum]
  | cons e om ih =>
    obtain ⟨k', v⟩ := e
    unfold OverlapMap.increment
    split_ifs with h1 h2
    · subst h1
      simp only [entrySum, List.map_cons, List.sum_cons, Int.cast_add, Int.cast_one]
      ring
    · simp only [entrySum, List.map_cons, List.sum_cons, Int.cast_one, one_mul]
      ring
    · have e1 : entrySum w ((k', v) :: OverlapMap.increment om k) =
          (v : K) * w k' + entrySum w (OverlapMap.increment om k) := by
        simp [entrySum]
      have e2 : entrySum w ((k', v) :: om) = (v : K) * w k' + entrySum w om := by
        simp [entrySum]
      rw [e1, e2, ih]
      ring

theorem mem_keys_increment (om : OverlapMap) (k k0 : LevelPair) :
    k0 ∈ OverlapMap.keys (OverlapMap.increment om k) ↔
      k0 = k ∨ k0 ∈ OverlapMap.keys om := by
  induction om with
  | nil => simp [OverlapMap.increment, OverlapMap.keys]
  | cons e om ih =>
    obtain ⟨k', v⟩ := e
    unfold OverlapMap.increment
    split_ifs with h1 h2
    · subst h1
      simp [OverlapMap.keys]
    · simp [OverlapMap.keys]
    · have e1 : OverlapMap.keys ((k', v) :: OverlapMap.increment om k) =
          k' :: OverlapMap.keys (OverlapMap.increment om k) := rfl
      have e2 : OverlapMap.keys ((k', v) :: om) = k' :: OverlapMap.keys om := rfl
      rw [e1, e2, List.mem_cons, List.mem_cons, ih]
      tauto

theorem sorted_keys_increment (om : OverlapMap) (k : LevelPair)
    (h : (OverlapMap.keys om).Pairwise LevelPair.lt) :
    (OverlapMap.keys (OverlapMap.increment om k)).Pairwise LevelPair.lt := by
  induction om with
  | nil => simp [OverlapMap.increment, OverlapMap.keys]
  | cons e om ih =>
    obtain ⟨k', v⟩ := e
    have e2 : OverlapMap.keys ((k', v) :: om) = k' :: OverlapMap.keys om := rfl
    rw [e2, List.pairwise_cons] at h
    unfold OverlapMap.increment
    split_ifs with h1 h2
    · show (k' :: OverlapMap.keys om).Pairwise LevelPair.lt
      exact List.pairwise_cons.mpr h
    · show (k :: k' :: OverlapMap.keys om).Pairwise LevelPair.lt
      refine List.pairwise_cons.mpr ⟨?_, List.pairwise_cons.mpr h⟩
      intro a ha
      rcases List.mem_cons.mp ha with rfl | ha
      · exact h2
      · exact LevelPair.lt_trans h2 (h.1 a ha)
    · show (k' :: OverlapMap.keys (OverlapMap.increment om k)).Pairwise LevelPair.lt
      refine List.pairwise_cons.mpr ⟨?_, ih h.2⟩
      intro a ha
      rcases (mem_keys_increment om k a).mp ha with rfl | ha
      · exact LevelPair.lt_of_not_lt h1 h2
      · exact h.1 a ha

theorem entrySum_assign (w : LevelPair → K) (om : OverlapMap) (k : LevelPair) (v : Int)
    (hk : k ∉ OverlapMap.keys om) :
    entrySum w (OverlapMap.assign om k v) = entrySum w om + (v : K) * w k := by
  induction om with
  | nil => simp [OverlapMap.assign, entrySum]
  | cons e om ih =>
    obtain ⟨k', v'⟩ := e
    have e2 : OverlapMap.keys ((k', v') :: om) = k' :: OverlapMap.keys om := rfl
    rw [e2, List.mem_cons, not_or] at hk
    unfold OverlapMap.assign
    split_ifs with h1 h2
    · exact absurd h1 hk.1
    · simp only [entrySum, List.map_cons, List.sum_cons]
      ring
    · have e1 : entrySum w ((k', v') :: OverlapMap.assign om k v) =
          (v' : K) * w k' + entrySum w (OverlapMap.assign om k v) := by
        simp [entrySum]
      have e3 : entrySum w ((k', v') :: om) = (v' : K) * w k' + entrySum w om := by
        simp [entrySum]
      rw [e1, e3, ih hk.2]
      ring

theorem mem_keys_assign (om : OverlapMap) (k k0 : LevelPair) (v : Int) :
    k0 ∈ OverlapMap.keys (OverlapMap.assign om k v) ↔ k0 = k ∨ k0 ∈ OverlapMap.keys om := by
  induction om with
  | nil => simp [OverlapMap.assign, OverlapMap.keys]
  | cons e om ih =>
    obtain ⟨k', v'⟩ := e
    unfold OverlapMap.assign
    split_ifs with h1 h2
    · subst h1
      simp [OverlapMap.keys]
    · simp [OverlapMap.keys]
    · have e1 : OverlapMap.keys ((k', v') :: OverlapMap.assign om k v) =
          k' :: OverlapMap.keys (OverlapMap.assign om k v) := rfl
      have e2 : OverlapMap.keys ((k', v') :: om) = k' :: OverlapMap.keys om := rfl
      rw [e1, e2, List.mem_cons, List.mem_cons, ih]
      tauto

theorem entrySum_foldl_increment (w : LevelPair → K) (ks : List LevelPair) (om : OverlapMap) :
    entrySum w (ks.foldl OverlapMap.increment om) = entrySum w om + (ks.map w).sum := by
  induction ks generalizing om with
  | nil => simp
  | cons k ks ih =>
    rw [List.foldl_cons, ih, entrySum_increment]
    simp [add_assoc]

theorem sorted_keys_foldl_increment (ks : List LevelPair) (om : OverlapMap)
    (h : (OverlapMap.keys om).Pairwise LevelPair.lt) :
    (OverlapMap.keys (ks.foldl OverlapMap.increment om)).Pairwise LevelPair.lt := by
  induction ks generalizing om with
  | nil => simpa using h
  | cons k ks ih =>
    rw [List.foldl_cons]
    exact ih _ (sorted_keys_increment om k h)

theorem nodup_keys_of_sorted (om : OverlapMap) (h : (OverlapMap.keys om).Pairwise LevelPair.lt) :
    (OverlapMap.keys om).Nodup := by
  refine List.Pairwise.imp ?_ h
  intro a b hab heq
  subst heq
  exact LevelPair.lt_irrefl a hab

theorem entrySum_foldl_assign_swapped (w : LevelPair → K) (l acc : OverlapMap)
    (hnd : (OverlapMap.keys l).Nodup) (hdis : ∀ e ∈ l, (e.1.2, e.1.1) ∉ OverlapMap.keys acc) :
    entrySum w (l.foldl (fun mp entry => mp.assign (entry.1.2, entry.1.1) entry.2) acc) =
      entrySum w acc + entrySum (fun k => w (k.2, k.1)) l := by
  induction l generalizing acc with
  | nil => simp [entrySum]
  | cons e l ih =>
    have e2 : OverlapMap.keys (e :: l) = e.1 :: OverlapMap.keys l := rfl
    rw [e2, List.nodup_cons] at hnd
    rw [List.foldl_cons, ih _ hnd.2, entrySum_assign w acc _ _ (hdis e (List.mem_cons_self _ _))]
    · simp [entrySum, add_assoc]
    · intro e' he' hmem
      rcases (mem_keys_assign acc _ _ _).mp hmem with heq | hmem
      · have : e'.1 = e.1 := by
          have h1 := congrArg Prod.fst heq
          have h2 := congrArg Prod.snd heq
          simp at h1 h2
          exact Prod.ext h2 h1
        apply hnd.1
        rw [← this]
        exact List.mem_map_of_mem _ he'
      · exact hdis e' (List.mem_cons_of_mem _ he') hmem

theorem entrySum_swapOverlap (w : LevelPair → K) (om : OverlapMap)
    (hnd : (OverlapMap.keys om).Nodup) :
    entrySum w (swapOverlap om) = entrySum (fun k => w (k.2, k.1)) om := by
  unfold swapOverlap
  rw [entrySum_foldl_assign_swapped w om [] hnd (by simp [OverlapMap.keys])]
  simp [entrySum]

end OverlapMaps

/-! ## Overlap analysis of two exact match sets -/

section Scoring
variable {K : Type} [LinearOrderedField K]

theorem findMatchingConcepts_foldl (fs : List Feature) (cs : List Concept)
    (acc : List MatchResult) :
    cs.foldl
      (fun results c =>
        let match_result := matchConceptExact fs c
        if match_result.match_count > 0 then results ++ [match_result] else results) acc =
      acc ++ (cs.map (matchConceptExact fs)).filter (fun r => 0 < r.match_count) := by
  induction cs generalizing acc with
  | nil => simp
  | cons c cs ih =>
    rw [List.foldl_cons, ih]
    by_cases h : 0 < (matchConceptExact fs c).match_count
    · simp [h, List.filter_cons]
    · simp [h, List.filter_cons]

theorem findMatchingConcepts_eq (store : Store) (fs : List Feature) :
    findMatchingConcepts store fs =
      (store.concepts.map (matchConceptExact fs)).filter (fun r => 0 < r.match_count) := by
  unfold findMatchingConcepts Store.getAll
  rw [findMatchingConcepts_foldl]
  simp

theorem idMap_foldl_eq_some (l : List MatchResult) (init : IdMap) (k : Nat) (v : Int)
    (hnd : (l.map MatchResult.concept_id).Nodup) :
    (l.foldl (fun mp r => IdMap.assign mp r.concept_id r.match_count) init) k = some v ↔
      (∃ r ∈ l, r.concept_id = k ∧ r.match_count = v) ∨
      (k ∉ l.map MatchResult.concept_id ∧ init k = some v) := by
  induction l generalizing init with
  | nil => simp
  | cons r l ih =>
    rw [List.map_cons, List.nodup_cons] at hnd
    rw [List.foldl_cons, ih _ hnd.2]
    simp only [List.mem_cons, List.map_cons, IdMap.assign, not_or]
    constructor
    · rintro (⟨r', hr', h1, h2⟩ | ⟨hk, hinit⟩)
      · exact Or.inl ⟨r', Or.inr hr', h1, h2⟩
      · by_cases hkr : k = r.concept_id
        · rw [if_pos hkr] at hinit
          exact Or.inl ⟨r, Or.inl rfl, hkr.symm, Option.some.inj hinit⟩
        · rw [if_neg hkr] at hinit
          exact Or.inr ⟨⟨hkr, hk⟩, hinit⟩
    · rintro (⟨r', hr' | hr', h1, h2⟩ | ⟨⟨hkr, hk⟩, hinit⟩)
      · subst hr'
        refine Or.inr ⟨?_, ?_⟩
        · rw [← h1]; exact hnd.1
        · rw [if_pos h1.symm, h2]
      · exact Or.inl ⟨r', hr', h1, h2⟩
      · exact Or.inr ⟨hk, by rw [if_neg hkr]; exact hinit⟩

theorem analyzeOverlap_foldl (matches_A : List MatchResult) (bmap : IdMap) (tA tB : Int)
    (st : OverlapMap × Int) :
    matches_A.foldl
      (fun st match_A =>
        match bmap match_A.concept_id with
        | some match_count_B =>
          let match_count_A := match_A.match_count
          let level_A := calculateMatchLevel K match_count_A tA
          let level_B := calculateMatchLevel K match_count_B tB
          (OverlapMap.increment st.1 (level_A, level_B), st.2 + 1)
        | none => st) st =
      ((overlapKeys K matches_A bmap tA tB).foldl OverlapMap.increment st.1,
        st.2 + ((overlapKeys K matches_A bmap tA tB).length : Int)) := by
  induction matches_A generalizing st with
  | nil => simp [overlapKeys]
  | cons a l ih =>
    rw [List.foldl_cons, ih]
    unfold overlapKeys
    cases hb : bmap a.concept_id with
    | none => simp [List.filterMap_cons, hb]
    | some cb =>
      simp only [List.filterMap_cons, hb, Option.map_some', List.foldl_cons, List.length_cons,
        Nat.cast_add, Nat.cast_one]
      congr 1
      omega

theorem analyzeOverlap_eq (matches_A matches_B : List MatchResult) (tA tB : Int) :
    analyzeOverlap K matches_A matches_B tA tB =
      ((overlapKeys K matches_A (matchesMap matches_B) tA tB).foldl OverlapMap.increment [],
        ((overlapKeys K matches_A (matchesMap matches_B) tA tB).length : Int)) := by
  unfold analyzeOverlap
  have := analyzeOverlap_foldl (K := K) matches_A (matchesMap matches_B) tA tB ([], 0)
  simp only [zero_add] at this
  exact this

theorem matchesMap_store (store : Store) (B : List Feature) (c : Concept)
    (hc : c ∈ store.concepts) :
    matchesMap (findMatchingConcepts store B) c.id =
      if 0 < (matchConceptExact B c).match_count then
        some (matchConceptExact B c).match_count
      else none := by
  have hids : ((findMatchingConcepts store B).map MatchResult.concept_id).Sublist
      (store.concepts.map Concept.id) := by
    rw [findMatchingConcepts_eq]
    have h1 := List.Sublist.map MatchResult.concept_id
      (List.filter_sublist (p := fun r : MatchResult => decide (0 < r.match_count))
        (store.concepts.map (matchConceptExact B)))
    have h2 : (store.concepts.map (matchConceptExact B)).map MatchResult.concept_id =
        store.concepts.map Concept.id := by
      rw [List.map_map]
      apply List.map_congr_left
      intro d _
      exact matchConceptExact_concept_id B d
    rwa [h2] at h1
  have hnd := hids.nodup store.unique_ids
  apply Option.ext
  intro v
  unfold matchesMap
  simp only [Option.mem_def]
  rw [idMap_foldl_eq_some _ _ _ _ hnd]
  rw [findMatchingConcepts_eq]
  constructor
  · rintro (⟨r, hr, hid, hv⟩ | ⟨_, hnone⟩)
    swap
    · exact absurd hnone (by simp)
    rw [List.mem_filter, List.mem_map] at hr
    obtain ⟨⟨d, hd, rfl⟩, hpos⟩ := hr
    rw [matchConceptExact_concept_id] at hid
    have hdc : d = c := List.inj_on_of_nodup_map store.unique_ids hd hc hid
    subst hdc
    have hpos' : 0 < (matchConceptExact B d).match_count := by simpa using hpos
    rw [if_pos hpos', hv]
  · intro h
    by_cases hpos : 0 < (matchConceptExact B c).match_count
    · rw [if_pos hpos] at h
      refine Or.inl
        ⟨matchConceptExact B c, ?_, matchConceptExact_concept_id B c, Option.some.inj h⟩
      rw [List.mem_filter, List.mem_map]
      exact ⟨⟨c, hc, rfl⟩, by simpa using hpos⟩
    · rw [if_neg hpos] at h
      exact absurd h (by simp)

theorem overlapKeys_store (store : Store) (A B : List Feature) :
    overlapKeys K (findMatchingConcepts store A) (matchesMap (findMatchingConcepts store B))
        (A.length : Int) (B.length : Int) =
      coMatchedKeys K store.concepts A B := by
  unfold overlapKeys coMatchedKeys
  rw [findMatchingConcepts_eq store A, ← List.filterMap_eq_filter, List.filterMap_map,
    List.filterMap_filterMap]
  apply List.filterMap_congr
  intro c hc
  simp only [Function.comp, Option.guard]
  by_cases hA : 0 < (matchConceptExact A c).match_count
  · have hm := matchesMap_store store B c hc
    rw [← matchConceptExact_concept_id A c] at hm
    by_cases hB : 0 < (matchConceptExact B c).match_count
    · rw [if_pos hB] at hm
      simp [hA, hB, hm]
    · rw [if_neg hB] at hm
      simp [hA, hB, hm]
  · simp [hA]

theorem coMatchedKeys_swap (cs : List Concept) (A B : List Feature) :
    coMatchedKeys K cs B A = (coMatchedKeys K cs A B).map Prod.swap := by
  unfold coMatchedKeys
  rw [List.map_filterMap]
  apply List.filterMap_congr
  intro c _
  by_cases h : 0 < (matchConceptExact A c).match_count ∧ 0 < (matchConceptExact B c).match_count
  · simp [h, h.symm]
  · have h' : ¬(0 < (matchConceptExact B c).match_count ∧
        0 < (matchConceptExact A c).match_count) := fun hc => h hc.symm
    simp [h, h']

end Scoring

/-! ## The main similarity -/

section Main
variable {K : Type} [LinearOrderedField K]

theorem calculateMainSimilarity_eq (sqrt : K → K) (store : Store) (A B : List Feature)
    (params : Params K) :
    calculateMainSimilarity sqrt store A B params =
      if ((coMatchedKeys K store.concepts A B).length : Int) = 0 then 0
      else sqrt
        (guardedQuotient
            (((coMatchedKeys K store.concepts A B).map
              (fun k => paramValue params k.1 k.2)).sum)
            ((findMatchingConcepts store A).length : Int) *
          guardedQuotient
            (((coMatchedKeys K store.concepts A B).map
              (fun k => paramValue params k.2 k.1)).sum)
            ((findMatchingConcepts store B).length : Int)) := by
  unfold calculateMainSimilarity
  simp only [analyzeOverlap_eq, overlapKeys_store, calculatePartialSimilarity_eq]
  have hsorted : (OverlapMap.keys
      ((coMatchedKeys K store.concepts A B).foldl OverlapMap.increment [])).Pairwise
      LevelPair.lt :=
    sorted_keys_foldl_increment _ [] (by simp [OverlapMap.keys])
  rw [entrySum_swapOverlap _ _ (nodup_keys_of_sorted _ hsorted)]
  simp only [entrySum_foldl_increment]
  simp [entrySum, guardedQuotient]

/-- C1: the main similarity is symmetric in its two feature lists, for every store (whose
concept identifiers are unique), every parameter table and every square-root function. -/
theorem calculateMainSimilarity_symm (sqrt : K → K) (store : Store) (A B : List Feature)
    (params : Params K) :
    calculateMainSimilarity sqrt store A B params =
      calculateMainSimilarity sqrt store B A params := by
  rw [calculateMainSimilarity_eq, calculateMainSimilarity_eq, coMatchedKeys_swap (K := K) _ A B]
  simp only [List.length_map, List.map_map]
  have e1 : ((fun k : LevelPair => paramValue params k.1 k.2) ∘ Prod.swap) =
      fun k : LevelPair => paramValue params k.2 k.1 := by
    funext k; rfl
  have e2 : ((fun k : LevelPair => paramValue params k.2 k.1) ∘ Prod.swap) =
      fun k : LevelPair => paramValue params k.1 k.2 := by
    funext k; rfl
  rw [e1, e2, mul_comm]

theorem calculateMainSimilarity_eq_zero (sqrt : K → K) (store : Store) (A B : List Feature)
    (params : Params K)
    (h : ∀ c ∈ store.getAll, ¬(0 < (matchConceptExact A c).match_count ∧
      0 < (matchConceptExact B c).match_count)) :
    calculateMainSimilarity sqrt store A B params = 0 := by
  rw [calculateMainSimilarity_eq]
  have hks : coMatchedKeys K store.concepts A B = [] := by
    unfold coMatchedKeys
    rw [List.filterMap_eq_nil_iff]
    intro c hc
    rw [if_neg (h c hc)]
  simp [hks]

theorem matchConceptExact_nil (c : Concept) : matchConceptExact [] c = ⟨c.id, 0, []⟩ := rfl

/-- An empty feature list on either side gives similarity `0.0`: no concept is matched by an
empty list. -/
theorem calculateMainSimilarity_nil (sqrt : K → K) (store : Store) (A : List Feature)
    (params : Params K) :
    calculateMainSimilarity sqrt store [] A params = 0 ∧
      calculateMainSimilarity sqrt store A [] params = 0 := by
  constructor
  · apply calculateMainSimilarity_eq_zero
    intro c _ hc
    rw [matchConceptExact_nil] at hc
    exact absurd hc.1 (lt_irrefl (0 : Int))
  · apply calculateMainSimilarity_eq_zero
    intro c _ hc
    rw [matchConceptExact_nil] at hc
    exact absurd hc.2 (lt_irrefl (0 : Int))

/-- C2: when no stored concept is exactly matched by both feature lists, the main similarity
is exactly `0.0`; in particular it is `0.0` as soon as one of the two lists is empty. -/
theorem calculateMainSimilarity_disjoint (sqrt : K → K) (store : Store) (A B : List Feature)
    (params : Params K) :
    ((∀ c ∈ store.getAll, ¬(0 < (matchConceptExact A c).match_count ∧
        0 < (matchConceptExact B c).match_count)) →
      calculateMainSimilarity sqrt store A B params = 0) ∧
    calculateMainSimilarity sqrt store [] B params = 0 ∧
    calculateMainSimilarity sqrt store A [] params = 0 :=
  ⟨calculateMainSimilarity_eq_zero sqrt store A B params,
    (calculateMainSimilarity_nil sqrt store B params).1,
    (calculateMainSimilarity_nil sqrt store A params).2⟩

/-- The instance of C2 from the specification: `color:red` against `color:blue` over the store
holding `{color:red, kind:fruit}`. -/
theorem calculateMainSimilarity_disjoint_witness :
    calculateMainSimilarity Rat.sqrt redFruitStore
      [⟨"color".toList, "red".toList⟩] [⟨"color".toList, "blue".toList⟩]
      (g_similarity_params ℚ) = 0 :=
  (calculateMainSimilarity_disjoint Rat.sqrt redFruitStore _ _ _).1 (by decide)

end Main

section FullMatch
variable {K : Type} [LinearOrderedField K]

theorem filterMap_ite_const {α β : Type} (p : α → Prop) [DecidablePred p] (k : β)
    (l : List α) :
    l.filterMap (fun c => if p c then some k else none) =
      List.replicate (l.filter (fun c => decide (p c))).length k := by
  induction l with
  | nil => simp
  | cons a l ih =>
    by_cases h : p a
    · simp [List.filterMap_cons, List.filter_cons, h, ih, List.replicate_succ]
    · simp [List.filterMap_cons, List.filter_cons, h, ih]

theorem foldl_increment_replicate (k : LevelPair) (m : Nat) (v : Int) :
    (List.replicate m k).foldl OverlapMap.increment [(k, v)] = [(k, v + (m : Int))] := by
  induction m generalizing v with
  | zero => simp
  | succ m ih =>
    rw [List.replicate_succ, List.foldl_cons]
    have : OverlapMap.increment [(k, v)] k = [(k, v + 1)] := by
      simp [OverlapMap.increment]
    rw [this, ih]
    congr 2
    push_cast
    ring

theorem foldl_increment_replicate_nil (k : LevelPair) (m : Nat) (hm : 0 < m) :
    (List.replicate m k).foldl OverlapMap.increment [] = [(k, (m : Int))] := by
  obtain ⟨m', rfl⟩ : ∃ m', m = m' + 1 := ⟨m - 1, by omega⟩
  rw [List.replicate_succ, List.foldl_cons]
  have : OverlapMap.increment [] k = [(k, 1)] := rfl
  rw [this, foldl_increment_replicate]
  congr 2
  push_cast
  ring

theorem findMatchingConcepts_length (store : Store) (fs : List Feature) :
    (findMatchingConcepts store fs).length =
      (store.concepts.filter
        (fun c => decide (0 < (matchConceptExact fs c).match_count))).length := by
  rw [findMatchingConcepts_eq, List.filter_map, List.length_map]
  rfl

/-- C3: when the two feature lists exactly match the same, non-empty set of stored concepts
and each list matches all of its own features in every one of them, then the overlap map is
`{(5,5) -> n}` with `n` the number of those concepts, both partial similarities equal the
weight `w` read for `p55`, and the main similarity is `sqrt (w * w)`, which is `w` itself when
`w` is non-negative (for a square root with `sqrt (x * x) = x` on non-negative `x`). -/
theorem calculateMainSimilarity_full_match (sqrt : K → K) (store : Store)
    (A B : List Feature) (params : Params K)
    (hsame : ∀ c ∈ store.getAll, 0 < (matchConceptExact A c).match_count ↔
      0 < (matchConceptExact B c).match_count)
    (hne : ∃ c ∈ store.getAll, 0 < (matchConceptExact A c).match_count)
    (hfull : ∀ c ∈ store.getAll, 0 < (matchConceptExact A c).match_count →
      (matchConceptExact A c).match_count = (A.length : Int) ∧
      (matchConceptExact B c).match_count = (B.length : Int)) :
    0 < (findMatchingConcepts store A).length ∧
      (findMatchingConcepts store B).length = (findMatchingConcepts store A).length ∧
      analyzeOverlap K (findMatchingConcepts store A) (findMatchingConcepts store B)
          (A.length : Int) (B.length : Int) =
        ([((5, 5), ((findMatchingConcepts store A).length : Int))],
          ((findMatchingConcepts store A).length : Int)) ∧
      calculatePartialSimilarity
          (analyzeOverlap K (findMatchingConcepts store A) (findMatchingConcepts store B)
            (A.length : Int) (B.length : Int)).1
          ((findMatchingConcepts store A).length : Int) params = paramValue params 5 5 ∧
      calculatePartialSimilarity
          (swapOverlap
            (analyzeOverlap K (findMatchingConcepts store A) (findMatchingConcepts store B)
              (A.length : Int) (B.length : Int)).1)
          ((findMatchingConcepts store B).length : Int) params = paramValue params 5 5 ∧
      calculateMainSimilarity sqrt store A B params =
        sqrt (paramValue params 5 5 * paramValue params 5 5) ∧
      ((∀ x : K, 0 ≤ x → sqrt (x * x) = x) → 0 ≤ paramValue params 5 5 →
        calculateMainSimilarity sqrt store A B params = paramValue params 5 5) := by
  have hlenA := findMatchingConcepts_length store A
  have hlenB := findMatchingConcepts_length store B
  have hfilter : store.concepts.filter
        (fun c => decide (0 < (matchConceptExact B c).match_count)) =
      store.concepts.filter (fun c => decide (0 < (matchConceptExact A c).match_count)) := by
    apply List.filter_congr
    intro c hc
    simp only [decide_eq_decide]
    exact (hsame c hc).symm
  have hBA : (findMatchingConcepts store B).length = (findMatchingConcepts store A).length := by
    rw [hlenA, hlenB, hfilter]
  have hpos : 0 < (findMatchingConcepts store A).length := by
    obtain ⟨c, hc, hcpos⟩ := hne
    rw [hlenA]
    apply List.length_pos_of_mem (a := c)
    rw [List.mem_filter]
    exact ⟨hc, by simpa using hcpos⟩
  have hkeys : coMatchedKeys K store.concepts A B =
      List.replicate (findMatchingConcepts store A).length ((5, 5) : LevelPair) := by
    rw [hlenA, ← filterMap_ite_const]
    unfold coMatchedKeys
    apply List.filterMap_congr
    intro c hc
    by_cases hA : 0 < (matchConceptExact A c).match_count
    · have hB := (hsame c hc).mp hA
      obtain ⟨eA, eB⟩ := hfull c hc hA
      have lA : calculateMatchLevel K (matchConceptExact A c).match_count (A.length : Int) = 5 := by
        rw [← eA]; exact calculateMatchLevel_full _ hA
      have lB : calculateMatchLevel K (matchConceptExact B c).match_count (B.length : Int) = 5 := by
        rw [← eB]; exact calculateMatchLevel_full _ hB
      simp [hA, hB, lA, lB]
    · simp [hA]
  have hov : analyzeOverlap K (findMatchingConcepts store A) (findMatchingConcepts store B)
      (A.length : Int) (B.length : Int) =
      ([((5, 5), ((findMatchingConcepts store A).length : Int))],
        ((findMatchingConcepts store A).length : Int)) := by
    rw [analyzeOverlap_eq, overlapKeys_store, hkeys, foldl_increment_replicate_nil _ _ hpos]
    simp
  have hnK : ((findMatchingConcepts store A).length : K) ≠ 0 := by
    exact_mod_cast hpos.ne'
  have hnI : ((findMatchingConcepts store A).length : Int) ≠ 0 := by
    exact_mod_cast hpos.ne'
  have hPA : calculatePartialSimilarity
      [(((5, 5) : LevelPair), ((findMatchingConcepts store A).length : Int))]
      ((findMatchingConcepts store A).length : Int) params = paramValue params 5 5 := by
    rw [calculatePartialSimilarity_eq, if_neg hnI]
    simp only [entrySum, List.map_cons, List.map_nil, List.sum_cons, List.sum_nil, add_zero,
      Int.cast_natCast]
    field_simp
  have hswap : swapOverlap
      [(((5, 5) : LevelPair), ((findMatchingConcepts store A).length : Int))] =
      [(((5, 5) : LevelPair), ((findMatchingConcepts store A).length : Int))] := by
    simp [swapOverlap, OverlapMap.assign]
  have hmain : calculateMainSimilarity sqrt store A B params =
      sqrt (paramValue params 5 5 * paramValue params 5 5) := by
    unfold calculateMainSimilarity
    simp only [hov, hswap, hBA, hPA, if_neg hnI]
  refine ⟨hpos, hBA, hov, ?_, ?_, hmain, ?_⟩
  · rw [hov]; exact hPA
  · rw [hov, hswap, hBA]; exact hPA
  · intro hsqrt hp
    rw [hmain]
    exact hsqrt _ hp

theorem paramKey_5_5 : paramKey 5 5 = "p55".toList := by decide

theorem paramValue_default_5_5 (K : Type) [LinearOrderedField K] :
    paramValue (g_similarity_params K) 5 5 = 2 := by
  have h : Params.find (g_similarity_params K) (paramKey 5 5) = some 2.0 := by
    rw [paramKey_5_5]
    simp +decide only [Params.find, g_similarity_params, List.find?]
    rfl
  rw [paramValue, h]
  norm_num

/-- The instance of C3 from the specification: over the store holding only
`{color:red, kind:fruit}`, the unkeyed feature `red` against itself scores `2.0` with the
default table. -/
theorem calculateMainSimilarity_full_match_witness :
    calculateMainSimilarity Rat.sqrt redFruitStore [⟨[], "red".toList⟩] [⟨[], "red".toList⟩]
      (g_similarity_params ℚ) = 2 ∧
    analyzeOverlap ℚ (findMatchingConcepts redFruitStore [⟨[], "red".toList⟩])
      (findMatchingConcepts redFruitStore [⟨[], "red".toList⟩]) 1 1 = ([((5, 5), 1)], 1) := by
  have h := calculateMainSimilarity_full_match Rat.sqrt redFruitStore
    [⟨[], "red".toList⟩] [⟨[], "red".toList⟩] (g_similarity_params ℚ)
    (by decide) (by decide) (by decide)
  refine ⟨?_, ?_⟩
  · rw [h.2.2.2.2.2.2 (fun x hx => by rw [Rat.sqrt_eq, abs_of_nonneg hx])
      (by rw [paramValue_default_5_5]; norm_num), paramValue_default_5_5]
  · have h3 := h.2.2.1
    have hl : (findMatchingConcepts redFruitStore [⟨[], "red".toList⟩]).length = 1 := by decide
    rw [hl] at h3
    exact h3

end FullMatch

/-! ## Fuzzy matching of one concept -/

section Fuzzy
variable {K : Type} [LinearOrderedField K]

theorem matchLoop_foldl (hit : Feature → Bool) (l : List (Nat × Feature)) (r : MatchResult) :
    l.foldl
      (fun result p =>
        if hit p.2 then
          { result with
            match_count := result.match_count + 1
            matched_indices := result.matched_indices ++ [p.1] }
        else result) r =
      { concept_id := r.concept_id
        match_count := r.match_count + ((l.filter (fun p => hit p.2)).length : Int)
        matched_indices := r.matched_indices ++ (l.filter (fun p => hit p.2)).map Prod.fst } := by
  induction l generalizing r with
  | nil => simp
  | cons p l ih =>
    rw [List.foldl_cons, ih]
    by_cases h : hit p.2 = true
    · simp only [h, if_true, List.filter_cons, List.length_cons, List.map_cons,
        Nat.cast_add, Nat.cast_one, List.append_assoc, List.singleton_append]
      congr 1
      omega
    · simp only [List.filter_cons, h]
      simp

theorem matchConceptFuzzy_eq (fs : List Feature) (c : Concept) (τ : K) :
    matchConceptFuzzy fs c τ =
      { concept_id := c.id
        match_count := ((fs.enum.filter (fun p => fuzzyMatched c τ p.2)).length : Int)
        matched_indices := (fs.enum.filter (fun p => fuzzyMatched c τ p.2)).map Prod.fst } := by
  have h := matchLoop_foldl (fuzzyMatched c τ) fs.enum
    { concept_id := c.id, match_count := 0, matched_indices := [] }
  simp only [zero_add, List.nil_append] at h
  rw [← h]
  rfl

theorem matchConceptFuzzy_concept_id (fs : List Feature) (c : Concept) (τ : K) :
    (matchConceptFuzzy fs c τ).concept_id = c.id := by
  rw [matchConceptFuzzy_eq]

theorem enum_filter_indices (fs : List Feature) (p : Nat × Feature → Bool) :
    ((fs.enum.filter p).length ≤ fs.length) ∧
      ((fs.enum.filter p).map Prod.fst).Pairwise (· < ·) ∧
      ∀ i ∈ (fs.enum.filter p).map Prod.fst, i < fs.length := by
  have hsub : ((fs.enum.filter p).map Prod.fst).Sublist (List.range fs.length) := by
    have := List.Sublist.map Prod.fst (List.filter_sublist (p := p) fs.enum)
    rwa [List.enum_map_fst] at this
  refine ⟨?_, ?_, ?_⟩
  · have := hsub.length_le
    simpa using this
  · exact List.Pairwise.sublist hsub (List.pairwise_lt_range _)
  · intro i hi
    exact List.mem_range.mp (hsub.subset hi)

/-- C11: for `matchConceptExact` and for `matchConceptFuzzy` (any threshold), the result has
`0 <= match_count <= number of input features`, `match_count` is the length of
`matched_indices`, and `matched_indices` is strictly increasing with every index below the
number of input features. -/
theorem matchResult_invariants (fs : List Feature) (c : Concept) (τ : K) :
    (0 ≤ (matchConceptExact fs c).match_count ∧
      (matchConceptExact fs c).match_count ≤ (fs.length : Int) ∧
      (matchConceptExact fs c).match_count = ((matchConceptExact fs c).matched_indices.length : Int) ∧
      (matchConceptExact fs c).matched_indices.Pairwise (· < ·) ∧
      ∀ i ∈ (matchConceptExact fs c).matched_indices, i < fs.length) ∧
    (0 ≤ (matchConceptFuzzy fs c τ).match_count ∧
      (matchConceptFuzzy fs c τ).match_count ≤ (fs.length : Int) ∧
      (matchConceptFuzzy fs c τ).match_count =
        ((matchConceptFuzzy fs c τ).matched_indices.length : Int) ∧
      (matchConceptFuzzy fs c τ).matched_indices.Pairwise (· < ·) ∧
      ∀ i ∈ (matchConceptFuzzy fs c τ).matched_indices, i < fs.length) := by
  constructor
  · rw [matchConceptExact_eq]
    obtain ⟨h1, h2, h3⟩ := enum_filter_indices fs (fun p => exactMatched c p.2)
    exact ⟨Int.natCast_nonneg _, Int.ofNat_le.mpr h1, by simp, h2, h3⟩
  · rw [matchConceptFuzzy_eq]
    obtain ⟨h1, h2, h3⟩ := enum_filter_indices fs (fun p => fuzzyMatched c τ p.2)
    exact ⟨Int.natCast_nonneg _, Int.ofNat_le.mpr h1, by simp, h2, h3⟩

theorem bestLoop_matched {β : Type} (τ : K) (cand : β → Option K)
    (step : K × Bool → β → K × Bool)
    (hstep : ∀ st x, step st x =
      match cand x with
      | some s => if τ ≤ s ∧ st.1 < s then (s, true) else st
      | none => st) :
    ∀ (l : List β) (st : K × Bool),
      (l.foldl step st).2 = true ↔
        st.2 = true ∨ ∃ x ∈ l, ∃ s, cand x = some s ∧ τ ≤ s ∧ st.1 < s := by
  intro l
  induction l with
  | nil => intro st; simp
  | cons x l ih =>
    intro st
    rw [List.foldl_cons, ih, hstep]
    cases hc : cand x with
    | none =>
      simp only [List.mem_cons, exists_eq_or_imp, hc]
      simp
    | some s =>
      by_cases hup : τ ≤ s ∧ st.1 < s
      · simp only [hup, and_self, if_true, true_or, true_iff]
        exact Or.inr ⟨x, List.mem_cons_self _ _, s, hc, hup.1, hup.2⟩
      · simp only [hup, if_false, List.mem_cons, exists_eq_or_imp, hc, Option.some.injEq,
          exists_eq_left']
        simp

theorem fuzzyMatched_iff (c : Concept) (τ : K) (f : Feature) :
    fuzzyMatched c τ f = true ↔
      ∃ v ∈ fuzzyCandidates c f,
        τ ≤ calculateStringSimilarity K f.value v ∧ 0 < calculateStringSimilarity K f.value v := by
  unfold fuzzyMatched fuzzyCandidates
  by_cases hk : f.key.isEmpty = true
  · simp only [hk, if_true]
    rw [bestLoop_matched τ (fun v => some (calculateStringSimilarity K f.value v))
      _ (fun st x => by simp only [ge_iff_le, gt_iff_lt])]
    simp
  · simp only [hk, if_false, Bool.false_eq_true]
    rw [bestLoop_matched τ
      (fun j => if c.feature_keys[j]? = some f.key then
        (c.feature_values[j]?).map (calculateStringSimilarity K f.value) else none)
      _ (fun st j => by
        by_cases hkey : c.feature_keys[j]? = some f.key
        · cases hv : c.feature_values[j]? <;> simp [hkey, hv]
        · simp [hkey])]
    simp only [Bool.false_eq_true, false_or, List.mem_range, List.mem_filterMap]
    constructor
    · rintro ⟨j, hj, s, hs, h1, h2⟩
      by_cases hkey : c.feature_keys[j]? = some f.key
      · rw [if_pos hkey] at hs
        cases hv : c.feature_values[j]? with
        | none => rw [hv] at hs; simp at hs
        | some v =>
          rw [hv] at hs
          simp only [Option.map_some', Option.some.injEq] at hs
          subst hs
          exact ⟨v, ⟨j, hj, by rw [if_pos hkey, hv]⟩, h1, h2⟩
      · rw [if_neg hkey] at hs; simp at hs
    · rintro ⟨v, ⟨j, hj, hjv⟩, h1, h2⟩
      by_cases hkey : c.feature_keys[j]? = some f.key
      · rw [if_pos hkey] at hjv
        exact ⟨j, hj, _, by rw [if_pos hkey, hjv]; rfl, h1, h2⟩
      · rw [if_neg hkey] at hjv; simp at hjv

end Fuzzy
section FuzzySpec
variable {K : Type} [LinearOrderedField K]

theorem mem_fuzzyCandidates_iff (c : Concept) (f : Feature) (v : Str) :
    v ∈ fuzzyCandidates c f ↔
      (f.key = [] ∧ v ∈ c.feature_values) ∨
      (f.key ≠ [] ∧ ∃ j : Nat, c.feature_keys[j]? = some f.key ∧ c.feature_values[j]? = some v) := by
  unfold fuzzyCandidates
  by_cases hk : f.key = []
  · simp [hk]
  · have hk' : f.key.isEmpty = false := by
      cases hf : f.key with
      | nil => exact absurd hf hk
      | cons x xs => rfl
    simp only [hk', Bool.false_eq_true, if_false, hk, false_and, false_or, ne_eq,
      not_false_eq_true, true_and, List.mem_filterMap, List.mem_range]
    constructor
    · rintro ⟨j, _, hj⟩
      by_cases hkey : c.feature_keys[j]? = some f.key
      · rw [if_pos hkey] at hj
        exact ⟨j, hkey, hj⟩
      · rw [if_neg hkey] at hj; exact absurd hj (by simp)
    · rintro ⟨j, hkey, hv⟩
      refine ⟨j, ?_, by rw [if_pos hkey]; exact hv⟩
      by_contra hlt
      rw [List.getElem?_eq_none (by omega)] at hkey
      exact absurd hkey (by simp)

theorem mem_matchConceptFuzzy_indices (fs : List Feature) (c : Concept) (τ : K) (i : Nat) :
    i ∈ (matchConceptFuzzy fs c τ).matched_indices ↔
      ∃ f, fs[i]? = some f ∧ fuzzyMatched c τ f = true := by
  rw [matchConceptFuzzy_eq]
  simp only [List.mem_map, List.mem_filter, Prod.exists, exists_and_right, exists_eq_right]
  constructor
  · rintro ⟨f, hmem, hhit⟩
    exact ⟨f, List.mk_mem_enum_iff_getElem?.mp hmem, hhit⟩
  · rintro ⟨f, hget, hhit⟩
    exact ⟨f, List.mk_mem_enum_iff_getElem?.mpr hget, hhit⟩

/-- C12, as amended: `matchConceptFuzzy` records input index `i` exactly when some candidate
concept value (any concept value when the key is empty, a value stored under the identical
key otherwise) has a similarity with the feature's value that is `>= τ` and `> 0`.  For a
positive threshold this is exactly when the best similarity over the candidates is
`>= τ`. -/
theorem matchConceptFuzzy_spec (fs : List Feature) (c : Concept) (τ : K) (i : Nat) :
    (i ∈ (matchConceptFuzzy fs c τ).matched_indices ↔
      ∃ f, fs[i]? = some f ∧ ∃ v : Str,
        ((f.key = [] ∧ v ∈ c.feature_values) ∨
          (f.key ≠ [] ∧ ∃ j : Nat, c.feature_keys[j]? = some f.key ∧ c.feature_values[j]? = some v)) ∧
        τ ≤ calculateStringSimilarity K f.value v ∧
        0 < calculateStringSimilarity K f.value v) ∧
    (0 < τ →
      (i ∈ (matchConceptFuzzy fs c τ).matched_indices ↔
        ∃ f, fs[i]? = some f ∧ ∃ v : Str,
          ((f.key = [] ∧ v ∈ c.feature_values) ∨
            (f.key ≠ [] ∧ ∃ j : Nat, c.feature_keys[j]? = some f.key ∧
              c.feature_values[j]? = some v)) ∧
          τ ≤ calculateStringSimilarity K f.value v)) := by
  have hgen : i ∈ (matchConceptFuzzy fs c τ).matched_indices ↔
      ∃ f, fs[i]? = some f ∧ ∃ v : Str,
        ((f.key = [] ∧ v ∈ c.feature_values) ∨
          (f.key ≠ [] ∧ ∃ j : Nat, c.feature_keys[j]? = some f.key ∧ c.feature_values[j]? = some v)) ∧
        τ ≤ calculateStringSimilarity K f.value v ∧
        0 < calculateStringSimilarity K f.value v := by
    rw [mem_matchConceptFuzzy_indices]
    constructor
    · rintro ⟨f, hf, hm⟩
      obtain ⟨v, hv, h1, h2⟩ := (fuzzyMatched_iff c τ f).mp hm
      exact ⟨f, hf, v, (mem_fuzzyCandidates_iff c f v).mp hv, h1, h2⟩
    · rintro ⟨f, hf, v, hv, h1, h2⟩
      exact ⟨f, hf, (fuzzyMatched_iff c τ f).mpr
        ⟨v, (mem_fuzzyCandidates_iff c f v).mpr hv, h1, h2⟩⟩
  refine ⟨hgen, fun hτ => ?_⟩
  rw [hgen]
  constructor
  · rintro ⟨f, hf, v, hv, h1, _⟩
    exact ⟨f, hf, v, hv, h1⟩
  · rintro ⟨f, hf, v, hv, h1⟩
    exact ⟨f, hf, v, hv, h1, lt_of_lt_of_le hτ h1⟩

/-- An instance of C12 as amended: with threshold `1/2`, the unkeyed value `ab` is matched by
a concept holding `ac` (similarity `1/2`). -/
theorem matchConceptFuzzy_spec_witness :
    0 ∈ (matchConceptFuzzy [⟨[], ['a', 'b']⟩] ⟨1, [['k']], [['a', 'c']]⟩ (1 / 2 : ℚ)).matched_indices ∧
      calculateStringSimilarity ℚ ['a', 'b'] ['a', 'c'] = 1 / 2 :=
  ⟨((matchConceptFuzzy_spec [⟨[], ['a', 'b']⟩] ⟨1, [['k']], [['a', 'c']]⟩ (1 / 2 : ℚ) 0).2
      (by norm_num)).mpr
      ⟨⟨[], ['a', 'b']⟩, rfl, ['a', 'c'], Or.inl ⟨rfl, by simp⟩, by decide!⟩,
    by decide!⟩

/-- C12 as stated fails for a threshold that is not positive: with threshold `0`, the value
`a` has the single candidate `b`, whose similarity `0` is the best one and is `>= 0`, yet
the feature is not matched. -/
theorem matchConceptFuzzy_zero_threshold_counterexample :
    ¬(0 ∈ (matchConceptFuzzy [⟨[], ['a']⟩] ⟨1, [['k']], [['b']]⟩ (0 : ℚ)).matched_indices ↔
      ∃ f, ([⟨[], ['a']⟩] : List Feature)[0]? = some f ∧ ∃ v : Str,
        ((f.key = [] ∧ v ∈ (⟨1, [['k']], [['b']]⟩ : Concept).feature_values) ∨
          (f.key ≠ [] ∧ ∃ j : Nat,
            (⟨1, [['k']], [['b']]⟩ : Concept).feature_keys[j]? = some f.key ∧
            (⟨1, [['k']], [['b']]⟩ : Concept).feature_values[j]? = some v)) ∧
        (0 : ℚ) ≤ calculateStringSimilarity ℚ f.value v) ∧
      fuzzyCandidates ⟨1, [['k']], [['b']]⟩ ⟨[], ['a']⟩ = [['b']] ∧
      calculateStringSimilarity ℚ ['a'] ['b'] = 0 ∧
      matchConceptFuzzy [⟨[], ['a']⟩] ⟨1, [['k']], [['b']]⟩ (0 : ℚ) = ⟨1, 0, []⟩ := by
  have hres : matchConceptFuzzy [⟨[], ['a']⟩] ⟨1, [['k']], [['b']]⟩ (0 : ℚ) = ⟨1, 0, []⟩ := by
    decide!
  refine ⟨?_, by decide!, by decide!, hres⟩
  intro h
  have hmem := h.mpr
    ⟨⟨[], ['a']⟩, rfl, ['b'], Or.inl ⟨rfl, List.mem_singleton.mpr rfl⟩, by decide!⟩
  rw [hres] at hmem
  exact absurd hmem (List.not_mem_nil 0)

end FuzzySpec

/-! ## Recursive matching -/

section Recursive
variable {K : Type} [LinearOrderedField K]

theorem recursiveMatchStep_congr (r1 r2 : List Feature → Int → K → List MatchResult)
    (store : Store) (fs : List Feature) (d : Int) (τ : K)
    (h : 1 < d → ∀ m, r1 m (d - 1) τ = r2 m (d - 1) τ) :
    recursiveMatchStep r1 store fs d τ = recursiveMatchStep r2 store fs d τ := by
  have hstep : recursiveMatchConcept r1 store fs d τ = recursiveMatchConcept r2 store fs d τ := by
    funext results c
    unfold recursiveMatchConcept
    by_cases hd : 1 < d
    · have : (fun m => r1 m (d - 1) τ) = (fun m => r2 m (d - 1) τ) := funext (h hd)
      simp only [this]
    · have hd' : ¬(d > 1) := hd
      simp only [hd', if_false]
  unfold recursiveMatchStep
  rw [hstep]

/-- The function `recursiveMatch` satisfies the recursive definition of the source: it is the
body of the function with the recursive calls going to `recursiveMatch` itself. -/
theorem recursiveMatch_eq (store : Store) (fs : List Feature) (d : Int) (τ : K) :
    recursiveMatch store fs d τ = recursiveMatchStep (recursiveMatch store) store fs d τ := by
  have h0 : recursiveMatch store fs d τ =
      recursiveMatchStep (recursiveMatchFuel store (d - 1).toNat) store fs d τ := rfl
  rw [h0]
  apply recursiveMatchStep_congr
  intro hd m
  unfold recursiveMatch
  have e : (d - 1).toNat = (d - 1 - 1).toNat + 1 := by omega
  rw [← e]

theorem fuzzyScan_foldl (fs : List Feature) (τ : K) (cs : List Concept)
    (acc : List MatchResult) :
    cs.foldl
      (fun results c =>
        let match_result := matchConceptFuzzy fs c τ
        if match_result.match_count > 0 then results ++ [match_result] else results) acc =
      acc ++ (cs.map (fun c => matchConceptFuzzy fs c τ)).filter (fun r => 0 < r.match_count) := by
  induction cs generalizing acc with
  | nil => simp
  | cons c cs ih =>
    rw [List.foldl_cons, ih]
    by_cases h : 0 < (matchConceptFuzzy fs c τ).match_count
    · simp [h, List.filter_cons]
    · simp [h, List.filter_cons]

/-- C13: the four-argument `findMatchingConcepts` is the exact-match scan when fuzzy matching
is off (whatever the threshold and depth), the per-concept `matchConceptFuzzy` scan keeping
the positive counts when fuzzy matching is on and `max_depth <= 1`, and `recursiveMatch`
when fuzzy matching is on and `max_depth > 1`. -/
theorem findMatchingConceptsFuzzy_dispatch (store : Store) (fs : List Feature) (τ : K)
    (d : Int) :
    findMatchingConceptsFuzzy store fs false τ d = findMatchingConcepts store fs ∧
    (d ≤ 1 → findMatchingConceptsFuzzy store fs true τ d =
      (store.getAll.map (fun c => matchConceptFuzzy fs c τ)).filter
        (fun r => 0 < r.match_count)) ∧
    (1 < d → findMatchingConceptsFuzzy store fs true τ d = recursiveMatch store fs d τ) := by
  refine ⟨rfl, ?_, ?_⟩
  · intro hd
    have hd' : ¬(d > 1) := by omega
    unfold findMatchingConceptsFuzzy
    simp only [Bool.not_true, Bool.false_eq_true, if_false, hd']
    rw [fuzzyScan_foldl]
    simp
  · intro hd
    have hd' : d > 1 := hd
    unfold findMatchingConceptsFuzzy
    simp only [Bool.not_true, Bool.false_eq_true, if_false, hd', if_true]

/-- Instances of C13 on the store holding `{color:red, kind:fruit}`: without fuzzy matching
the unkeyed value `rad` matches nothing, with fuzzy matching at depth 1 and threshold `1/2` it
matches concept 1, and at depth 2 the result is that of `recursiveMatch`. -/
theorem findMatchingConceptsFuzzy_dispatch_witness :
    findMatchingConceptsFuzzy redFruitStore [⟨[], ['r', 'a', 'd']⟩] false (1 / 2 : ℚ) 2 = [] ∧
      findMatchingConceptsFuzzy redFruitStore [⟨[], ['r', 'a', 'd']⟩] true (1 / 2 : ℚ) 1 =
        [⟨1, 1, [0]⟩] ∧
      findMatchingConceptsFuzzy redFruitStore [⟨[], ['r', 'a', 'd']⟩] true (1 / 2 : ℚ) 2 =
        recursiveMatch redFruitStore [⟨[], ['r', 'a', 'd']⟩] 2 (1 / 2 : ℚ) :=
  ⟨(findMatchingConceptsFuzzy_dispatch redFruitStore _ (1 / 2 : ℚ) 2).1.trans (by decide),
    ((findMatchingConceptsFuzzy_dispatch redFruitStore _ (1 / 2 : ℚ) 1).2.1
      (by decide)).trans (by decide!),
    (findMatchingConceptsFuzzy_dispatch redFruitStore _ (1 / 2 : ℚ) 2).2.2 (by decide)⟩

end Recursive

/-! ## Sorting and deduplication of the collected results -/

section SortUnique
variable {K : Type} [LinearOrderedField K]

theorem resultBefore_false_iff (a b : MatchResult) :
    ¬(resultBefore b a = true) ↔
      a.concept_id < b.concept_id ∨
        (a.concept_id = b.concept_id ∧ b.match_count ≤ a.match_count) := by
  unfold resultBefore
  by_cases h : b.concept_id = a.concept_id
  · simp only [h, if_true, decide_eq_true_eq, gt_iff_lt, not_lt, lt_self_iff_false, true_and,
      false_or]
  · simp only [h, if_false, decide_eq_true_eq, not_lt]
    constructor
    · intro hle
      exact Or.inl (lt_of_le_of_ne hle (fun e => h e.symm))
    · rintro (hlt | ⟨e, _⟩)
      · exact hlt.le
      · exact absurd e.symm h

theorem stdSort_perm {α : Type} (comp : α → α → Bool) (l : List α) :
    (stdSort comp l).Perm l :=
  List.perm_insertionSort _ l

theorem stdSort_resultBefore_sorted (l : List MatchResult) :
    (stdSort resultBefore l).Pairwise (fun a b =>
      a.concept_id < b.concept_id ∨
        (a.concept_id = b.concept_id ∧ b.match_count ≤ a.match_count)) := by
  haveI : IsTotal MatchResult (fun a b => ¬(resultBefore b a = true)) :=
    ⟨fun a b => by
      rw [resultBefore_false_iff, resultBefore_false_iff]
      omega⟩
  haveI : IsTrans MatchResult (fun a b => ¬(resultBefore b a = true)) :=
    ⟨fun a b c hab hbc => by
      rw [resultBefore_false_iff] at hab hbc ⊢
      omega⟩
  have h := List.sorted_insertionSort (fun a b : MatchResult => ¬(resultBefore b a = true)) l
  exact List.Pairwise.imp (fun {a b} hab => (resultBefore_false_iff a b).mp hab) h

theorem stdSort_eq_self_of_sorted (l : List MatchResult)
    (h : l.Pairwise (fun a b => a.concept_id < b.concept_id)) :
    stdSort resultBefore l = l := by
  apply List.Sorted.insertionSort_eq
  exact List.Pairwise.imp (fun {a b} hab => (resultBefore_false_iff a b).mpr (Or.inl hab)) h

theorem stdUniqueFrom_sublist {α : Type} (pred : α → α → Bool) (l : List α) :
    ∀ kept : α, (stdUnique.stdUniqueFrom pred kept l).Sublist l := by
  induction l with
  | nil => intro kept; simp [stdUnique.stdUniqueFrom]
  | cons x l ih =>
    intro kept
    unfold stdUnique.stdUniqueFrom
    split
    · exact (ih kept).cons x
    · exact (ih x).cons₂ x

theorem stdUnique_cons {α : Type} (pred : α → α → Bool) (a : α) (l : List α) :
    stdUnique pred (a :: l) = a :: stdUnique.stdUniqueFrom pred a l := rfl

theorem stdUnique_sublist {α : Type} (pred : α → α → Bool) (l : List α) :
    (stdUnique pred l).Sublist l := by
  cases l with
  | nil => simp [stdUnique]
  | cons a l =>
    rw [stdUnique_cons]
    exact (stdUniqueFrom_sublist pred l a).cons₂ a

theorem stdUnique_eq_self_of_nodup (l : List MatchResult)
    (h : (l.map MatchResult.concept_id).Nodup) :
    stdUnique (fun a b => decide (a.concept_id = b.concept_id)) l = l := by
  have hfrom : ∀ (l : List MatchResult) (kept : MatchResult),
      kept.concept_id ∉ l.map MatchResult.concept_id →
      (l.map MatchResult.concept_id).Nodup →
      stdUnique.stdUniqueFrom (fun a b => decide (a.concept_id = b.concept_id)) kept l = l := by
    intro l
    induction l with
    | nil => intro kept _ _; simp [stdUnique.stdUniqueFrom]
    | cons x l ih =>
      intro kept hk hnd
      rw [List.map_cons, List.mem_cons, not_or] at hk
      rw [List.map_cons, List.nodup_cons] at hnd
      unfold stdUnique.stdUniqueFrom
      have : ¬(kept.concept_id = x.concept_id) := hk.1
      simp only [this, decide_False, Bool.false_eq_true, if_false]
      rw [ih x hnd.1 hnd.2]
  cases l with
  | nil => simp [stdUnique]
  | cons a l =>
    rw [List.map_cons, List.nodup_cons] at h
    rw [stdUnique_cons]
    rw [hfrom l a h.1 h.2]

/-- The guarantees of `std::unique` by concept id on a list sorted by the comparator of
`recursiveMatch`, stated for the part after the last kept element. -/
theorem stdUniqueFrom_sorted (l : List MatchResult) :
    ∀ kept : MatchResult,
      (kept :: l).Pairwise (fun a b =>
        a.concept_id < b.concept_id ∨
          (a.concept_id = b.concept_id ∧ b.match_count ≤ a.match_count)) →
      ((kept :: stdUnique.stdUniqueFrom
          (fun a b => decide (a.concept_id = b.concept_id)) kept l).map
          MatchResult.concept_id).Pairwise (· < ·) ∧
      ∀ x ∈ kept :: l, ∃ r ∈ kept :: stdUnique.stdUniqueFrom
          (fun a b => decide (a.concept_id = b.concept_id)) kept l,
        r.concept_id = x.concept_id ∧ x.match_count ≤ r.match_count := by
  induction l with
  | nil =>
    intro kept _
    simp [stdUnique.stdUniqueFrom]
  | cons x l ih =>
    intro kept hs
    rw [List.pairwise_cons] at hs
    obtain ⟨hk, hrest⟩ := hs
    have hkx := hk x (List.mem_cons_self _ _)
    unfold stdUnique.stdUniqueFrom
    by_cases he : kept.concept_id = x.concept_id
    · simp only [he, decide_True, if_true]
      have hs' : (kept :: l).Pairwise (fun a b =>
          a.concept_id < b.concept_id ∨
            (a.concept_id = b.concept_id ∧ b.match_count ≤ a.match_count)) := by
        rw [List.pairwise_cons]
        exact ⟨fun y hy => hk y (List.mem_cons_of_mem _ hy), (List.pairwise_cons.mp hrest).2⟩
      obtain ⟨h1, h2⟩ := ih kept hs'
      have he' : kept.concept_id = x.concept_id := he
      refine ⟨by simpa [he] using h1, ?_⟩
      intro y hy
      rcases List.mem_cons.mp hy with rfl | hy
      · exact ⟨y, List.mem_cons_self _ _, rfl, le_refl _⟩
      · rcases List.mem_cons.mp hy with rfl | hy
        · refine ⟨kept, List.mem_cons_self _ _, he', ?_⟩
          rcases hkx with hlt | ⟨_, hle⟩
          · omega
          · exact hle
        · obtain ⟨r, hr, hr1, hr2⟩ := h2 y (List.mem_cons_of_mem _ hy)
          exact ⟨r, by simpa [he] using hr, hr1, hr2⟩
    · simp only [he, decide_False, Bool.false_eq_true, if_false]
      have hlt : kept.concept_id < x.concept_id := by
        rcases hkx with hlt | ⟨e, _⟩
        · exact hlt
        · exact absurd e he
      obtain ⟨h1, h2⟩ := ih x hrest
      refine ⟨?_, ?_⟩
      · rw [List.map_cons, List.pairwise_cons]
        refine ⟨?_, h1⟩
        intro i hi
        rw [List.map_cons, List.mem_cons] at hi
        rcases hi with rfl | hi
        · exact hlt
        · rw [List.map_cons, List.pairwise_cons] at h1
          exact lt_trans hlt (h1.1 i hi)
      · intro y hy
        rcases List.mem_cons.mp hy with rfl | hy
        · exact ⟨y, List.mem_cons_self _ _, rfl, le_refl _⟩
        · obtain ⟨r, hr, hr1, hr2⟩ := h2 y hy
          exact ⟨r, List.mem_cons_of_mem _ hr, hr1, hr2⟩

theorem sortUnique_spec (collected : List MatchResult) :
    ((stdUnique (fun a b => decide (a.concept_id = b.concept_id))
        (stdSort resultBefore collected)).map MatchResult.concept_id).Pairwise (· < ·) ∧
    (∀ r ∈ stdUnique (fun a b => decide (a.concept_id = b.concept_id))
        (stdSort resultBefore collected), r ∈ collected) ∧
    (∀ x ∈ collected, ∃ r ∈ stdUnique (fun a b => decide (a.concept_id = b.concept_id))
        (stdSort resultBefore collected),
      r.concept_id = x.concept_id ∧ x.match_count ≤ r.match_count) := by
  have hperm := stdSort_perm resultBefore collected
  have hsorted := stdSort_resultBefore_sorted collected
  refine ⟨?_, ?_, ?_⟩
  · cases hl : stdSort resultBefore collected with
    | nil => simp [stdUnique]
    | cons a l =>
      rw [hl] at hsorted
      rw [stdUnique_cons]
      exact (stdUniqueFrom_sorted l a hsorted).1
  · intro r hr
    exact hperm.subset ((stdUnique_sublist _ _).subset hr)
  · intro x hx
    have hx' := hperm.symm.subset hx
    cases hl : stdSort resultBefore collected with
    | nil => rw [hl] at hx'; simp at hx'
    | cons a l =>
      rw [hl] at hsorted hx'
      rw [stdUnique_cons]
      exact (stdUniqueFrom_sorted l a hsorted).2 x hx'

end SortUnique
/-! ## Recursive matching: the substitution search and the final list -/

theorem substituteLoop_eq {K : Type} (recurse : List Feature → List MatchResult) (fs : List Feature)
    (f : Feature) (sims : List (Str × K)) (results : List MatchResult) :
    substituteLoop recurse fs f sims results =
      match (sims.map (fun p => substituteValue fs f.value p.1)).find?
          (fun m => !(recurse m).isEmpty) with
      | none => (results, false)
      | some m => (results ++ (recurse m).map decayResult, true) := by
  induction sims with
  | nil => simp [substituteLoop]
  | cons p sims ih =>
    unfold substituteLoop
    by_cases h : (!(recurse (substituteValue fs f.value p.1)).isEmpty) = true
    · simp only [h, if_true, List.map_cons, List.find?_cons_of_pos]
    · simp only [h, if_false, List.map_cons, Bool.false_eq_true]
      rw [ih, List.find?_cons_of_neg (p := fun m => !(recurse m).isEmpty) _ h]

section RecursiveSpec
variable {K : Type} [LinearOrderedField K]

theorem featureLoop_found (recurse : List Feature → List MatchResult) (store : Store) (τ : K)
    (fs rest : List Feature) (results : List MatchResult) :
    featureLoop recurse store τ fs rest results true = results := by
  cases rest <;> simp [featureLoop]

theorem featureLoop_eq (recurse : List Feature → List MatchResult) (store : Store) (τ : K)
    (fs rest : List Feature) (results : List MatchResult) :
    featureLoop recurse store τ fs rest results false =
      match (rest.flatMap (fun f => (findSimilarValues store f.value τ).map
          (fun p => substituteValue fs f.value p.1))).find? (fun m => !(recurse m).isEmpty) with
      | none => results
      | some m => results ++ (recurse m).map decayResult := by
  induction rest with
  | nil => simp [featureLoop]
  | cons f rest ih =>
    unfold featureLoop
    simp only [Bool.false_eq_true, if_false]
    rw [substituteLoop_eq, List.flatMap_cons, List.find?_append]
    cases hfind : ((findSimilarValues store f.value τ).map
        (fun p => substituteValue fs f.value p.1)).find? (fun m => !(recurse m).isEmpty) with
    | none => simp only [Option.or]; exact ih
    | some m => simp only [Option.or]; exact featureLoop_found _ _ _ _ _ _

theorem recursiveMatchConcept_mem (recurse : List Feature → Int → K → List MatchResult)
    (store : Store) (fs : List Feature) (d : Int) (τ : K) (results : List MatchResult)
    (c : Concept) (x : MatchResult)
    (hx : x ∈ recursiveMatchConcept recurse store fs d τ results c) :
    x ∈ results ∨ (x = matchConceptFuzzy fs c τ ∧ 0 < x.match_count) ∨
      ∃ m r, r ∈ recurse m (d - 1) τ ∧ x = decayResult r := by
  unfold recursiveMatchConcept at hx
  by_cases h1 : (matchConceptFuzzy fs c τ).match_count > 0
  · simp only [h1, if_true, List.mem_append, List.mem_singleton] at hx
    rcases hx with hx | hx
    · exact Or.inl hx
    · exact Or.inr (Or.inl ⟨hx, by rw [hx]; exact h1⟩)
  · simp only [h1, if_false] at hx
    by_cases h2 : d > 1
    · simp only [h2, if_true] at hx
      rw [featureLoop_eq] at hx
      split at hx
      · exact Or.inl hx
      · rename_i m _
        rcases List.mem_append.mp hx with hx | hx
        · exact Or.inl hx
        · obtain ⟨r, hr, rfl⟩ := List.mem_map.mp hx
          exact Or.inr (Or.inr ⟨m, r, hr, rfl⟩)
    · simp only [h2, if_false] at hx
      exact Or.inl hx

theorem recursiveMatch_collected_mem (recurse : List Feature → Int → K → List MatchResult)
    (store : Store) (fs : List Feature) (d : Int) (τ : K) (cs : List Concept) :
    ∀ (acc : List MatchResult) (x : MatchResult),
      x ∈ cs.foldl (recursiveMatchConcept recurse store fs d τ) acc →
      x ∈ acc ∨ (∃ c ∈ cs, x = matchConceptFuzzy fs c τ ∧ 0 < x.match_count) ∨
        ∃ m r, r ∈ recurse m (d - 1) τ ∧ x = decayResult r := by
  induction cs with
  | nil => intro acc x hx; exact Or.inl hx
  | cons c cs ih =>
    intro acc x hx
    rw [List.foldl_cons] at hx
    rcases ih _ x hx with h | ⟨c', hc', h⟩ | h
    · rcases recursiveMatchConcept_mem recurse store fs d τ acc c x h with h | h | h
      · exact Or.inl h
      · exact Or.inr (Or.inl ⟨c, List.mem_cons_self _ _, h⟩)
      · exact Or.inr (Or.inr h)
    · exact Or.inr (Or.inl ⟨c', List.mem_cons_of_mem _ hc', h⟩)
    · exact Or.inr (Or.inr h)

theorem findSimilarValues_sorted (store : Store) (q : Str) (τ : K) :
    (findSimilarValues store q τ).Pairwise (fun a b => b.2 ≤ a.2) := by
  haveI : IsTotal (Str × K) (fun a b => ¬(decide (b.2 > a.2) = true)) :=
    ⟨fun a b => by
      simp only [decide_eq_true_eq, gt_iff_lt, not_lt]
      exact le_total _ _⟩
  haveI : IsTrans (Str × K) (fun a b => ¬(decide (b.2 > a.2) = true)) :=
    ⟨fun a b c hab hbc => by
      simp only [decide_eq_true_eq, gt_iff_lt, not_lt] at hab hbc ⊢
      exact le_trans hbc hab⟩
  have h := List.sorted_insertionSort
    (fun a b : Str × K => ¬(decide (b.2 > a.2) = true))
    ((store.getAll.foldl (fun s c => c.feature_values.foldl setInsert s) []).foldl
      (fun similar_values value =>
        let similarity := calculateStringSimilarity K q value
        if similarity ≥ τ then similar_values ++ [(value, similarity)]
        else similar_values)
      [])
  refine List.Pairwise.imp ?_ h
  intro a b hab
  simpa using hab

theorem decayResult_count_pos (r : MatchResult) : 1 ≤ (decayResult r).match_count :=
  le_max_left _ _

theorem recursiveMatchFuel_count_pos (store : Store) (τ : K) (fuel : Nat) :
    ∀ (fs : List Feature) (d : Int), ∀ r ∈ recursiveMatchFuel store fuel fs d τ,
      1 ≤ r.match_count := by
  induction fuel with
  | zero => intro fs d r hr; simp [recursiveMatchFuel] at hr
  | succ fuel ih =>
    intro fs d r hr
    have hr' : r ∈ recursiveMatchStep (recursiveMatchFuel store fuel) store fs d τ := hr
    unfold recursiveMatchStep at hr'
    have hcol := (sortUnique_spec _).2.1 r hr'
    rcases recursiveMatch_collected_mem _ store fs d τ _ [] r hcol with h | ⟨c, _, _, h⟩ |
      ⟨m, r', _, h⟩
    · simp at h
    · omega
    · rw [h]; exact decayResult_count_pos r'

theorem recursiveMatch_count_pos (store : Store) (fs : List Feature) (d : Int) (τ : K) :
    ∀ r ∈ recursiveMatch store fs d τ, 1 ≤ r.match_count :=
  recursiveMatchFuel_count_pos store τ _ fs d

theorem decayResult_eq_floor (r : MatchResult) (h : 0 ≤ r.match_count) :
    decayResult r =
      { concept_id := r.concept_id
        match_count := max 1 (r.match_count / 2)
        matched_indices := r.matched_indices } := by
  unfold decayResult
  rw [Int.tdiv_eq_ediv h (by decide)]

/-- C15: in `recursiveMatch` with `max_depth > 1`, a concept whose direct fuzzy match count
is 0 adds to the result vector the results of the first substitute (input features in order,
the candidates of each in the order of `findSimilarValues`, which is by descending
similarity) whose recursive call at `max_depth - 1` is not empty, each with
`match_count = max(1, floor(match_count / 2))`, and nothing if there is no such substitute;
later substitutes and features play no part. -/
theorem recursiveMatch_substitution (store : Store) (fs : List Feature) (d : Int) (τ : K)
    (results : List MatchResult) (c : Concept) (hd : 1 < d)
    (hdirect : (matchConceptFuzzy fs c τ).match_count = 0) :
    recursiveMatch store fs d τ =
        stdUnique (fun a b => decide (a.concept_id = b.concept_id))
          (stdSort resultBefore
            (store.getAll.foldl (recursiveMatchConcept (recursiveMatch store) store fs d τ) [])) ∧
      recursiveMatchConcept (recursiveMatch store) store fs d τ results c =
        (match (fs.flatMap (fun f => (findSimilarValues store f.value τ).map
            (fun p => substituteValue fs f.value p.1))).find?
            (fun m => !(recursiveMatch store m (d - 1) τ).isEmpty) with
        | none => results
        | some m =>
          results ++ (recursiveMatch store m (d - 1) τ).map (fun r =>
            { concept_id := r.concept_id
              match_count := max 1 (r.match_count / 2)
              matched_indices := r.matched_indices })) ∧
      ∀ f ∈ fs, (findSimilarValues store f.value τ).Pairwise (fun a b => b.2 ≤ a.2) := by
  refine ⟨recursiveMatch_eq store fs d τ, ?_,
    fun f _ => findSimilarValues_sorted store f.value τ⟩
  unfold recursiveMatchConcept
  have h1 : ¬((matchConceptFuzzy fs c τ).match_count > 0) := by omega
  have h2 : d > 1 := hd
  simp only [h1, if_false, h2, if_true]
  rw [featureLoop_eq]
  split
  · rfl
  · rename_i m _
    congr 1
    apply List.map_congr_left
    intro r hr
    exact decayResult_eq_floor r (by have := recursiveMatch_count_pos store m (d - 1) τ r hr; omega)

/-- Instances of C15 on a store whose concept 1 holds the value `ab` and concept 2 the value
`xy`, for four copies of the unkeyed value `ac` and concept 2.  With threshold `3/5` there is
no substitute and nothing is added; with threshold `1/2` the substitute `ab` gives concept 1
with count 4 at depth 1, which is added with count `max(1, 4 / 2) = 2`. -/
theorem recursiveMatch_substitution_witness :
    recursiveMatchConcept (recursiveMatch
        ⟨[⟨1, [['k']], [['a', 'b']]⟩, ⟨2, [['k']], [['x', 'y']]⟩], by decide⟩)
        ⟨[⟨1, [['k']], [['a', 'b']]⟩, ⟨2, [['k']], [['x', 'y']]⟩], by decide⟩
        [⟨[], ['a', 'c']⟩, ⟨[], ['a', 'c']⟩, ⟨[], ['a', 'c']⟩, ⟨[], ['a', 'c']⟩]
        2 (3 / 5 : ℚ) [] ⟨2, [['k']], [['x', 'y']]⟩ = [] ∧
    recursiveMatchConcept (recursiveMatch
        ⟨[⟨1, [['k']], [['a', 'b']]⟩, ⟨2, [['k']], [['x', 'y']]⟩], by decide⟩)
        ⟨[⟨1, [['k']], [['a', 'b']]⟩, ⟨2, [['k']], [['x', 'y']]⟩], by decide⟩
        [⟨[], ['a', 'c']⟩, ⟨[], ['a', 'c']⟩, ⟨[], ['a', 'c']⟩, ⟨[], ['a', 'c']⟩]
        2 (1 / 2 : ℚ) [] ⟨2, [['k']], [['x', 'y']]⟩ = [⟨1, 2, [0, 1, 2, 3]⟩] :=
  ⟨((recursiveMatch_substitution _ _ 2 (3 / 5 : ℚ) [] ⟨2, [['k']], [['x', 'y']]⟩
      (by decide) (by decide!)).2.1).trans (by decide!),
   ((recursiveMatch_substitution _ _ 2 (1 / 2 : ℚ) [] ⟨2, [['k']], [['x', 'y']]⟩
      (by decide) (by decide!)).2.1).trans (by decide!)⟩

end RecursiveSpec
section RecursiveList
variable {K : Type} [LinearOrderedField K]

theorem eq_of_concept_id_eq (l : List MatchResult)
    (h : (l.map MatchResult.concept_id).Pairwise (· < ·)) (r r' : MatchResult)
    (hr : r ∈ l) (hr' : r' ∈ l) (he : r.concept_id = r'.concept_id) : r = r' := by
  have hnd : (l.map MatchResult.concept_id).Nodup :=
    List.Pairwise.imp (fun {a b} hab => ne_of_lt hab) h
  exact List.inj_on_of_nodup_map hnd hr hr' he

/-- C16: the list returned by `recursiveMatch` is in strictly ascending concept-id order, so
it holds at most one result per concept id; every returned result was collected during the
scan and its `match_count` is the largest among the collected results with its id; and every
collected id is returned. -/
theorem recursiveMatch_sorted_unique (store : Store) (fs : List Feature) (d : Int) (τ : K) :
    ((recursiveMatch store fs d τ).map MatchResult.concept_id).Pairwise (· < ·) ∧
    ((recursiveMatch store fs d τ).map MatchResult.concept_id).Nodup ∧
    (∀ r ∈ recursiveMatch store fs d τ,
      r ∈ store.getAll.foldl (recursiveMatchConcept (recursiveMatch store) store fs d τ) [] ∧
      ∀ x ∈ store.getAll.foldl (recursiveMatchConcept (recursiveMatch store) store fs d τ) [],
        x.concept_id = r.concept_id → x.match_count ≤ r.match_count) ∧
    (∀ x ∈ store.getAll.foldl (recursiveMatchConcept (recursiveMatch store) store fs d τ) [],
      ∃ r ∈ recursiveMatch store fs d τ, r.concept_id = x.concept_id) := by
  have heq := recursiveMatch_eq store fs d τ
  unfold recursiveMatchStep at heq
  obtain ⟨h1, h2, h3⟩ := sortUnique_spec
    (store.getAll.foldl (recursiveMatchConcept (recursiveMatch store) store fs d τ) [])
  simp only [] at heq
  rw [← heq] at h1 h2 h3
  refine ⟨h1, List.Pairwise.imp (fun {a b} hab => ne_of_lt hab) h1, ?_, ?_⟩
  · intro r hr
    refine ⟨h2 r hr, ?_⟩
    intro x hx he
    obtain ⟨r', hr', he', hle⟩ := h3 x hx
    have : r' = r := eq_of_concept_id_eq _ h1 r' r hr' hr (he'.trans he)
    rw [← this]
    exact hle
  · intro x hx
    obtain ⟨r, hr, he, _⟩ := h3 x hx
    exact ⟨r, hr, he⟩

theorem recursiveMatch_collected_shallow (recurse : List Feature → Int → K → List MatchResult)
    (store : Store) (fs : List Feature) (d : Int) (τ : K) (hd : d ≤ 1) (cs : List Concept)
    (acc : List MatchResult) :
    cs.foldl (recursiveMatchConcept recurse store fs d τ) acc =
      acc ++ (cs.map (fun c => matchConceptFuzzy fs c τ)).filter
        (fun r => 0 < r.match_count) := by
  induction cs generalizing acc with
  | nil => simp
  | cons c cs ih =>
    rw [List.foldl_cons, ih]
    have hd' : ¬(d > 1) := by omega
    unfold recursiveMatchConcept
    by_cases h : 0 < (matchConceptFuzzy fs c τ).match_count
    · simp [h, List.filter_cons]
    · simp [h, hd', List.filter_cons]

theorem fuzzyScan_ids_sublist (store : Store) (fs : List Feature) (τ : K) :
    (((store.getAll.map (fun c => matchConceptFuzzy fs c τ)).filter
        (fun r => 0 < r.match_count)).map MatchResult.concept_id).Sublist
      (store.getAll.map Concept.id) := by
  have h1 := List.Sublist.map MatchResult.concept_id
    (List.filter_sublist (p := fun r : MatchResult => decide (0 < r.match_count))
      (store.getAll.map (fun c => matchConceptFuzzy fs c τ)))
  have h2 : (store.getAll.map (fun c => matchConceptFuzzy fs c τ)).map
      MatchResult.concept_id = store.getAll.map Concept.id := by
    rw [List.map_map]
    apply List.map_congr_left
    intro c _
    exact matchConceptFuzzy_concept_id fs c τ
  rwa [h2] at h1

theorem recursiveMatch_shallow (recurse : List Feature → Int → K → List MatchResult)
    (store : Store) (fs : List Feature) (d : Int) (τ : K) (hd : d ≤ 1) :
    recursiveMatchStep recurse store fs d τ =
      stdSort resultBefore ((store.getAll.map (fun c => matchConceptFuzzy fs c τ)).filter
        (fun r => 0 < r.match_count)) := by
  unfold recursiveMatchStep
  simp only []
  rw [recursiveMatch_collected_shallow recurse store fs d τ hd, List.nil_append]
  apply stdUnique_eq_self_of_nodup
  have hperm := (stdSort_perm resultBefore
    ((store.getAll.map (fun c => matchConceptFuzzy fs c τ)).filter
      (fun r => 0 < r.match_count))).map MatchResult.concept_id
  rw [hperm.nodup_iff]
  exact (fuzzyScan_ids_sublist store fs τ).nodup store.unique_ids

/-- C14: `recursiveMatch(features, 1, τ)` makes no recursive call (its body gives the same
list whatever stands for the recursive call) and returns the results of plain fuzzy
matching, `findMatchingConcepts(features, true, τ, 1)`, that is `matchConceptFuzzy` applied
to every stored concept with the positive counts kept: the same results, put in ascending
concept-id order, and the same list when the store enumerates its concepts in that order. -/
theorem recursiveMatch_depth_one (store : Store) (fs : List Feature) (τ : K) :
    (∀ recurse : List Feature → Int → K → List MatchResult,
      recursiveMatchStep recurse store fs 1 τ = recursiveMatch store fs 1 τ) ∧
    findMatchingConceptsFuzzy store fs true τ 1 =
      (store.getAll.map (fun c => matchConceptFuzzy fs c τ)).filter
        (fun r => 0 < r.match_count) ∧
    recursiveMatch store fs 1 τ =
      stdSort resultBefore (findMatchingConceptsFuzzy store fs true τ 1) ∧
    (recursiveMatch store fs 1 τ).Perm (findMatchingConceptsFuzzy store fs true τ 1) ∧
    (∀ r, r ∈ recursiveMatch store fs 1 τ ↔ r ∈ findMatchingConceptsFuzzy store fs true τ 1) ∧
    ((store.getAll.map Concept.id).Pairwise (· < ·) →
      recursiveMatch store fs 1 τ = findMatchingConceptsFuzzy store fs true τ 1) := by
  have hscan : findMatchingConceptsFuzzy store fs true τ 1 =
      (store.getAll.map (fun c => matchConceptFuzzy fs c τ)).filter
        (fun r => 0 < r.match_count) := by
    unfold findMatchingConceptsFuzzy
    simp only [Bool.not_true, Bool.false_eq_true, if_false, gt_iff_lt, lt_self_iff_false]
    rw [fuzzyScan_foldl]
    simp
  have hrec : recursiveMatch store fs 1 τ =
      stdSort resultBefore (findMatchingConceptsFuzzy store fs true τ 1) := by
    rw [recursiveMatch_eq, recursiveMatch_shallow _ store fs 1 τ (le_refl _), hscan]
  refine ⟨?_, hscan, hrec, ?_, ?_, ?_⟩
  · intro recurse
    rw [recursiveMatch_shallow _ store fs 1 τ (le_refl _), hrec, hscan]
  · rw [hrec]; exact stdSort_perm _ _
  · intro r
    rw [hrec]; exact (stdSort_perm _ _).mem_iff
  · intro hasc
    rw [hrec]
    apply stdSort_eq_self_of_sorted
    have hsub := fuzzyScan_ids_sublist store fs τ
    rw [← hscan] at hsub
    exact List.pairwise_map.mp (List.Pairwise.sublist hsub hasc)

/-- An instance of C14 on a store that lists concept 2 before concept 1: recursive matching
at depth 1 returns the two fuzzy matches, in ascending concept-id order. -/
theorem recursiveMatch_depth_one_witness :
    findMatchingConceptsFuzzy
        ⟨[⟨2, [['k']], [['a', 'c']]⟩, ⟨1, [['k']], [['a', 'b']]⟩], by decide⟩
        [⟨[], ['a', 'b']⟩] true (1 / 2 : ℚ) 1 = [⟨2, 1, [0]⟩, ⟨1, 1, [0]⟩] ∧
    recursiveMatch
        ⟨[⟨2, [['k']], [['a', 'c']]⟩, ⟨1, [['k']], [['a', 'b']]⟩], by decide⟩
        [⟨[], ['a', 'b']⟩] 1 (1 / 2 : ℚ) = [⟨1, 1, [0]⟩, ⟨2, 1, [0]⟩] ∧
    recursiveMatch redFruitStore [⟨[], ['r', 'e', 'd']⟩] 1 (1 / 2 : ℚ) =
      findMatchingConceptsFuzzy redFruitStore [⟨[], ['r', 'e', 'd']⟩] true (1 / 2 : ℚ) 1 :=
  ⟨by decide!, by decide!,
    (recursiveMatch_depth_one redFruitStore [⟨[], ['r', 'e', 'd']⟩] (1 / 2 : ℚ)).2.2.2.2.2
      (by decide)⟩

end RecursiveList

/-! ## Overlap analysis: bucket counts -/

section OverlapSpec
variable {K : Type} [LinearOrderedField K]

theorem OverlapMap.count_cons (e : LevelPair × Int) (om : OverlapMap) (k : LevelPair) :
    OverlapMap.count (e :: om) k = if e.1 = k then e.2 else OverlapMap.count om k := by
  unfold OverlapMap.count
  by_cases h : e.1 = k
  · simp [List.find?_cons, h]
  · simp [List.find?_cons, h]

theorem OverlapMap.count_eq_zero (om : OverlapMap) (k : LevelPair)
    (h : k ∉ OverlapMap.keys om) : OverlapMap.count om k = 0 := by
  induction om with
  | nil => rfl
  | cons e om ih =>
    have e2 : OverlapMap.keys (e :: om) = e.1 :: OverlapMap.keys om := rfl
    rw [e2, List.mem_cons, not_or] at h
    rw [OverlapMap.count_cons, if_neg (fun he => h.1 he.symm)]
    exact ih h.2

theorem count_increment (om : OverlapMap) (k k0 : LevelPair)
    (hs : (OverlapMap.keys om).Pairwise LevelPair.lt) :
    OverlapMap.count (OverlapMap.increment om k) k0 =
      OverlapMap.count om k0 + if k0 = k then 1 else 0 := by
  induction om with
  | nil =>
    unfold OverlapMap.increment
    rw [OverlapMap.count_cons]
    by_cases h : k = k0
    · simp [h, OverlapMap.count]
    · have h' : ¬k0 = k := fun e => h e.symm
      simp [h, h', OverlapMap.count]
  | cons e om ih =>
    obtain ⟨k', v⟩ := e
    have e2 : OverlapMap.keys ((k', v) :: om) = k' :: OverlapMap.keys om := rfl
    rw [e2, List.pairwise_cons] at hs
    unfold OverlapMap.increment
    by_cases h1 : k = k'
    · rw [if_pos h1, OverlapMap.count_cons, OverlapMap.count_cons]
      subst h1
      by_cases h3 : k0 = k
      · subst h3; simp
      · have h3' : ¬k = k0 := fun e => h3 e.symm
        simp [h3, h3']
    · rw [if_neg h1]
      by_cases h2 : LevelPair.lt k k'
      · rw [if_pos h2, OverlapMap.count_cons]
        by_cases h3 : k0 = k
        · subst h3
          have hnot : k0 ∉ OverlapMap.keys ((k', v) :: om) := by
            rw [e2, List.mem_cons, not_or]
            refine ⟨h1, fun hmem => ?_⟩
            exact LevelPair.lt_irrefl k0 (LevelPair.lt_trans h2 (hs.1 k0 hmem))
          rw [OverlapMap.count_eq_zero _ _ hnot]
          simp
        · have h3' : ¬k = k0 := fun e => h3 e.symm
          simp [h3, h3']
      · rw [if_neg h2, OverlapMap.count_cons, OverlapMap.count_cons, ih hs.2]
        by_cases h3 : k0 = k
        · subst h3
          have h1' : ¬k' = k0 := fun e => h1 e.symm
          simp [h1']
        · simp only [h3, if_false, add_zero]

theorem count_foldl_increment (ks : List LevelPair) (k0 : LevelPair) :
    ∀ om : OverlapMap, (OverlapMap.keys om).Pairwise LevelPair.lt →
      OverlapMap.count (ks.foldl OverlapMap.increment om) k0 =
        OverlapMap.count om k0 + (ks.count k0 : Int) := by
  induction ks with
  | nil => intro om _; simp
  | cons k ks ih =>
    intro om hs
    rw [List.foldl_cons, ih _ (sorted_keys_increment om k hs), count_increment om k k0 hs,
      List.count_cons]
    by_cases h : k0 = k
    · subst h; simp; ring
    · have h' : ¬k = k0 := fun e => h e.symm
      simp [h, h']

theorem sum_counts_increment (om : OverlapMap) (k : LevelPair) :
    ((OverlapMap.increment om k).map Prod.snd).sum = (om.map Prod.snd).sum + 1 := by
  induction om with
  | nil => simp [OverlapMap.increment]
  | cons e om ih =>
    obtain ⟨k', v⟩ := e
    unfold OverlapMap.increment
    split_ifs with h1 h2
    · simp only [List.map_cons, List.sum_cons]; ring
    · simp only [List.map_cons, List.sum_cons]; ring
    · simp only [List.map_cons, List.sum_cons, ih]; ring

theorem sum_counts_foldl_increment (ks : List LevelPair) :
    ∀ om : OverlapMap, ((ks.foldl OverlapMap.increment om).map Prod.snd).sum =
      (om.map Prod.snd).sum + (ks.length : Int) := by
  induction ks with
  | nil => intro om; simp
  | cons k ks ih =>
    intro om
    rw [List.foldl_cons, ih, sum_counts_increment, List.length_cons]
    push_cast
    ring

theorem mem_keys_foldl_increment (ks : List LevelPair) (k0 : LevelPair) :
    ∀ om : OverlapMap, k0 ∈ OverlapMap.keys (ks.foldl OverlapMap.increment om) →
      k0 ∈ ks ∨ k0 ∈ OverlapMap.keys om := by
  induction ks with
  | nil => intro om h; exact Or.inr h
  | cons k ks ih =>
    intro om h
    rw [List.foldl_cons] at h
    rcases ih _ h with h | h
    · exact Or.inl (List.mem_cons_of_mem _ h)
    · rcases (mem_keys_increment om k k0).mp h with h | h
      · exact Or.inl (h ▸ List.mem_cons_self _ _)
      · exact Or.inr h

theorem count_filterMap {α : Type} (g : α → Option LevelPair) (k : LevelPair)
    (l : List α) :
    (l.filterMap g).count k = (l.filter (fun a => decide (g a = some k))).length := by
  induction l with
  | nil => simp
  | cons a l ih =>
    cases hg : g a with
    | none => simp [List.filterMap_cons, hg, List.filter_cons, ih]
    | some b =>
      by_cases hb : b = k
      · subst hb
        simp [List.filterMap_cons, hg, List.filter_cons, ih]
      · have hb' : ¬(some b = some k) := fun e => hb (Option.some.inj e)
        simp [List.filterMap_cons, hg, List.filter_cons, ih, List.count_cons, hb]

theorem filterMap_filter_eq {α β : Type} (p : α → Bool) (g : α → Option β) (l : List α) :
    (l.filter p).filterMap g = l.filterMap (fun a => if p a then g a else none) := by
  induction l with
  | nil => simp
  | cons a l ih =>
    by_cases h : p a = true
    · simp [List.filter_cons, List.filterMap_cons, h, ih]
    · simp [List.filter_cons, List.filterMap_cons, h, ih]

theorem length_filterMap_eq {α β : Type} (g : α → Option β) (l : List α) :
    (l.filterMap g).length = (l.filter (fun a => (g a).isSome)).length := by
  induction l with
  | nil => simp
  | cons a l ih =>
    cases hg : g a <;> simp [List.filterMap_cons, hg, List.filter_cons, ih]

theorem matchesMap_eq_some (B : List MatchResult) (k : Nat) (v : Int)
    (hB : (B.map MatchResult.concept_id).Nodup) :
    matchesMap B k = some v ↔ ∃ b ∈ B, b.concept_id = k ∧ b.match_count = v := by
  unfold matchesMap
  rw [idMap_foldl_eq_some _ _ _ _ hB]
  simp

theorem matchesMap_isSome (B : List MatchResult) (k : Nat)
    (hB : (B.map MatchResult.concept_id).Nodup) :
    (matchesMap B k).isSome = true ↔ k ∈ B.map MatchResult.concept_id := by
  rw [Option.isSome_iff_exists]
  constructor
  · rintro ⟨v, hv⟩
    obtain ⟨b, hb, hid, _⟩ := (matchesMap_eq_some B k v hB).mp hv
    exact List.mem_map.mpr ⟨b, hb, hid⟩
  · intro hk
    obtain ⟨b, hb, hid⟩ := List.mem_map.mp hk
    exact ⟨b.match_count, (matchesMap_eq_some B k _ hB).mpr ⟨b, hb, hid, rfl⟩⟩

theorem overlapKeys_restrict (A B : List MatchResult) (tA tB : Int)
    (hB : (B.map MatchResult.concept_id).Nodup) :
    overlapKeys K
        (A.filter (fun a => decide (a.concept_id ∈ B.map MatchResult.concept_id)))
        (matchesMap (B.filter (fun b => decide (b.concept_id ∈ A.map MatchResult.concept_id))))
        tA tB =
      overlapKeys K A (matchesMap B) tA tB := by
  have hB' : ((B.filter (fun b => decide (b.concept_id ∈ A.map MatchResult.concept_id))).map
      MatchResult.concept_id).Nodup :=
    (List.Sublist.map _ (List.filter_sublist _)).nodup hB
  unfold overlapKeys
  rw [filterMap_filter_eq]
  apply List.filterMap_congr
  intro a ha
  have hmap : matchesMap
      (B.filter (fun b => decide (b.concept_id ∈ A.map MatchResult.concept_id))) a.concept_id =
      matchesMap B a.concept_id := by
    apply Option.ext
    intro v
    simp only [Option.mem_def]
    rw [matchesMap_eq_some _ _ _ hB', matchesMap_eq_some _ _ _ hB]
    constructor
    · rintro ⟨b, hb, h1, h2⟩
      exact ⟨b, (List.mem_filter.mp hb).1, h1, h2⟩
    · rintro ⟨b, hb, h1, h2⟩
      refine ⟨b, List.mem_filter.mpr ⟨hb, ?_⟩, h1, h2⟩
      simp only [decide_eq_true_eq]
      rw [h1]
      exact List.mem_map_of_mem _ ha
  by_cases hin : a.concept_id ∈ B.map MatchResult.concept_id
  · simp only [hin, decide_True, if_true, hmap]
  · have hnone : matchesMap B a.concept_id = none := by
      cases h : matchesMap B a.concept_id with
      | none => rfl
      | some v =>
        exfalso
        apply hin
        exact (matchesMap_isSome B _ hB).mp (by rw [h]; rfl)
    simp only [hin, decide_False, Bool.false_eq_true, if_false, hnone, Option.map_none']

/-- C17: for match lists with unique concept ids, the map returned by `analyzeOverlap` holds
at `(i, j)` the number of concept ids present in both lists whose two match counts have the
levels `i` and `j`; `total_matches` is the number of concept ids present in both lists and
the sum of all bucket counts; entries whose id is in one list only do not change the
result; the keys of the map are pairwise distinct and lie in `[1,5] x [1,5]`. -/
theorem analyzeOverlap_spec (K : Type) [LinearOrderedField K] (A B : List MatchResult)
    (tA tB : Int) (hA : (A.map MatchResult.concept_id).Nodup)
    (hB : (B.map MatchResult.concept_id).Nodup) :
    (∀ i j : Int, OverlapMap.count (analyzeOverlap K A B tA tB).1 (i, j) =
      (((A.map MatchResult.concept_id).filter (fun id => decide (∃ a ∈ A, ∃ b ∈ B,
        a.concept_id = id ∧ b.concept_id = id ∧
        calculateMatchLevel K a.match_count tA = i ∧
        calculateMatchLevel K b.match_count tB = j))).length : Int)) ∧
    (analyzeOverlap K A B tA tB).2 =
      (((A.map MatchResult.concept_id).filter
        (fun id => decide (id ∈ B.map MatchResult.concept_id))).length : Int) ∧
    (analyzeOverlap K A B tA tB).2 = ((analyzeOverlap K A B tA tB).1.map Prod.snd).sum ∧
    analyzeOverlap K
        (A.filter (fun a => decide (a.concept_id ∈ B.map MatchResult.concept_id)))
        (B.filter (fun b => decide (b.concept_id ∈ A.map MatchResult.concept_id))) tA tB =
      analyzeOverlap K A B tA tB ∧
    ((analyzeOverlap K A B tA tB).1.map Prod.fst).Nodup ∧
    (∀ e ∈ (analyzeOverlap K A B tA tB).1,
      (1 ≤ e.1.1 ∧ e.1.1 ≤ 5) ∧ (1 ≤ e.1.2 ∧ e.1.2 ≤ 5)) := by
  have hnil : (OverlapMap.keys []).Pairwise LevelPair.lt := by simp [OverlapMap.keys]
  refine ⟨?_, ?_, ?_, ?_, ?_, ?_⟩
  · intro i j
    rw [analyzeOverlap_eq]
    simp only []
    rw [count_foldl_increment _ _ [] hnil]
    have h0 : OverlapMap.count [] (i, j) = 0 := rfl
    rw [h0, zero_add]
    unfold overlapKeys
    rw [count_filterMap, List.filter_map, List.length_map]
    congr 2
    apply List.filter_congr
    intro a ha
    simp only [decide_eq_decide, Function.comp]
    constructor
    · intro h
      cases hb : matchesMap B a.concept_id with
      | none => rw [hb] at h; simp at h
      | some cb =>
        rw [hb] at h
        simp only [Option.map_some', Option.some.injEq, Prod.mk.injEq] at h
        obtain ⟨b, hbm, hid, hcnt⟩ := (matchesMap_eq_some B _ _ hB).mp hb
        exact ⟨a, ha, b, hbm, rfl, hid, h.1, by rw [hcnt]; exact h.2⟩
    · rintro ⟨a', ha', b, hbm, hida, hid, h1, h2⟩
      have haa : a' = a := List.inj_on_of_nodup_map hA ha' ha hida
      subst haa
      have hb := (matchesMap_eq_some B a'.concept_id b.match_count hB).mpr ⟨b, hbm, hid, rfl⟩
      rw [hb]
      simp [h1, h2]
  · rw [analyzeOverlap_eq]
    simp only []
    unfold overlapKeys
    rw [length_filterMap_eq, List.filter_map, List.length_map]
    congr 2
    apply List.filter_congr
    intro a _
    simp only [Function.comp]
    rw [Option.isSome_map']
    have := matchesMap_isSome B a.concept_id hB
    by_cases hin : a.concept_id ∈ B.map MatchResult.concept_id
    · simp only [hin, decide_True]; exact this.mpr hin
    · simp only [hin, decide_False]
      cases h : (matchesMap B a.concept_id).isSome with
      | false => rfl
      | true => exact absurd (this.mp h) hin
  · rw [analyzeOverlap_eq]
    simp only []
    rw [sum_counts_foldl_increment]
    simp
  · rw [analyzeOverlap_eq, analyzeOverlap_eq, overlapKeys_restrict A B tA tB hB]
  · rw [analyzeOverlap_eq]
    exact nodup_keys_of_sorted _ (sorted_keys_foldl_increment _ [] hnil)
  · intro e he
    rw [analyzeOverlap_eq] at he
    have hk : e.1 ∈ OverlapMap.keys
        ((overlapKeys K A (matchesMap B) tA tB).foldl OverlapMap.increment []) :=
      List.mem_map_of_mem _ he
    rcases mem_keys_foldl_increment _ _ _ hk with h | h
    · unfold overlapKeys at h
      obtain ⟨a, _, ha⟩ := List.mem_filterMap.mp h
      cases hb : matchesMap B a.concept_id with
      | none => rw [hb] at ha; simp at ha
      | some cb =>
        rw [hb] at ha
        simp only [Option.map_some', Option.some.injEq] at ha
        rw [← ha]
        exact ⟨calculateMatchLevel_range _ _, calculateMatchLevel_range _ _⟩
    · simp [OverlapMap.keys] at h

/-- An instance of C17: concept 1 is matched 1/5 by A and 5/5 by B, concept 2 by A only and
concept 3 by B only, so the map is `{(1,5) -> 1}` and one concept is co-matched. -/
theorem analyzeOverlap_spec_witness :
    analyzeOverlap ℚ [⟨1, 1, [0]⟩, ⟨2, 3, [0, 1, 2]⟩] [⟨3, 2, [0, 1]⟩, ⟨1, 5, [0, 1, 2, 3, 4]⟩]
        5 5 = ([((1, 5), 1)], 1) ∧
    OverlapMap.count
        (analyzeOverlap ℚ [⟨1, 1, [0]⟩, ⟨2, 3, [0, 1, 2]⟩]
          [⟨3, 2, [0, 1]⟩, ⟨1, 5, [0, 1, 2, 3, 4]⟩] 5 5).1 (1, 5) =
      ((([⟨1, 1, [0]⟩, ⟨2, 3, [0, 1, 2]⟩] : List MatchResult).map
        MatchResult.concept_id).filter (fun id => decide
          (∃ a ∈ ([⟨1, 1, [0]⟩, ⟨2, 3, [0, 1, 2]⟩] : List MatchResult),
            ∃ b ∈ ([⟨3, 2, [0, 1]⟩, ⟨1, 5, [0, 1, 2, 3, 4]⟩] : List MatchResult),
            a.concept_id = id ∧ b.concept_id = id ∧
            calculateMatchLevel ℚ a.match_count 5 = 1 ∧
            calculateMatchLevel ℚ b.match_count 5 = 5))).length :=
  ⟨by decide!,
    (analyzeOverlap_spec ℚ [⟨1, 1, [0]⟩, ⟨2, 3, [0, 1, 2]⟩]
      [⟨3, 2, [0, 1]⟩, ⟨1, 5, [0, 1, 2, 3, 4]⟩] 5 5 (by decide) (by decide)).1 1 5⟩

end OverlapSpec
/-! ## Partial similarity and parameter evaluation -/

section Evaluate
variable {K : Type} [LinearOrderedField K]

/-- C18: `calculatePartialSimilarity` is `0.0` for divisor 0, and for any other divisor it is
the sum over the buckets `((i, j) -> c)` of `c * w(i, j)` divided by the divisor, where
`w(i, j)` is the table entry under `"p" + i + j` when that key exists and `1.0` otherwise. -/
theorem calculatePartialSimilarity_spec (om : OverlapMap) (params : Params K) :
    calculatePartialSimilarity om 0 params = 0 ∧
    ∀ divisor : Int, divisor ≠ 0 →
      calculatePartialSimilarity om divisor params =
        (om.map (fun e => (e.2 : K) *
          (match params.find (paramKey e.1.1 e.1.2) with
          | some v => v
          | none => 1))).sum / (divisor : K) := by
  refine ⟨by rw [calculatePartialSimilarity_eq, if_pos rfl], ?_⟩
  intro divisor hd
  rw [calculatePartialSimilarity_eq, if_neg hd]
  rfl

/-- Instances of C18: with the default table a bucket `(5,5) -> 3` and divisor 4 give
`3 * 2.0 / 4`, and with an empty table the weight is `1.0`. -/
theorem calculatePartialSimilarity_spec_witness :
    calculatePartialSimilarity [((5, 5), 3)] 4 (g_similarity_params ℚ) = 3 / 2 ∧
      calculatePartialSimilarity [((5, 5), 3)] 4 ([] : Params ℚ) = 3 / 4 ∧
      calculatePartialSimilarity [((5, 5), 3)] 0 (g_similarity_params ℚ) = 0 := by
  refine ⟨?_, ?_, (calculatePartialSimilarity_spec _ _).1⟩
  · rw [(calculatePartialSimilarity_spec [((5, 5), 3)] (g_similarity_params ℚ)).2 4 (by decide)]
    decide!
  · rw [(calculatePartialSimilarity_spec [((5, 5), 3)] ([] : Params ℚ)).2 4 (by decide)]
    decide!

/-- C19: with no training sample, `evaluateParameters` returns exactly `1.0`, whatever the
parameter table. -/
theorem evaluateParameters_nil (sqrt : K → K) (store : Store) (params : Params K) :
    evaluateParameters sqrt store [] params = 1 := rfl

theorem evaluateParameters_foldl (sqrt : K → K) (store : Store) (params : Params K)
    (samples : List (TrainingSample K)) (init : K × K) :
    samples.foldl
      (fun totals sample =>
        let calculated_similarity :=
          calculateMainSimilarity sqrt store sample.features_A sample.features_B params
        let error := |calculated_similarity - sample.expected_similarity|
        let weight := sample.confidence
        (totals.1 + error * weight, totals.2 + weight)) init =
      (init.1 + (samples.map (fun s =>
          |calculateMainSimilarity sqrt store s.features_A s.features_B params -
            s.expected_similarity| * s.confidence)).sum,
        init.2 + (samples.map (fun s => s.confidence)).sum) := by
  induction samples generalizing init with
  | nil => simp
  | cons s samples ih =>
    rw [List.foldl_cons, ih]
    simp only [List.map_cons, List.sum_cons]
    ext <;> simp only [] <;> ring

theorem evaluateParameters_eq (sqrt : K → K) (store : Store) (params : Params K)
    (samples : List (TrainingSample K)) (hne : samples ≠ []) :
    evaluateParameters sqrt store samples params =
      1 / (1 + if 0 < (samples.map (fun s => s.confidence)).sum then
        (samples.map (fun s =>
          |calculateMainSimilarity sqrt store s.features_A s.features_B params -
            s.expected_similarity| * s.confidence)).sum /
          (samples.map (fun s => s.confidence)).sum
        else 1) := by
  unfold evaluateParameters
  have he : samples.isEmpty = false := by
    cases samples with
    | nil => exact absurd rfl hne
    | cons s l => rfl
  simp only [he, Bool.false_eq_true, if_false]
  rw [evaluateParameters_foldl]
  simp only [zero_add, gt_iff_lt]

theorem sum_nonneg_of_forall {α : Type} (g : α → K) (l : List α)
    (h : ∀ a ∈ l, 0 ≤ g a) : 0 ≤ (l.map g).sum := by
  induction l with
  | nil => simp
  | cons a l ih =>
    rw [List.map_cons, List.sum_cons]
    exact add_nonneg (h a (List.mem_cons_self _ _))
      (ih (fun b hb => h b (List.mem_cons_of_mem _ hb)))

theorem sum_eq_zero_iff_of_nonneg {α : Type} (g : α → K) (l : List α)
    (h : ∀ a ∈ l, 0 ≤ g a) : (l.map g).sum = 0 ↔ ∀ a ∈ l, g a = 0 := by
  induction l with
  | nil => simp
  | cons a l ih =>
    have ha := h a (List.mem_cons_self _ _)
    have hl : ∀ b ∈ l, 0 ≤ g b := fun b hb => h b (List.mem_cons_of_mem _ hb)
    have hs := sum_nonneg_of_forall g l hl
    rw [List.map_cons, List.sum_cons, List.forall_mem_cons, ← ih hl]
    constructor
    · intro hsum
      constructor <;> linarith
    · rintro ⟨h1, h2⟩
      rw [h1, h2, add_zero]

/-- C20: for a non-empty sample list whose confidences lie in `[0,1]` and have a positive
sum `W`, `evaluateParameters` is `1 / (1 + E / W)` with `E` the sum of
`|calculateMainSimilarity(A, B, params) - expected| * confidence`; the value lies in `(0, 1]`
and is `1` exactly when every sample of positive confidence is reproduced exactly. -/
theorem evaluateParameters_spec (sqrt : K → K) (store : Store) (params : Params K)
    (samples : List (TrainingSample K)) (hne : samples ≠ [])
    (hconf : ∀ s ∈ samples, 0 ≤ s.confidence ∧ s.confidence ≤ 1)
    (hW : 0 < (samples.map (fun s => s.confidence)).sum) :
    evaluateParameters sqrt store samples params =
        1 / (1 + (samples.map (fun s =>
          |calculateMainSimilarity sqrt store s.features_A s.features_B params -
            s.expected_similarity| * s.confidence)).sum /
          (samples.map (fun s => s.confidence)).sum) ∧
      0 < evaluateParameters sqrt store samples params ∧
      evaluateParameters sqrt store samples params ≤ 1 ∧
      (evaluateParameters sqrt store samples params = 1 ↔
        ∀ s ∈ samples, 0 < s.confidence →
          calculateMainSimilarity sqrt store s.features_A s.features_B params =
            s.expected_similarity) := by
  have heq := evaluateParameters_eq sqrt store params samples hne
  rw [if_pos hW] at heq
  have hterm : ∀ s ∈ samples, 0 ≤
      |calculateMainSimilarity sqrt store s.features_A s.features_B params -
        s.expected_similarity| * s.confidence :=
    fun s hs => mul_nonneg (abs_nonneg _) (hconf s hs).1
  have hE := sum_nonneg_of_forall (fun s : TrainingSample K =>
      |calculateMainSimilarity sqrt store s.features_A s.features_B params -
        s.expected_similarity| * s.confidence) samples hterm
  have hq : 0 ≤ (samples.map (fun s =>
      |calculateMainSimilarity sqrt store s.features_A s.features_B params -
        s.expected_similarity| * s.confidence)).sum /
      (samples.map (fun s => s.confidence)).sum := div_nonneg hE hW.le
  have hden : 0 < 1 + (samples.map (fun s =>
      |calculateMainSimilarity sqrt store s.features_A s.features_B params -
        s.expected_similarity| * s.confidence)).sum /
      (samples.map (fun s => s.confidence)).sum := by linarith
  refine ⟨heq, ?_, ?_, ?_⟩
  · rw [heq]; exact div_pos one_pos hden
  · rw [heq, div_le_one hden]; linarith
  · rw [heq, div_eq_one_iff_eq hden.ne']
    constructor
    · intro h s hs hpos
      have hq0 : (samples.map (fun s =>
          |calculateMainSimilarity sqrt store s.features_A s.features_B params -
            s.expected_similarity| * s.confidence)).sum /
          (samples.map (fun s => s.confidence)).sum = 0 := by linarith
      rw [div_eq_zero_iff] at hq0
      rcases hq0 with hq0 | hq0
      · have := (sum_eq_zero_iff_of_nonneg _ samples hterm).mp hq0 s hs
        rcases mul_eq_zero.mp this with h1 | h1
        · exact sub_eq_zero.mp (abs_eq_zero.mp h1)
        · exact absurd h1 hpos.ne'
      · exact absurd hq0 hW.ne'
    · intro h
      have hsum : (samples.map (fun s =>
          |calculateMainSimilarity sqrt store s.features_A s.features_B params -
            s.expected_similarity| * s.confidence)).sum = 0 := by
        rw [sum_eq_zero_iff_of_nonneg _ samples hterm]
        intro s hs
        rcases (hconf s hs).1.lt_or_eq with hpos | hzero
        · rw [h s hs hpos, sub_self, abs_zero, zero_mul]
        · rw [← hzero, mul_zero]
      rw [hsum, zero_div, add_zero]

/-- An instance of C20: one sample over the store holding `{color:red, kind:fruit}` with
`red` against `red`, expected similarity `2` and confidence `1`, is reproduced exactly by the
default table, so the score is `1`; with expected similarity `1` the score is `1/2`. -/
theorem evaluateParameters_spec_witness :
    evaluateParameters Rat.sqrt redFruitStore
        [⟨[⟨[], "red".toList⟩], [⟨[], "red".toList⟩], 2, 1⟩] (g_similarity_params ℚ) = 1 ∧
      evaluateParameters Rat.sqrt redFruitStore
        [⟨[⟨[], "red".toList⟩], [⟨[], "red".toList⟩], 1, 1⟩] (g_similarity_params ℚ) = 1 / 2 := by
  have h1 := evaluateParameters_spec Rat.sqrt redFruitStore (g_similarity_params ℚ)
    [⟨[⟨[], "red".toList⟩], [⟨[], "red".toList⟩], 2, 1⟩] (by simp)
    (by intro s hs; simp at hs; subst hs; norm_num) (by norm_num)
  have h2 := evaluateParameters_spec Rat.sqrt redFruitStore (g_similarity_params ℚ)
    [⟨[⟨[], "red".toList⟩], [⟨[], "red".toList⟩], 1, 1⟩] (by simp)
    (by intro s hs; simp at hs; subst hs; norm_num) (by norm_num)
  have hmain : calculateMainSimilarity Rat.sqrt redFruitStore [⟨[], "red".toList⟩]
      [⟨[], "red".toList⟩] (g_similarity_params ℚ) = 2 := by decide!
  refine ⟨?_, ?_⟩
  · rw [h1.2.2.2]
    intro s hs _
    simp at hs
    subst hs
    exact hmain
  · rw [h2.1]
    simp only [List.map_cons, List.map_nil, List.sum_cons, List.sum_nil, hmain]
    norm_num

end Evaluate

/-! ## Parameter optimisation -/

theorem Params.mem_assign {K : Type} {params : Params K} {param_name : Str} {v : K}
    {e : Str × K} (h : e ∈ params.assign param_name v) :
    (e.1 = param_name ∧ e.2 = v) ∨ (e ∈ params ∧ e.1 ≠ param_name) := by
  unfold Params.assign at h
  split at h
  · rw [List.mem_map] at h
    obtain ⟨a, ha, rfl⟩ := h
    by_cases hk : a.1 = param_name
    · left; simp [hk]
    · right; simp [hk, ha]
  · rw [List.mem_append, List.mem_singleton] at h
    rcases h with h | rfl
    · right
      refine ⟨h, fun hk => ?_⟩
      rename_i hany
      exact hany (List.any_eq_true.mpr ⟨e, h, by simpa using hk⟩)
    · left; exact ⟨rfl, rfl⟩

theorem Params.keys_assign {K : Type} {params : Params K} {param_name : Str} (v : K)
    (h : param_name ∈ params.map Prod.fst) :
    (params.assign param_name v).map Prod.fst = params.map Prod.fst := by
  unfold Params.assign
  have hany : params.any (fun e => decide (e.1 = param_name)) = true := by
    rw [List.mem_map] at h
    obtain ⟨a, ha, rfl⟩ := h
    exact List.any_eq_true.mpr ⟨a, ha, by simp⟩
  rw [if_pos hany, List.map_map]
  apply List.map_congr_left
  intro a _
  by_cases hk : a.1 = param_name <;> simp [hk]

theorem foldl_range_const {α : Type} (f : α → α) (n : Nat) (a : α) :
    (List.range n).foldl (fun st _ => f st) a = f^[n] a := by
  induction n with
  | zero => rfl
  | succ n ih =>
    rw [List.range_succ, List.foldl_append, ih, Function.iterate_succ_apply']
    rfl

section Optimizer
variable {K : Type} [LinearOrderedField K]

theorem optimizeEntry_mem (sqrt : K → K) (store : Store)
    (samples : List (TrainingSample K)) (learning_rate : K) (g : Params K)
    (param_pair e : Str × K)
    (h : e ∈ optimizeEntry sqrt store samples learning_rate g param_pair) :
    (e.1 = param_pair.1 ∧ (0.1 : K) ≤ e.2 ∧ e.2 ≤ 5.0) ∨ (e ∈ g ∧ e.1 ≠ param_pair.1) := by
  unfold optimizeEntry at h
  rcases Params.mem_assign h with ⟨h1, h2⟩ | ⟨h1, h2⟩
  · left
    refine ⟨h1, ?_, ?_⟩
    · rw [h2]; exact le_max_left _ _
    · rw [h2]; exact max_le (by norm_num) (min_le_left _ _)
  · rcases Params.mem_assign h1 with ⟨h3, _⟩ | ⟨h3, _⟩
    · exact absurd h3 h2
    · rcases Params.mem_assign h3 with ⟨h4, _⟩ | ⟨h4, _⟩
      · exact absurd h4 h2
      · right; exact ⟨h4, h2⟩

theorem optimizeEntry_keys (sqrt : K → K) (store : Store)
    (samples : List (TrainingSample K)) (learning_rate : K) (g : Params K)
    (param_pair : Str × K) (h : param_pair.1 ∈ g.map Prod.fst) :
    (optimizeEntry sqrt store samples learning_rate g param_pair).map Prod.fst =
      g.map Prod.fst := by
  unfold optimizeEntry
  simp only []
  rw [Params.keys_assign, Params.keys_assign, Params.keys_assign _ h]
  · rw [Params.keys_assign _ h]; exact h
  · rw [Params.keys_assign, Params.keys_assign _ h]
    · exact h
    · rw [Params.keys_assign _ h]; exact h

theorem optimizeRound_visited (sqrt : K → K) (store : Store)
    (samples : List (TrainingSample K)) (learning_rate : K) (g : Params K) :
    ∀ i, i ≤ g.length →
      (((List.range i).foldl
          (fun g i =>
            match g[i]? with
            | some param_pair => optimizeEntry sqrt store samples learning_rate g param_pair
            | none => g) g).map Prod.fst = g.map Prod.fst) ∧
      ∀ e ∈ (List.range i).foldl
          (fun g i =>
            match g[i]? with
            | some param_pair => optimizeEntry sqrt store samples learning_rate g param_pair
            | none => g) g,
        e.1 ∈ (g.map Prod.fst).take i → (0.1 : K) ≤ e.2 ∧ e.2 ≤ 5.0 := by
  intro i
  induction i with
  | zero => intro _; simp
  | succ i ih =>
    intro hi
    obtain ⟨hk, hr⟩ := ih (by omega)
    rw [List.range_succ, List.foldl_append]
    simp only [List.foldl_cons, List.foldl_nil]
    generalize (List.range i).foldl
          (fun g i =>
            match g[i]? with
            | some param_pair => optimizeEntry sqrt store samples learning_rate g param_pair
            | none => g) g = g1 at hk hr ⊢
    have hlen : g1.length = g.length := by
      have := congrArg List.length hk
      simpa using this
    have hi1 : i < g1.length := by omega
    have hget : g1[i]? = some g1[i] := List.getElem?_eq_getElem hi1
    rw [hget]
    simp only []
    have hb : i < (g.map Prod.fst).length := by
      rw [List.length_map]; omega
    have hb1 : i < (g1.map Prod.fst).length := by
      rw [List.length_map]; omega
    have hkey : (g1[i]).1 = (g.map Prod.fst)[i] := by
      have : (g1.map Prod.fst)[i] = (g.map Prod.fst)[i] := by
        simp only [hk]
      simpa using this
    have hmem : (g1[i]).1 ∈ g1.map Prod.fst :=
      List.mem_map.mpr ⟨g1[i], List.getElem_mem _, rfl⟩
    refine ⟨by rw [optimizeEntry_keys _ _ _ _ _ _ hmem, hk], ?_⟩
    intro e he hin
    rcases optimizeEntry_mem _ _ _ _ _ _ _ he with ⟨_, h2⟩ | ⟨h1, h2⟩
    · exact h2
    · apply hr e h1
      rw [List.take_succ, List.mem_append] at hin
      rcases hin with hin | hin
      · exact hin
      · exfalso
        rw [List.getElem?_eq_getElem hb] at hin
        simp only [Option.toList, List.mem_singleton] at hin
        exact h2 (hin.trans hkey.symm)

theorem optimizeRound_range (sqrt : K → K) (store : Store)
    (samples : List (TrainingSample K)) (learning_rate : K) (g : Params K) :
    ∀ e ∈ optimizeRound sqrt store samples learning_rate g, (0.1 : K) ≤ e.2 ∧ e.2 ≤ 5.0 := by
  intro e he
  obtain ⟨hk, hr⟩ := optimizeRound_visited sqrt store samples learning_rate g g.length le_rfl
  unfold optimizeRound at he
  apply hr e he
  have : e.1 ∈ (g.map Prod.fst) := by
    rw [← hk]; exact List.mem_map.mpr ⟨e, he, rfl⟩
  rw [show g.length = (g.map Prod.fst).length from (List.length_map _ _).symm, List.take_length]
  exact this

theorem optimizeRound_keys (sqrt : K → K) (store : Store)
    (samples : List (TrainingSample K)) (learning_rate : K) (g : Params K) :
    (optimizeRound sqrt store samples learning_rate g).map Prod.fst = g.map Prod.fst :=
  (optimizeRound_visited sqrt store samples learning_rate g g.length le_rfl).1

/-- The state of the round loop after `n` rounds: the live table is the table of round `n`, and
the tracked best is the table of the earliest round attaining the greatest score so far. -/
theorem optimizeIteration_iterate (sqrt : K → K) (store : Store) (s : LearnerState K)
    (learning_rate : K) (n : Nat) :
    ∃ j, j ≤ n ∧
      ((optimizeIteration sqrt store s.training_samples learning_rate)^[n]
        { g_similarity_params := s.g_similarity_params
          best_params := s.g_similarity_params
          best_score := evaluateParameters sqrt store s.training_samples
            s.g_similarity_params }) =
        { g_similarity_params := liveTable sqrt store s learning_rate n
          best_params := liveTable sqrt store s learning_rate j
          best_score := liveScore sqrt store s learning_rate j } ∧
      (∀ i, i ≤ n → liveScore sqrt store s learning_rate i ≤
        liveScore sqrt store s learning_rate j) ∧
      (∀ i, i < j → liveScore sqrt store s learning_rate i <
        liveScore sqrt store s learning_rate j) := by
  induction n with
  | zero =>
    refine ⟨0, le_rfl, rfl, ?_, ?_⟩
    · intro i hi
      have : i = 0 := by omega
      subst this; exact le_rfl
    · intro i hi; omega
  | succ n ih =>
    obtain ⟨j, hj, hst, hmax, hlt⟩ := ih
    rw [Function.iterate_succ_apply', hst]
    unfold optimizeIteration
    simp only []
    have hs : evaluateParameters sqrt store s.training_samples
        (optimizeRound sqrt store s.training_samples learning_rate
          (liveTable sqrt store s learning_rate n)) =
        liveScore sqrt store s learning_rate (n + 1) := rfl
    have ht : optimizeRound sqrt store s.training_samples learning_rate
        (liveTable sqrt store s learning_rate n) = liveTable sqrt store s learning_rate (n + 1) :=
      rfl
    rw [hs, ht]
    by_cases hgt : liveScore sqrt store s learning_rate (n + 1) >
        liveScore sqrt store s learning_rate j
    · rw [if_pos hgt]
      refine ⟨n + 1, le_rfl, rfl, ?_, ?_⟩
      · intro i hi
        rcases Nat.lt_or_ge i (n + 1) with h | h
        · exact le_of_lt (lt_of_le_of_lt (hmax i (by omega)) hgt)
        · have : i = n + 1 := by omega
          subst this; exact le_rfl
      · intro i hi
        exact lt_of_le_of_lt (hmax i (by omega)) hgt
    · rw [if_neg hgt]
      refine ⟨j, by omega, rfl, ?_, hlt⟩
      intro i hi
      rcases Nat.lt_or_ge i (n + 1) with h | h
      · exact hmax i (by omega)
      · have : i = n + 1 := by omega
        subst this; exact not_lt.mp hgt

theorem optimizeLoop_spec (sqrt : K → K) (store : Store) (s : LearnerState K)
    (max_iterations : Int) (learning_rate : K) :
    ∃ j, j ≤ max_iterations.toNat ∧
      optimizeLoop sqrt store s max_iterations learning_rate =
        { g_similarity_params := liveTable sqrt store s learning_rate max_iterations.toNat
          best_params := liveTable sqrt store s learning_rate j
          best_score := liveScore sqrt store s learning_rate j } ∧
      (∀ i, i ≤ max_iterations.toNat → liveScore sqrt store s learning_rate i ≤
        liveScore sqrt store s learning_rate j) ∧
      (∀ i, i < j → liveScore sqrt store s learning_rate i <
        liveScore sqrt store s learning_rate j) := by
  unfold optimizeLoop
  rw [foldl_range_const]
  exact optimizeIteration_iterate sqrt store s learning_rate max_iterations.toNat

theorem liveTable_range (sqrt : K → K) (store : Store) (s : LearnerState K)
    (learning_rate : K) (k : Nat) (hk : 0 < k) :
    ∀ e ∈ liveTable sqrt store s learning_rate k, (0.1 : K) ≤ e.2 ∧ e.2 ≤ 5.0 := by
  cases k with
  | zero => omega
  | succ k => exact optimizeRound_range sqrt store s.training_samples learning_rate _

theorem isEmpty_eq_false_of_ne_nil {α : Type} {l : List α} (h : l ≠ []) : l.isEmpty = false := by
  cases l with
  | nil => exact absurd rfl h
  | cons a l => rfl

end Optimizer
section OptimizerClaims
variable {K : Type} [LinearOrderedField K]

/-- C21: for every initial parameter table, sample list, `max_iterations` (non-negative or not)
and learning rate, `optimizeParameters` keeps the sample list and ends with a table whose score
is not lower than the score of the initial table:
`evaluateParameters(final) >= evaluateParameters(initial)`. -/
theorem optimizeParameters_score_ge (sqrt : K → K) (store : Store) (s : LearnerState K)
    (max_iterations : Int) (learning_rate : K) :
    (optimizeParameters sqrt store s max_iterations learning_rate).training_samples =
        s.training_samples ∧
      evaluateParameters sqrt store s.training_samples s.g_similarity_params ≤
        evaluateParameters sqrt store s.training_samples
          (optimizeParameters sqrt store s max_iterations learning_rate).g_similarity_params := by
  unfold optimizeParameters
  by_cases he : s.training_samples.isEmpty = true
  · rw [if_pos he]; exact ⟨rfl, le_rfl⟩
  · rw [if_neg he]
    refine ⟨rfl, ?_⟩
    obtain ⟨j, _, hst, hmax, _⟩ := optimizeLoop_spec sqrt store s max_iterations learning_rate
    rw [hst]
    exact hmax 0 (Nat.zero_le _)

/-- C22, the claim as stated fails: on `outOfRangeState` one round with learning rate `0.01`
does not improve the score, so the table after `optimizeParameters` is the initial table, whose
value `10` lies outside `[0.1, 5.0]`. -/
theorem optimizeParameters_range_counterexample :
    (optimizeParameters Rat.sqrt redFruitStore outOfRangeState 1 (1 / 100)).g_similarity_params =
        [("p55".toList, 10)] ∧
      ¬ ∀ e ∈ (optimizeParameters Rat.sqrt redFruitStore outOfRangeState 1
          (1 / 100)).g_similarity_params, (0.1 : ℚ) ≤ e.2 ∧ e.2 ≤ 5.0 := by
  have h : (optimizeParameters Rat.sqrt redFruitStore outOfRangeState 1
      (1 / 100)).g_similarity_params = [("p55".toList, 10)] := by decide!
  refine ⟨h, ?_⟩
  rw [h]
  intro hall
  have := (hall ("p55".toList, 10) (List.mem_singleton.mpr rfl)).2
  norm_num at this

/-- C22, amended: the table after `optimizeParameters` is the initial table or has every value
in `[0.1, 5.0]`; hence every value of the final table lies in `[0.1, 5.0]` whenever every value
of the initial table does. -/
theorem optimizeParameters_range (sqrt : K → K) (store : Store) (s : LearnerState K)
    (max_iterations : Int) (learning_rate : K) :
    ((optimizeParameters sqrt store s max_iterations learning_rate).g_similarity_params =
        s.g_similarity_params ∨
      ∀ e ∈ (optimizeParameters sqrt store s max_iterations learning_rate).g_similarity_params,
        (0.1 : K) ≤ e.2 ∧ e.2 ≤ 5.0) ∧
    ((∀ e ∈ s.g_similarity_params, (0.1 : K) ≤ e.2 ∧ e.2 ≤ 5.0) →
      ∀ e ∈ (optimizeParameters sqrt store s max_iterations learning_rate).g_similarity_params,
        (0.1 : K) ≤ e.2 ∧ e.2 ≤ 5.0) := by
  have key : (optimizeParameters sqrt store s max_iterations learning_rate).g_similarity_params =
        s.g_similarity_params ∨
      ∀ e ∈ (optimizeParameters sqrt store s max_iterations learning_rate).g_similarity_params,
        (0.1 : K) ≤ e.2 ∧ e.2 ≤ 5.0 := by
    unfold optimizeParameters
    by_cases he : s.training_samples.isEmpty = true
    · rw [if_pos he]; left; rfl
    · rw [if_neg he]
      obtain ⟨j, _, hst, _, _⟩ := optimizeLoop_spec sqrt store s max_iterations learning_rate
      rw [hst]
      rcases Nat.eq_zero_or_pos j with h0 | hpos
      · left; subst h0; rfl
      · right; exact liveTable_range sqrt store s learning_rate j hpos
  refine ⟨key, fun hinit => ?_⟩
  rcases key with h | h
  · rw [h]; exact hinit
  · exact h

/-- Witness of C22 (amended) on `redState`, whose initial value `1` lies in `[0.1, 5.0]`. -/
theorem optimizeParameters_range_witness :
    (∀ e ∈ redState.g_similarity_params, (0.1 : ℚ) ≤ e.2 ∧ e.2 ≤ 5.0) ∧
      ∀ e ∈ (optimizeParameters Rat.sqrt redFruitStore redState 2
          (1 / 100)).g_similarity_params, (0.1 : ℚ) ≤ e.2 ∧ e.2 ≤ 5.0 :=
  ⟨by decide!, (optimizeParameters_range Rat.sqrt redFruitStore redState 2 (1 / 100)).2
    (by decide!)⟩

/-- C23: when there are training samples, the table in effect after `optimizeParameters` is the
live table of the earliest round (round `0` being the initial table) whose score is the greatest
among the initial table and the live tables at the end of the rounds; in particular it is the
initial table when no round scores strictly above the initial table, and the table of the last
round is kept only if it is that best. -/
theorem optimizeParameters_best (sqrt : K → K) (store : Store) (s : LearnerState K)
    (max_iterations : Int) (learning_rate : K) (hne : s.training_samples ≠ []) :
    (∃ j, j ≤ max_iterations.toNat ∧
      (optimizeParameters sqrt store s max_iterations learning_rate).g_similarity_params =
        liveTable sqrt store s learning_rate j ∧
      (∀ i, i ≤ max_iterations.toNat →
        liveScore sqrt store s learning_rate i ≤ liveScore sqrt store s learning_rate j) ∧
      (∀ i, i < j →
        liveScore sqrt store s learning_rate i < liveScore sqrt store s learning_rate j)) ∧
    ((∀ i, i ≤ max_iterations.toNat →
        ¬ liveScore sqrt store s learning_rate 0 < liveScore sqrt store s learning_rate i) →
      (optimizeParameters sqrt store s max_iterations learning_rate).g_similarity_params =
        s.g_similarity_params) := by
  have he : ¬ s.training_samples.isEmpty = true := by
    rw [isEmpty_eq_false_of_ne_nil hne]; exact Bool.false_ne_true
  obtain ⟨j, hj, hst, hmax, hlt⟩ := optimizeLoop_spec sqrt store s max_iterations learning_rate
  have hfin : (optimizeParameters sqrt store s max_iterations learning_rate).g_similarity_params =
      liveTable sqrt store s learning_rate j := by
    unfold optimizeParameters
    rw [if_neg he, hst]
  refine ⟨⟨j, hj, hfin, hmax, hlt⟩, fun hno => ?_⟩
  rw [hfin]
  rcases Nat.eq_zero_or_pos j with h0 | hpos
  · subst h0; rfl
  · exact absurd (hlt 0 hpos) (hno j hj)

/-- Witness of C23 on `redState` with two rounds. -/
theorem optimizeParameters_best_witness :
    redState.training_samples ≠ [] ∧
    ((∃ j, j ≤ (2 : Int).toNat ∧
      (optimizeParameters Rat.sqrt redFruitStore redState 2 (1 / 100)).g_similarity_params =
        liveTable Rat.sqrt redFruitStore redState (1 / 100) j ∧
      (∀ i, i ≤ (2 : Int).toNat →
        liveScore Rat.sqrt redFruitStore redState (1 / 100) i ≤
          liveScore Rat.sqrt redFruitStore redState (1 / 100) j) ∧
      (∀ i, i < j →
        liveScore Rat.sqrt redFruitStore redState (1 / 100) i <
          liveScore Rat.sqrt redFruitStore redState (1 / 100) j)) ∧
    ((∀ i, i ≤ (2 : Int).toNat →
        ¬ liveScore Rat.sqrt redFruitStore redState (1 / 100) 0 <
          liveScore Rat.sqrt redFruitStore redState (1 / 100) i) →
      (optimizeParameters Rat.sqrt redFruitStore redState 2 (1 / 100)).g_similarity_params =
        redState.g_similarity_params)) :=
  ⟨by simp [redState],
    optimizeParameters_best Rat.sqrt redFruitStore redState 2 (1 / 100) (by simp [redState])⟩

/-- C24: when the sample list is empty, `optimizeParameters` returns the state unchanged, the
parameter table and the sample list alike, for every `max_iterations` and learning rate. -/
theorem optimizeParameters_no_samples (sqrt : K → K) (store : Store) (s : LearnerState K)
    (max_iterations : Int) (learning_rate : K) (hs : s.training_samples = []) :
    optimizeParameters sqrt store s max_iterations learning_rate = s := by
  unfold optimizeParameters
  rw [hs]
  rfl

/-- Witness of C24 on `idleState`. -/
theorem optimizeParameters_no_samples_witness :
    idleState.training_samples = [] ∧
      optimizeParameters Rat.sqrt redFruitStore idleState 100 (1 / 100) = idleState :=
  ⟨rfl, optimizeParameters_no_samples Rat.sqrt redFruitStore idleState 100 (1 / 100) rfl⟩

end OptimizerClaims

/-! ## Termination of the recursive matching -/

section Termination
variable {K : Type} [LinearOrderedField K]

theorem recursiveMatchUnrolled_eq (store : Store)
    (deeper : List Feature → Int → K → List MatchResult) (τ : K) :
    ∀ (fuel : Nat) (fs : List Feature) (d : Int), (max d 1).toNat ≤ fuel →
      recursiveMatchUnrolled store deeper fuel fs d τ = recursiveMatch store fs d τ := by
  intro fuel
  induction fuel with
  | zero =>
    intro fs d h
    have : 1 ≤ (max d 1).toNat := by
      have := le_max_right d 1
      omega
    omega
  | succ fuel ih =>
    intro fs d h
    rw [recursiveMatch_eq]
    show recursiveMatchStep (recursiveMatchUnrolled store deeper fuel) store fs d τ = _
    apply recursiveMatchStep_congr
    intro hd m
    apply ih
    have h1 : max d 1 = d := max_eq_left (by omega)
    have h2 : max (d - 1) 1 = d - 1 := max_eq_left (by omega)
    rw [h1] at h
    rw [h2]
    omega

/-- C30: `recursiveMatch` terminates for every store, feature list, threshold and integer
`max_depth`, the non-positive ones included.  Its body consults the recursive call only when
`max_depth > 1` and only at `max_depth - 1`; the function satisfies the recursive definition;
and unrolling the body `max(max_depth, 1)` times or more gives its result whatever stands for
the calls nested deeper, so the nesting depth is at most `max(max_depth, 1)`. -/
theorem recursiveMatch_terminates (store : Store) (fs : List Feature) (d : Int) (τ : K) :
    (∀ r1 r2 : List Feature → Int → K → List MatchResult,
      (1 < d → ∀ m, r1 m (d - 1) τ = r2 m (d - 1) τ) →
        recursiveMatchStep r1 store fs d τ = recursiveMatchStep r2 store fs d τ) ∧
    recursiveMatch store fs d τ = recursiveMatchStep (recursiveMatch store) store fs d τ ∧
    (∀ (deeper : List Feature → Int → K → List MatchResult) (fuel : Nat),
      (max d 1).toNat ≤ fuel →
        recursiveMatchUnrolled store deeper fuel fs d τ = recursiveMatch store fs d τ) :=
  ⟨fun r1 r2 h => recursiveMatchStep_congr r1 r2 store fs d τ h, recursiveMatch_eq store fs d τ,
    fun deeper fuel h => recursiveMatchUnrolled_eq store deeper τ fuel fs d h⟩

/-- Witness of C30: with `max_depth = 2` two unrollings reach every call, and with
`max_depth = -3` one does. -/
theorem recursiveMatch_terminates_witness :
    ((max (2 : Int) 1).toNat ≤ 2 ∧
      recursiveMatchUnrolled redFruitStore (fun _ _ _ => [⟨7, 7, []⟩]) 2
          [⟨[], "rod".toList⟩] 2 ((3 : ℚ) / 5) =
        recursiveMatch redFruitStore [⟨[], "rod".toList⟩] 2 ((3 : ℚ) / 5)) ∧
    ((max (-3 : Int) 1).toNat ≤ 1 ∧
      recursiveMatchUnrolled redFruitStore (fun _ _ _ => [⟨7, 7, []⟩]) 1
          [⟨[], "rod".toList⟩] (-3) ((3 : ℚ) / 5) =
        recursiveMatch redFruitStore [⟨[], "rod".toList⟩] (-3) ((3 : ℚ) / 5)) :=
  ⟨⟨by decide, (recursiveMatch_terminates redFruitStore [⟨[], "rod".toList⟩] 2
      ((3 : ℚ) / 5)).2.2 _ 2 (by decide)⟩,
    ⟨by decide, (recursiveMatch_terminates redFruitStore [⟨[], "rod".toList⟩] (-3)
      ((3 : ℚ) / 5)).2.2 _ 1 (by decide)⟩⟩

end Termination
/-! ## Text input -/

section TextInput

theorem loadFeature_cases (c : Concept) (feature_str : Str) :
    loadFeature c feature_str = c ∨
      ∃ key value : Str, key ≠ [] ∧ value ≠ [] ∧
        loadFeature c feature_str =
          { c with feature_keys := c.feature_keys ++ [key]
                   feature_values := c.feature_values ++ [value] } := by
  unfold loadFeature
  cases find_first_not_of feature_str blanks with
  | none => left; rfl
  | some start =>
    simp only []
    cases strFind (substrToLast feature_str start) ':' with
    | none => left; rfl
    | some colon_pos =>
      simp only []
      generalize trimInPlace (substr (substrToLast feature_str start) 0 colon_pos) = key
      generalize trimInPlace (List.drop (colon_pos + 1) (substrToLast feature_str start)) = value
      split
      · rename_i hpush
        rw [Bool.and_eq_true] at hpush
        obtain ⟨hk, hv⟩ := hpush
        right
        refine ⟨_, _, ?_, ?_, rfl⟩
        · intro hnil; rw [hnil] at hk; simp at hk
        · intro hnil; rw [hnil] at hv; simp at hv
      · left; rfl

theorem loadFeature_invariant (c : Concept) (feature_str : Str)
    (h : c.feature_keys.length = c.feature_values.length ∧
      (∀ key ∈ c.feature_keys, key ≠ []) ∧ ∀ value ∈ c.feature_values, value ≠ []) :
    (loadFeature c feature_str).feature_keys.length =
        (loadFeature c feature_str).feature_values.length ∧
      (∀ key ∈ (loadFeature c feature_str).feature_keys, key ≠ []) ∧
      ∀ value ∈ (loadFeature c feature_str).feature_values, value ≠ [] := by
  rcases loadFeature_cases c feature_str with h1 | ⟨key, value, hk, hv, h1⟩
  · rw [h1]; exact h
  · rw [h1]
    refine ⟨?_, ?_, ?_⟩
    · simp only [List.length_append, List.length_singleton, h.1]
    · intro k hkey
      simp only [List.mem_append, List.mem_singleton] at hkey
      rcases hkey with hkey | hkey
      · exact h.2.1 k hkey
      · rw [hkey]; exact hk
    · intro v hvalue
      simp only [List.mem_append, List.mem_singleton] at hvalue
      rcases hvalue with hvalue | hvalue
      · exact h.2.2 v hvalue
      · rw [hvalue]; exact hv

theorem loadFeature_foldl_invariant (items : List Str) (c : Concept)
    (h : c.feature_keys.length = c.feature_values.length ∧
      (∀ key ∈ c.feature_keys, key ≠ []) ∧ ∀ value ∈ c.feature_values, value ≠ []) :
    (items.foldl loadFeature c).feature_keys.length =
        (items.foldl loadFeature c).feature_values.length ∧
      (∀ key ∈ (items.foldl loadFeature c).feature_keys, key ≠ []) ∧
      ∀ value ∈ (items.foldl loadFeature c).feature_values, value ≠ [] := by
  induction items generalizing c with
  | nil => exact h
  | cons item items ih => exact ih _ (loadFeature_invariant c item h)

/-- The outcomes of `loadLine`: the line is skipped, an exception is raised, or a concept is
built from the pieces of the bracketed text and put exactly when it has a key. -/
theorem loadLine_cases (line : Str) :
    loadLine line = LineOutcome.skipped ∨ loadLine line = LineOutcome.raised ∨
      ∃ items : List Str,
        loadLine line =
          if !(items.foldl loadFeature
              { id := 0, feature_keys := [], feature_values := [] }).feature_keys.isEmpty then
            LineOutcome.put (items.foldl loadFeature
              { id := 0, feature_keys := [], feature_values := [] })
          else
            LineOutcome.dropped (items.foldl loadFeature
              { id := 0, feature_keys := [], feature_values := [] }) := by
  unfold loadLine
  by_cases hb : (line.isEmpty ||
      (find_first_not_of line [' ', '\t', '\r', '\n']).isNone) = true
  · rw [if_pos hb]; left; rfl
  · rw [if_neg hb]
    cases strFind line '.' with
    | none => left; rfl
    | some dot_pos =>
      simp only []
      cases stoi (substr line 0 dot_pos) with
      | invalid_argument => left; rfl
      | out_of_range => right; left; rfl
      | value n =>
        simp only []
        cases strFindFrom line '[' (some dot_pos) with
        | none => left; rfl
        | some bracket_start =>
          cases strFindFrom line ']' (some bracket_start) with
          | none => left; rfl
          | some bracket_end =>
            right; right
            simp only []
            by_cases hf : (!(substr line (bracket_start + 1)
                (bracket_end - bracket_start - 1)).isEmpty) = true
            · rw [if_pos hf]
              exact ⟨_, rfl⟩
            · rw [if_neg hf]
              exact ⟨[], rfl⟩

/-- What `loadLine` does with a concept it has built: it is put exactly when it has a key, and
it then satisfies the invariant of stored concepts. -/
theorem loadLine_built (line : Str) (c : Concept) :
    (loadLine line = LineOutcome.put c → WellFormedConcept c) ∧
    (loadLine line = LineOutcome.dropped c → c.feature_keys = [] ∧ c.feature_values = []) := by
  rcases loadLine_cases line with h | h | ⟨items, h⟩
  · rw [h]; exact ⟨fun h => (by cases h), fun h => (by cases h)⟩
  · rw [h]; exact ⟨fun h => (by cases h), fun h => (by cases h)⟩
  · rw [h]
    have hi := loadFeature_foldl_invariant items
      { id := 0, feature_keys := [], feature_values := [] }
      ⟨rfl, fun x hx => (by cases hx), fun x hx => (by cases hx)⟩
    generalize items.foldl loadFeature { id := 0, feature_keys := [], feature_values := [] } = c1
      at hi ⊢
    by_cases hk : (!c1.feature_keys.isEmpty) = true
    · rw [if_pos hk]
      refine ⟨fun h => ?_, fun h => by cases h⟩
      injection h with h
      subst h
      refine ⟨?_, hi⟩
      intro hnil
      rw [hnil] at hk
      simp at hk
    · rw [if_neg hk]
      refine ⟨fun h => (by cases h), fun h => ?_⟩
      injection h with h
      subst h
      have hk1 : c1.feature_keys = [] := by simpa using hk
      refine ⟨hk1, ?_⟩
      have hl := hi.1
      rw [hk1] at hl
      exact List.length_eq_zero.mp hl.symm

theorem loadFromFile_mem (lines : List Str) (stored : List Concept)
    (h : loadFromFile lines = some stored) :
    (∀ line ∈ lines, ∀ c, loadLine line = LineOutcome.put c → c ∈ stored) ∧
      ∀ c ∈ stored, ∃ line ∈ lines, loadLine line = LineOutcome.put c := by
  induction lines generalizing stored with
  | nil =>
    simp only [loadFromFile, Option.some.injEq] at h
    subst h
    exact ⟨fun line hl => (by cases hl), fun c hc => (by cases hc)⟩
  | cons l ls ih =>
    unfold loadFromFile at h
    cases hl : loadLine l with
    | raised => rw [hl] at h; cases h
    | put c0 =>
      rw [hl] at h
      simp only [Option.map_eq_some'] at h
      obtain ⟨cs, hcs, rfl⟩ := h
      obtain ⟨h1, h2⟩ := ih cs hcs
      refine ⟨?_, ?_⟩
      · intro line hline c hc
        rcases List.mem_cons.mp hline with rfl | hline
        · rw [hl] at hc
          injection hc with hc
          subst hc
          exact List.mem_cons_self _ _
        · exact List.mem_cons_of_mem _ (h1 line hline c hc)
      · intro c hc
        rcases List.mem_cons.mp hc with rfl | hc
        · exact ⟨l, List.mem_cons_self _ _, hl⟩
        · obtain ⟨line, hline, hp⟩ := h2 c hc
          exact ⟨line, List.mem_cons_of_mem _ hline, hp⟩
    | skipped =>
      rw [hl] at h
      obtain ⟨h1, h2⟩ := ih stored h
      refine ⟨?_, ?_⟩
      · intro line hline c hc
        rcases List.mem_cons.mp hline with rfl | hline
        · rw [hl] at hc; cases hc
        · exact h1 line hline c hc
      · intro c hc
        obtain ⟨line, hline, hp⟩ := h2 c hc
        exact ⟨line, List.mem_cons_of_mem _ hline, hp⟩
    | dropped c0 =>
      rw [hl] at h
      obtain ⟨h1, h2⟩ := ih stored h
      refine ⟨?_, ?_⟩
      · intro line hline c hc
        rcases List.mem_cons.mp hline with rfl | hline
        · rw [hl] at hc; cases hc
        · exact h1 line hline c hc
      · intro c hc
        obtain ⟨line, hline, hp⟩ := h2 c hc
        exact ⟨line, List.mem_cons_of_mem _ hline, hp⟩

/-- C26: for every corpus line, the concept that the line loop of `loadFromFile` builds from
it is put into the store only if it has at least one feature, and every concept put has as many
keys as values, no empty key and no empty value; so has every concept stored by a run of
`loadFromFile` over a list of lines. -/
theorem loadFromFile_put_well_formed (line : Str) (c : Concept)
    (h : loadLine line = LineOutcome.put c) :
    (c.feature_keys ≠ [] ∧ c.feature_keys.length = c.feature_values.length ∧
      (∀ key ∈ c.feature_keys, key ≠ []) ∧ ∀ value ∈ c.feature_values, value ≠ []) ∧
    ∀ lines stored, loadFromFile lines = some stored →
      ∀ c1 ∈ stored, WellFormedConcept c1 := by
  refine ⟨(loadLine_built line c).1 h, ?_⟩
  intro lines stored hs c1 hc1
  obtain ⟨l, _, hl⟩ := (loadFromFile_mem lines stored hs).2 c1 hc1
  exact (loadLine_built l c1).1 hl

/-- Witness of C26 on a line with two well-formed features and three malformed pieces. -/
theorem loadFromFile_put_well_formed_witness :
    loadLine "7.[color:red, kind : fruit, :x, y: , z]".toList =
        LineOutcome.put ⟨0, ["color".toList, "kind".toList], ["red".toList, "fruit".toList]⟩ ∧
    ((["color".toList, "kind".toList] ≠ [] ∧
      ["color".toList, "kind".toList].length = ["red".toList, "fruit".toList].length ∧
      (∀ key ∈ ["color".toList, "kind".toList], key ≠ []) ∧
      ∀ value ∈ ["red".toList, "fruit".toList], value ≠ []) ∧
    ∀ lines stored, loadFromFile lines = some stored →
      ∀ c1 ∈ stored, WellFormedConcept c1) :=
  ⟨by decide, loadFromFile_put_well_formed "7.[color:red, kind : fruit, :x, y: , z]".toList
    ⟨0, ["color".toList, "kind".toList], ["red".toList, "fruit".toList]⟩ (by decide)⟩

/-- The malformed lines that `loadLine` skips, and the one on which it raises: a line without
`.`, with an ID part in which `stoi` finds no number, or without `[` after the dot or `]` after
it, is skipped; a line whose ID part is a number outside the range of `int` raises. -/
theorem loadLine_malformed (line : Str)
    (hb : (line.isEmpty || (find_first_not_of line [' ', '\t', '\r', '\n']).isNone) = false) :
    (strFind line '.' = none → loadLine line = LineOutcome.skipped) ∧
    (∀ dot_pos, strFind line '.' = some dot_pos →
      stoi (substr line 0 dot_pos) = StoiResult.invalid_argument →
        loadLine line = LineOutcome.skipped) ∧
    (∀ dot_pos n, strFind line '.' = some dot_pos →
      stoi (substr line 0 dot_pos) = StoiResult.value n →
      (strFindFrom line '[' (some dot_pos) = none ∨
        strFindFrom line ']' (strFindFrom line '[' (some dot_pos)) = none) →
        loadLine line = LineOutcome.skipped) ∧
    (∀ dot_pos, strFind line '.' = some dot_pos →
      stoi (substr line 0 dot_pos) = StoiResult.out_of_range →
        loadLine line = LineOutcome.raised) := by
  unfold loadLine
  rw [hb]
  simp only [Bool.false_eq_true, if_false]
  refine ⟨?_, ?_, ?_, ?_⟩
  · intro h; rw [h]
  · intro dot_pos h1 h2; rw [h1]; simp only []; rw [h2]
  · intro dot_pos n h1 h2 h3
    rw [h1]; simp only []; rw [h2]; simp only []
    rcases h3 with h3 | h3
    · rw [h3]
    · rw [h3]
      cases strFindFrom line '[' (some dot_pos) <;> rfl
  · intro dot_pos h1 h2; rw [h1]; simp only []; rw [h2]

/-- C27, the failing input: on the line `99999999999.[a:b]` the ID part is a number outside the
range of `int`, `stoi` raises `out_of_range`, which the handler for `invalid_argument` does not
catch, and the exception leaves `loadFromFile`: the line is not skipped and the next line
`1.[a:b]` is not ingested, whereas after a line with a non-numeric ID it is. -/
theorem loadFromFile_out_of_range_id_raises :
    stoi "99999999999".toList = StoiResult.out_of_range ∧
    loadLine "99999999999.[a:b]".toList = LineOutcome.raised ∧
    loadFromFile ["99999999999.[a:b]".toList, "1.[a:b]".toList] = none ∧
    loadFromFile ["x.[a:b]".toList, "1.[a:b]".toList] =
      some [⟨0, ["a".toList], ["b".toList]⟩] := by
  decide

theorem parseCommaInput_nonempty (input : Str) : ∀ item ∈ parseCommaInput input, item ≠ [] := by
  intro item h
  unfold parseCommaInput at h
  rw [List.mem_filterMap] at h
  obtain ⟨raw, _, hraw⟩ := h
  cases hs : find_first_not_of raw blanks with
  | none => rw [hs] at hraw; cases hraw
  | some start =>
    rw [hs] at hraw
    simp only [] at hraw
    by_cases he : (!(substrToLast raw start).isEmpty) = true
    · rw [if_pos he] at hraw
      injection hraw with hraw
      subst hraw
      intro hnil
      rw [hnil] at he
      simp at he
    · rw [if_neg he] at hraw; cases hraw

/-- The features that `parseFeatureList` builds from colon-free items of `parseCommaInput` have
a non-empty value. -/
theorem parseFeatureList_value_of_no_colon (input : Str) (item : Str)
    (hitem : item ∈ parseCommaInput input) (hcolon : strFind item ':' = none) :
    parseFeatureList [item] = [{ key := [], value := item }] ∧ item ≠ [] := by
  refine ⟨?_, parseCommaInput_nonempty input item hitem⟩
  simp only [parseFeatureList, List.map_cons, List.map_nil, hcolon]

/-- C25, the failing input: the line `color:` gives the single item `color:`, from which
`parseFeatureList` builds the feature with key `color` and an empty value. -/
theorem parseFeatureList_empty_value :
    parseCommaInput "color:".toList = ["color:".toList] ∧
    parseFeatureList (parseCommaInput "color:".toList) =
      [{ key := "color".toList, value := [] }] ∧
    ∃ f ∈ parseFeatureList (parseCommaInput "color:".toList), f.value = [] := by
  decide

end TextInput

/-! ## Sequence containment -/

theorem checkAdjectiveSubset_iff (container_adjs contained_adjs : List Str) :
    checkAdjectiveSubset container_adjs contained_adjs = true ↔
      ∀ adj ∈ contained_adjs, ∃ adj1 ∈ container_adjs, tolower adj1 = tolower adj := by
  unfold checkAdjectiveSubset
  simp only [List.all_eq_true, List.any_eq_true, List.mem_map, decide_eq_true_eq]
  constructor
  · intro h adj hadj
    obtain ⟨x, ⟨adj1, h1, rfl⟩, hx⟩ := h (tolower adj) ⟨adj, hadj, rfl⟩
    exact ⟨adj1, h1, hx⟩
  · rintro h x ⟨adj, hadj, rfl⟩
    obtain ⟨adj1, h1, hx⟩ := h adj hadj
    exact ⟨tolower adj1, ⟨adj1, h1, rfl⟩, hx⟩

theorem sequenceContained_iff (container_segments contained_segments : List NounSegment) :
    SequenceContained container_segments contained_segments ↔
      container_segments.length = contained_segments.length ∧
      (container_segments.zip contained_segments).any
        (fun p => decide (tolower p.1.noun ≠ tolower p.2.noun)) = false ∧
      (container_segments.zip contained_segments).any
        (fun p => !checkAdjectiveSubset p.1.adjectives p.2.adjectives) = false := by
  unfold SequenceContained
  rw [List.forall₂_iff_zip]
  constructor
  · rintro ⟨hl, h⟩
    refine ⟨hl, ?_, ?_⟩
    · rw [List.any_eq_false]
      rintro ⟨a, b⟩ hab
      simpa using (h hab).1
    · rw [List.any_eq_false]
      rintro ⟨a, b⟩ hab
      have := (checkAdjectiveSubset_iff a.adjectives b.adjectives).mpr (h hab).2
      simpa using this
  · rintro ⟨hl, h1, h2⟩
    refine ⟨hl, ?_⟩
    intro a b hab
    rw [List.any_eq_false] at h1 h2
    refine ⟨by simpa using h1 (a, b) hab, ?_⟩
    apply (checkAdjectiveSubset_iff a.adjectives b.adjectives).mp
    simpa using h2 (a, b) hab

section Containment
variable {K : Type} [LinearOrderedField K]

theorem retention_lt_iff (a b : Int) (hb : 0 < b) :
    ((a : K) / (b : K) < 0.3) ↔ 10 * a < 3 * b := by
  have hb' : (0 : K) < (b : K) := by exact_mod_cast hb
  rw [div_lt_iff₀ hb']
  constructor
  · intro h
    have h1 : (10 : K) * (a : K) < 3 * (b : K) := by
      norm_num at h
      linarith
    exact_mod_cast h1
  · intro h
    have h1 : (10 : K) * (a : K) < 3 * (b : K) := by exact_mod_cast h
    norm_num
    linarith

theorem checkSequenceContainment_eq (container_segments contained_segments : List NounSegment) :
    checkSequenceContainment K container_segments contained_segments =
      if container_segments.length = contained_segments.length ∧
          (container_segments.zip contained_segments).any
            (fun p => decide (tolower p.1.noun ≠ tolower p.2.noun)) = false ∧
          (container_segments.zip contained_segments).any
            (fun p => !checkAdjectiveSubset p.1.adjectives p.2.adjectives) = false then
        if 0 < adjectiveCount container_segments ∧
            10 * adjectiveCount contained_segments < 3 * adjectiveCount container_segments then
          (3.5 : K)
        else 4.0
      else 0 := by
  unfold checkSequenceContainment
  by_cases hl : container_segments.length = contained_segments.length
  · rw [if_neg (not_not.mpr hl)]
    by_cases h1 : (container_segments.zip contained_segments).any
        (fun p => decide (tolower p.1.noun ≠ tolower p.2.noun)) = true
    · rw [if_pos h1, if_neg]
      rintro ⟨_, h, _⟩
      rw [h] at h1
      cases h1
    · rw [if_neg h1]
      by_cases h2 : (container_segments.zip contained_segments).any
          (fun p => !checkAdjectiveSubset p.1.adjectives p.2.adjectives) = true
      · rw [if_pos h2, if_neg]
        rintro ⟨_, _, h⟩
        rw [h] at h2
        cases h2
      · have hcond : container_segments.length = contained_segments.length ∧
            (container_segments.zip contained_segments).any
              (fun p => decide (tolower p.1.noun ≠ tolower p.2.noun)) = false ∧
            (container_segments.zip contained_segments).any
              (fun p => !checkAdjectiveSubset p.1.adjectives p.2.adjectives) = false :=
          ⟨hl, Bool.eq_false_iff.mpr h1, Bool.eq_false_iff.mpr h2⟩
        rw [if_neg h2, if_pos hcond]
        simp only []
        by_cases hpos : 0 < adjectiveCount container_segments
        · have hiff := retention_lt_iff (K := K) (adjectiveCount contained_segments)
            (adjectiveCount container_segments) hpos
          unfold adjectiveCount at hiff hpos
          by_cases hr : 10 * adjectiveCount contained_segments <
              3 * adjectiveCount container_segments
          · rw [if_pos ⟨hpos, hiff.mpr hr⟩, if_pos ⟨hpos, hr⟩]
          · rw [if_neg (fun h => hr (hiff.mp h.2)), if_neg (fun h => hr h.2)]
        · have hpos' := hpos
          unfold adjectiveCount at hpos'
          rw [if_neg (fun h => hpos' h.1), if_neg (fun h => hpos h.1)]
  · rw [if_pos hl, if_neg (fun h => hl h.1)]

/-- C28, the claim as stated fails: the segment list `noAdjectives` is contained in
`fourAdjectives` (same noun up to letter case, no adjective to be found), yet
`checkSequenceContainment` returns `3.5`, not `4.0`: none of the four adjectives is retained,
and a retention ratio below `0.3` lowers the strength. -/
theorem checkSequenceContainment_reduced_counterexample :
    SequenceContained fourAdjectives noAdjectives ∧
      checkSequenceContainment ℚ fourAdjectives noAdjectives = 3.5 ∧
      checkSequenceContainment ℚ fourAdjectives noAdjectives ≠ 4.0 := by
  refine ⟨?_, ?_, ?_⟩
  · rw [sequenceContained_iff]
    decide
  · decide!
  · decide!

/-- C28, amended: `checkSequenceContainment` returns `0.0` when the containment relation does
not hold (same number of segments, position by position the same noun up to letter case and
every contained adjective, up to letter case, among the adjectives of the container); when it
holds, it returns `3.5` if the container has an adjective and the adjectives of the contained
list number fewer than three tenths of those of the container, and `4.0` otherwise; it returns
no other value. -/
theorem checkSequenceContainment_spec (container_segments contained_segments : List NounSegment) :
    (¬ SequenceContained container_segments contained_segments →
      checkSequenceContainment K container_segments contained_segments = 0) ∧
    (SequenceContained container_segments contained_segments →
      checkSequenceContainment K container_segments contained_segments =
        if 0 < adjectiveCount container_segments ∧
            10 * adjectiveCount contained_segments < 3 * adjectiveCount container_segments then
          3.5
        else 4.0) ∧
    (checkSequenceContainment K container_segments contained_segments = 0 ∨
      checkSequenceContainment K container_segments contained_segments = 3.5 ∨
      checkSequenceContainment K container_segments contained_segments = 4.0) := by
  rw [checkSequenceContainment_eq]
  by_cases h : SequenceContained container_segments contained_segments
  · rw [if_pos ((sequenceContained_iff _ _).mp h)]
    refine ⟨fun hn => absurd h hn, fun _ => rfl, ?_⟩
    right
    by_cases h1 : 0 < adjectiveCount container_segments ∧
        10 * adjectiveCount contained_segments < 3 * adjectiveCount container_segments
    · rw [if_pos h1]; left; rfl
    · rw [if_neg h1]; right; rfl
  · rw [if_neg (fun hc => h ((sequenceContained_iff _ _).mpr hc))]
    exact ⟨fun _ => rfl, fun hc => absurd hc h, Or.inl rfl⟩

/-- Witness of C28 (amended): `twoAdjectives` is contained in `fourAdjectives` and half of the
adjectives are retained, so the strength is `4.0`. -/
theorem checkSequenceContainment_spec_witness :
    SequenceContained fourAdjectives twoAdjectives ∧
      checkSequenceContainment ℚ fourAdjectives twoAdjectives = 4.0 := by
  have hc : SequenceContained fourAdjectives twoAdjectives := by
    rw [sequenceContained_iff]
    decide
  refine ⟨hc, ?_⟩
  rw [(checkSequenceContainment_spec fourAdjectives twoAdjectives).2.1 hc]
  decide!

end Containment

/-! ## Key-value pairs written with an equals sign -/

theorem firstIndex_eq_none (p : Char → Bool) (s : Str) :
    firstIndex p s = none ↔ ∀ y ∈ s, p y = false := by
  induction s with
  | nil => simp [firstIndex]
  | cons c cs ih =>
    unfold firstIndex
    by_cases hc : p c = true
    · rw [if_pos hc]
      constructor
      · intro h; cases h
      · intro h
        have := h c (List.mem_cons_self _ _)
        rw [hc] at this
        cases this
    · rw [if_neg hc, Option.map_eq_none', ih]
      constructor
      · intro h y hy
        rcases List.mem_cons.mp hy with rfl | hy
        · exact Bool.eq_false_iff.mpr hc
        · exact h y hy
      · intro h y hy
        exact h y (List.mem_cons_of_mem _ hy)

theorem firstIndex_append (p : Char → Bool) (k : Str) (x : Char) (v : Str)
    (hk : ∀ y ∈ k, p y = false) (hx : p x = true) :
    firstIndex p (k ++ x :: v) = some k.length := by
  induction k with
  | nil => simp [firstIndex, hx]
  | cons c cs ih =>
    have hc : ¬ p c = true := by
      rw [hk c (List.mem_cons_self _ _)]; exact Bool.false_ne_true
    rw [List.cons_append, firstIndex, if_neg hc,
      ih (fun y hy => hk y (List.mem_cons_of_mem _ hy))]
    rfl

theorem firstIndex_eq_some (p : Char → Bool) (s : Str) (i : Nat)
    (h : firstIndex p s = some i) :
    ∃ (k : Str) (x : Char) (v : Str),
      s = k ++ x :: v ∧ (∀ y ∈ k, p y = false) ∧ p x = true ∧ i = k.length := by
  induction s generalizing i with
  | nil => cases h
  | cons c cs ih =>
    unfold firstIndex at h
    by_cases hc : p c = true
    · rw [if_pos hc] at h
      injection h with h
      exact ⟨[], c, cs, rfl, fun y hy => (by cases hy), hc, h.symm⟩
    · rw [if_neg hc, Option.map_eq_some'] at h
      obtain ⟨j, hj, rfl⟩ := h
      obtain ⟨k, x, v, hs, hk, hx, rfl⟩ := ih j hj
      refine ⟨c :: k, x, v, by rw [hs]; rfl, ?_, hx, rfl⟩
      intro y hy
      rcases List.mem_cons.mp hy with rfl | hy
      · exact Bool.eq_false_iff.mpr hc
      · exact hk y hy

theorem trimBlanks_of_all_blank (s : Str)
    (h : find_first_not_of s blanks = none) : trimBlanks s = [] := by
  unfold find_first_not_of at h
  rw [firstIndex_eq_none] at h
  unfold trimBlanks
  have : s.dropWhile (fun c => blanks.contains c) = [] := by
    rw [List.dropWhile_eq_nil_iff]
    intro y hy
    simpa using h y hy
  rw [this]
  rfl

theorem substrToLast_eq_trimBlanks (s : Str) (start : Nat)
    (h : find_first_not_of s blanks = some start) : substrToLast s start = trimBlanks s := by
  unfold find_first_not_of at h
  obtain ⟨B, x, v, hs, hB, hx, rfl⟩ := firstIndex_eq_some _ s start h
  have hxs : x ∈ s := by rw [hs]; simp
  cases hr : firstIndex (fun x => !blanks.contains x) s.reverse with
  | none =>
    rw [firstIndex_eq_none] at hr
    have := hr x (List.mem_reverse.mpr hxs)
    rw [hx] at this
    cases this
  | some r =>
    obtain ⟨T, x1, F, hrev, hT, hx1, rfl⟩ := firstIndex_eq_some _ s.reverse r hr
    have hs1 : s = F.reverse ++ x1 :: T.reverse := by
      have := congrArg List.reverse hrev
      rw [List.reverse_reverse] at this
      rw [this]
      simp
    have hBq : ∀ y ∈ B, blanks.contains y = true := by
      intro y hy; simpa using hB y hy
    have hTq : ∀ y ∈ T.reverse, blanks.contains y = true := by
      intro y hy; simpa using hT y (List.mem_reverse.mp hy)
    have hxq : ¬ blanks.contains x = true := by simpa using hx
    have hx1q : ¬ blanks.contains x1 = true := by simpa using hx1
    -- the first non-blank character is not after the last one
    have hdec : ∃ a : Str, F.reverse = B ++ a ∧ x :: v = a ++ x1 :: T.reverse := by
      have e : B ++ x :: v = F.reverse ++ x1 :: T.reverse := by rw [← hs, ← hs1]
      rcases List.append_eq_append_iff.mp e with ⟨a, h1, h2⟩ | ⟨c, h1, h2⟩
      · exact ⟨a, h1, h2⟩
      · cases c with
        | nil =>
          refine ⟨[], by simpa using h1.symm, by simpa using h2.symm⟩
        | cons y c =>
          exfalso
          rw [List.cons_append] at h2
          injection h2 with h2 _
          apply hx1q
          apply hBq
          rw [h1, h2]
          simp
    obtain ⟨a, hFa, hxv⟩ := hdec
    have hlast : find_last_not_of s blanks = some (B.length + a.length) := by
      unfold find_last_not_of
      rw [hr]
      simp only [Option.map_some', Option.some.injEq]
      have hl : s.length = B.length + a.length + 1 + T.length := by
        rw [hs1, hFa]; simp; omega
      omega
    unfold substrToLast
    rw [hlast]
    simp only []
    unfold substr trimBlanks
    have hdrop : s.drop B.length = a ++ x1 :: T.reverse := by
      rw [hs, List.drop_left, hxv]
    have hdw : s.dropWhile (fun c => blanks.contains c) = a ++ x1 :: T.reverse := by
      rw [hs, List.dropWhile_append_of_pos hBq, List.dropWhile_cons_of_neg hxq, hxv]
    rw [hdrop, hdw]
    have e1 : B.length + a.length - B.length + 1 = (a ++ [x1]).length := by simp
    have e2 : a ++ x1 :: T.reverse = (a ++ [x1]) ++ T.reverse := by simp
    rw [e1, e2, List.take_left]
    rw [List.reverse_append, List.reverse_reverse,
      List.dropWhile_append_of_pos (fun y hy => hTq y (List.mem_reverse.mpr hy))]
    rw [List.reverse_append, List.reverse_singleton, List.singleton_append,
      List.dropWhile_cons_of_neg hx1q]
    simp

theorem isEqualsKeyValuePair_iff (s : Str) :
    isEqualsKeyValuePair s = true ↔ IsEqualsPair s := by
  unfold isEqualsKeyValuePair IsEqualsPair
  constructor
  · intro h
    cases hf : strFind s '=' with
    | none => rw [hf] at h; cases h
    | some p =>
      rw [hf] at h
      simp only [Bool.and_eq_true, decide_eq_true_eq] at h
      unfold strFind at hf
      obtain ⟨k, x, v, hs, hk, hx, rfl⟩ := firstIndex_eq_some _ s p hf
      have hx' : x = '=' := by simpa using hx
      subst hx'
      refine ⟨k, v, hs, ?_, ?_, ?_⟩
      · intro hmem
        have := hk _ hmem
        simp at this
      · intro hnil; rw [hnil] at h; simp at h
      · intro hnil
        rw [hs, hnil] at h
        simp at h
  · rintro ⟨k, v, hs, hk, hk0, hv0⟩
    have hf : strFind s '=' = some k.length := by
      unfold strFind
      rw [hs]
      apply firstIndex_append
      · intro y hy
        have : y ≠ '=' := fun e => hk (e ▸ hy)
        simpa using this
      · simp
    rw [hf]
    simp only [Bool.and_eq_true, decide_eq_true_eq]
    have h1 : 0 < k.length := List.length_pos.mpr hk0
    have h2 : 0 < v.length := List.length_pos.mpr hv0
    refine ⟨h1, ?_⟩
    rw [hs]
    simp
    omega

theorem extractKeyFromEqualsKeyValue_eq (s : Str) (h : IsEqualsPair s) :
    extractKeyFromEqualsKeyValue s = trimmedKey s := by
  have hb := (isEqualsKeyValuePair_iff s).mpr h
  obtain ⟨k, v, hs, hk, _, _⟩ := h
  have hk' : ∀ y ∈ k, y ≠ '=' := fun y hy e => hk (e ▸ hy)
  have hf : strFind s '=' = some k.length := by
    unfold strFind
    rw [hs]
    apply firstIndex_append
    · intro y hy
      simpa using hk' y hy
    · simp
  have htw : s.takeWhile (fun c => decide (c ≠ '=')) = k := by
    rw [hs, List.takeWhile_append_of_pos (fun y hy => by simpa using hk' y hy)]
    simp
  have hsub : substr s 0 k.length = k := by
    unfold substr
    rw [hs]
    simp
  unfold extractKeyFromEqualsKeyValue trimmedKey
  rw [hb, hf, htw]
  simp only [Bool.not_true, Bool.false_eq_true, if_false]
  rw [hsub]
  cases hfirst : find_first_not_of k blanks with
  | none => exact (trimBlanks_of_all_blank k hfirst).symm
  | some start => exact substrToLast_eq_trimBlanks k start hfirst

section EqualsPairs
variable {K : Type} [LinearOrderedField K]

/-- C29: `handleEqualsKeyValueSpecialCases(a, b)` returns `100.0` if and only if (i) `a` and
`b` are both `=` key-value pairs (the first `=` neither first nor last character) and `a = b`,
or (ii) exactly one of them is such a pair, its key trimmed of blanks and tabs is not empty, and
the other string equals that trimmed key; in every other case it returns `-1.0`. -/
theorem handleEqualsKeyValueSpecialCases_spec (a b : Str) :
    (handleEqualsKeyValueSpecialCases K a b = 100.0 ↔
      (IsEqualsPair a ∧ IsEqualsPair b ∧ a = b) ∨
      (IsEqualsPair a ∧ ¬ IsEqualsPair b ∧ trimmedKey a ≠ [] ∧ b = trimmedKey a) ∨
      (¬ IsEqualsPair a ∧ IsEqualsPair b ∧ trimmedKey b ≠ [] ∧ a = trimmedKey b)) ∧
    (¬ ((IsEqualsPair a ∧ IsEqualsPair b ∧ a = b) ∨
      (IsEqualsPair a ∧ ¬ IsEqualsPair b ∧ trimmedKey a ≠ [] ∧ b = trimmedKey a) ∨
      (¬ IsEqualsPair a ∧ IsEqualsPair b ∧ trimmedKey b ≠ [] ∧ a = trimmedKey b)) →
      handleEqualsKeyValueSpecialCases K a b = -1.0) := by
  have hne : (100.0 : K) ≠ -1.0 := by norm_num
  classical
  have key : handleEqualsKeyValueSpecialCases K a b =
      if (IsEqualsPair a ∧ IsEqualsPair b ∧ a = b) ∨
        (IsEqualsPair a ∧ ¬ IsEqualsPair b ∧ trimmedKey a ≠ [] ∧ b = trimmedKey a) ∨
        (¬ IsEqualsPair a ∧ IsEqualsPair b ∧ trimmedKey b ≠ [] ∧ a = trimmedKey b) then
        (100.0 : K) else -1.0 := by
    have hempty : ∀ key other : Str,
        ((!key.isEmpty && decide (key = other)) = true) ↔ (key ≠ [] ∧ other = key) := by
      intro key other
      rw [Bool.and_eq_true, Bool.not_eq_true', decide_eq_true_eq]
      constructor
      · rintro ⟨h1, h2⟩
        refine ⟨fun hnil => ?_, h2.symm⟩
        rw [hnil] at h1
        cases h1
      · rintro ⟨h1, h2⟩
        refine ⟨?_, h2.symm⟩
        cases key with
        | nil => exact absurd rfl h1
        | cons c cs => rfl
    have hempty' : ∀ key other : Str,
        ((!key.isEmpty && decide (other = key)) = true) ↔ (key ≠ [] ∧ other = key) := by
      intro key other
      rw [← hempty key other, Bool.and_eq_true, Bool.and_eq_true, decide_eq_true_eq,
        decide_eq_true_eq]
      exact ⟨fun h => ⟨h.1, h.2.symm⟩, fun h => ⟨h.1, h.2.symm⟩⟩
    unfold handleEqualsKeyValueSpecialCases
    simp only []
    by_cases ha : IsEqualsPair a <;> by_cases hb : IsEqualsPair b
    · rw [(isEqualsKeyValuePair_iff a).mpr ha, (isEqualsKeyValuePair_iff b).mpr hb]
      simp only [Bool.true_and, Bool.not_true, Bool.false_and, Bool.and_false,
        Bool.false_eq_true, if_false, decide_eq_true_eq]
      by_cases hab : a = b
      · rw [if_pos hab, if_pos (Or.inl ⟨ha, hb, hab⟩)]
      · rw [if_neg hab, if_neg]
        rintro (⟨_, _, h⟩ | ⟨_, h, _⟩ | ⟨h, _⟩)
        · exact hab h
        · exact h hb
        · exact h ha
    · have hb' : isEqualsKeyValuePair b = false :=
        Bool.eq_false_iff.mpr (fun h => hb ((isEqualsKeyValuePair_iff b).mp h))
      rw [(isEqualsKeyValuePair_iff a).mpr ha, hb', extractKeyFromEqualsKeyValue_eq a ha]
      simp only [Bool.true_and, Bool.not_true, Bool.not_false, Bool.false_and, Bool.and_false,
        Bool.false_eq_true, if_false]
      by_cases hc : trimmedKey a ≠ [] ∧ b = trimmedKey a
      · rw [if_pos ((hempty _ _).mpr hc), if_pos (Or.inr (Or.inl ⟨ha, hb, hc⟩))]
      · rw [if_neg (fun h => hc ((hempty _ _).mp h)), if_neg]
        rintro (⟨_, h, _⟩ | ⟨_, _, h⟩ | ⟨h, _⟩)
        · exact hb h
        · exact hc h
        · exact h ha
    · have ha' : isEqualsKeyValuePair a = false :=
        Bool.eq_false_iff.mpr (fun h => ha ((isEqualsKeyValuePair_iff a).mp h))
      rw [ha', (isEqualsKeyValuePair_iff b).mpr hb, extractKeyFromEqualsKeyValue_eq b hb]
      simp only [Bool.true_and, Bool.not_true, Bool.not_false, Bool.false_and, Bool.and_false,
        Bool.false_eq_true, if_false]
      by_cases hc : trimmedKey b ≠ [] ∧ a = trimmedKey b
      · rw [if_pos ((hempty' _ _).mpr hc), if_pos (Or.inr (Or.inr ⟨ha, hb, hc⟩))]
      · rw [if_neg (fun h => hc ((hempty' _ _).mp h)), if_neg]
        rintro (⟨h, _⟩ | ⟨h, _⟩ | ⟨_, _, h⟩)
        · exact ha h
        · exact ha h
        · exact hc h
    · have ha' : isEqualsKeyValuePair a = false :=
        Bool.eq_false_iff.mpr (fun h => ha ((isEqualsKeyValuePair_iff a).mp h))
      have hb' : isEqualsKeyValuePair b = false :=
        Bool.eq_false_iff.mpr (fun h => hb ((isEqualsKeyValuePair_iff b).mp h))
      rw [ha', hb']
      simp only [Bool.true_and, Bool.not_true, Bool.not_false, Bool.false_and, Bool.and_false,
        Bool.false_eq_true, if_false]
      rw [if_neg]
      rintro (⟨h, _⟩ | ⟨h, _⟩ | ⟨_, h, _⟩)
      · exact ha h
      · exact ha h
      · exact hb h
  rw [key]
  constructor
  · constructor
    · intro h
      by_contra hc
      rw [if_neg hc] at h
      exact hne h.symm
    · intro h
      rw [if_pos h]
  · intro h
    rw [if_neg h]

/-- Witness of C29: the pair ` name =Bob` against its trimmed key `name` gives `100.0`. -/
theorem handleEqualsKeyValueSpecialCases_spec_witness :
    (IsEqualsPair " name =Bob".toList ∧ ¬ IsEqualsPair "name".toList ∧
      trimmedKey " name =Bob".toList ≠ [] ∧
      "name".toList = trimmedKey " name =Bob".toList) ∧
    handleEqualsKeyValueSpecialCases ℚ " name =Bob".toList "name".toList = 100.0 := by
  have h : IsEqualsPair " name =Bob".toList ∧ ¬ IsEqualsPair "name".toList ∧
      trimmedKey " name =Bob".toList ≠ [] ∧
      "name".toList = trimmedKey " name =Bob".toList := by
    refine ⟨⟨" name ".toList, "Bob".toList, by decide, by decide, by decide, by decide⟩,
      ?_, by decide, by decide⟩
    intro hp
    have hb := (isEqualsKeyValuePair_iff "name".toList).mpr hp
    revert hb
    decide
  exact ⟨h, (handleEqualsKeyValueSpecialCases_spec " name =Bob".toList "name".toList).1.mpr
    (Or.inr (Or.inl h))⟩

end EqualsPairs

/-! ## Distance zero and similarity one -/

theorem levRev_eq_zero_iff (a : Str) : ∀ b : Str, levRev a b = 0 ↔ a = b := by
  induction a with
  | nil =>
    intro b
    cases b with
    | nil => simp [levRev]
    | cons y b => simp [levRev]
  | cons x a ih =>
    intro b
    cases b with
    | nil => simp [levRev_nil_right]
    | cons y b =>
      rw [levRev_cons_cons]
      by_cases hxy : x = y
      · rw [if_pos hxy, ih b]
        constructor
        · intro h; rw [hxy, h]
        · intro h; injection h
      · rw [if_neg hxy]
        constructor
        · intro h; omega
        · intro h; injection h with h1 _; exact absurd h1 hxy

theorem calculateStringDistance_eq_zero_iff (a b : Str) :
    calculateStringDistance a b = 0 ↔ a = b := by
  rw [calculateStringDistance_eq_levenshtein, levenshtein, levRev_eq_zero_iff]
  exact List.reverse_inj

theorem calculateStringSimilarity_eq_one_iff (K : Type) [LinearOrderedField K] (a b : Str) :
    calculateStringSimilarity K a b = 1 ↔ a = b := by
  unfold calculateStringSimilarity
  cases a with
  | nil =>
    cases b with
    | nil => simp
    | cons y b => simp
  | cons x a =>
    cases b with
    | nil => simp
    | cons y b =>
      simp only [List.isEmpty_cons, Bool.and_self, Bool.false_eq_true, if_false, Bool.or_self]
      have hmax : (0 : K) < ((max (x :: a).length (y :: b).length : Nat) : K) := by
        have : 0 < max (x :: a).length (y :: b).length := by simp
        exact_mod_cast this
      rw [← calculateStringDistance_eq_zero_iff (x :: a) (y :: b)]
      constructor
      · intro h
        have h1 : (calculateStringDistance (x :: a) (y :: b) : K) /
            ((max (x :: a).length (y :: b).length : Nat) : K) = 0 := by linarith
        rcases div_eq_zero_iff.mp h1 with h2 | h2
        · exact_mod_cast h2
        · exact absurd h2 (ne_of_gt hmax)
      · intro h
        rw [h]
        simp

theorem calculateStringSimilarity_le_one (K : Type) [LinearOrderedField K] (a b : Str) :
    calculateStringSimilarity K a b ≤ 1 := by
  unfold calculateStringSimilarity
  split
  · exact le_rfl
  · split
    · exact zero_le_one
    · simp only []
      have h : (0 : K) ≤ (calculateStringDistance a b : K) /
          ((max a.length b.length : Nat) : K) :=
        div_nonneg (Nat.cast_nonneg _) (Nat.cast_nonneg _)
      linarith

/-- C38: for all strings `a` and `b`, `calculateStringDistance(a, b) = 0` if and only if
`a = b`, and `calculateStringSimilarity(a, b) = 1.0` if and only if `a = b`. -/
theorem calculateStringDistance_zero_iff_eq (K : Type) [LinearOrderedField K] (a b : Str) :
    (calculateStringDistance a b = 0 ↔ a = b) ∧
      (calculateStringSimilarity K a b = 1 ↔ a = b) :=
  ⟨calculateStringDistance_eq_zero_iff a b, calculateStringSimilarity_eq_one_iff K a b⟩

/-! ## Fuzzy matching at threshold one -/

section FuzzyOne
variable {K : Type} [LinearOrderedField K]

theorem fuzzyMatched_one (c : Concept) (f : Feature) :
    fuzzyMatched c (1 : K) f = exactMatched c f := by
  rw [Bool.eq_iff_iff, fuzzyMatched_iff, exactMatched_iff]
  have hsim : ∀ v : Str, ((1 : K) ≤ calculateStringSimilarity K f.value v ∧
      0 < calculateStringSimilarity K f.value v) ↔ f.value = v := by
    intro v
    rw [← calculateStringSimilarity_eq_one_iff K f.value v]
    constructor
    · intro h
      exact le_antisymm (calculateStringSimilarity_le_one K f.value v) h.1
    · intro h
      rw [h]
      exact ⟨le_rfl, zero_lt_one⟩
  constructor
  · rintro ⟨v, hv, hs⟩
    have hfv := (hsim v).mp hs
    rcases (mem_fuzzyCandidates_iff c f v).mp hv with ⟨hk, hmem⟩ | ⟨hk, j, hj1, hj2⟩
    · exact Or.inl ⟨hk, v, hmem, hfv⟩
    · right
      refine ⟨hk, j, ?_, ?_, hj1, by rw [hfv]; exact hj2⟩
      · by_contra hlt
        rw [List.getElem?_eq_none (not_lt.mp hlt)] at hj1
        cases hj1
      · by_contra hlt
        rw [List.getElem?_eq_none (not_lt.mp hlt)] at hj2
        cases hj2
  · rintro (⟨hk, v, hmem, hfv⟩ | ⟨hk, j, _, _, hj1, hj2⟩)
    · exact ⟨v, (mem_fuzzyCandidates_iff c f v).mpr (Or.inl ⟨hk, hmem⟩), (hsim v).mpr hfv⟩
    · exact ⟨f.value, (mem_fuzzyCandidates_iff c f f.value).mpr (Or.inr ⟨hk, j, hj1, hj2⟩),
        (hsim f.value).mpr rfl⟩

/-- C37: for every input feature list and every concept, `matchConceptFuzzy` with threshold
`1.0` returns the result of `matchConceptExact`: the same `match_count` and the same
`matched_indices` (and the same concept id).  The two embeddings read the key and value lists
of the concept in the same way, so the equality needs no assumption on the concept; it holds in
particular when the two lists are parallel. -/
theorem matchConceptFuzzy_one_eq_exact (fs : List Feature) (c : Concept) :
    matchConceptFuzzy fs c (1 : K) = matchConceptExact fs c ∧
      (matchConceptFuzzy fs c (1 : K)).match_count = (matchConceptExact fs c).match_count ∧
      (matchConceptFuzzy fs c (1 : K)).matched_indices =
        (matchConceptExact fs c).matched_indices := by
  have h : matchConceptFuzzy fs c (1 : K) = matchConceptExact fs c := by
    rw [matchConceptFuzzy_eq, matchConceptExact_eq]
    have hf : (fun p : Nat × Feature => fuzzyMatched c (1 : K) p.2) =
        (fun p : Nat × Feature => exactMatched c p.2) := by
      funext p
      exact fuzzyMatched_one c p.2
    rw [hf]
  exact ⟨h, by rw [h], by rw [h]⟩

end FuzzyOne

/-! ## Samples without weight -/

section ZeroWeight
variable {K : Type} [LinearOrderedField K]

/-- C35: for every non-empty sample list whose confidences are all `0`, and more generally
whose weight sum is not positive, `evaluateParameters` returns exactly `0.5`, whatever the
parameter table and the computed similarities. -/
theorem evaluateParameters_zero_weight (sqrt : K → K) (store : Store) (params : Params K)
    (samples : List (TrainingSample K)) (hne : samples ≠ []) :
    ((∀ s ∈ samples, s.confidence = 0) →
      evaluateParameters sqrt store samples params = 0.5) ∧
    ((samples.map (fun s => s.confidence)).sum ≤ 0 →
      evaluateParameters sqrt store samples params = 0.5) := by
  have hsum : (samples.map (fun s => s.confidence)).sum ≤ 0 →
      evaluateParameters sqrt store samples params = 0.5 := by
    intro h
    rw [evaluateParameters_eq sqrt store params samples hne, if_neg (not_lt.mpr h)]
    norm_num
  refine ⟨fun hz => hsum ?_, hsum⟩
  have : (samples.map (fun s => s.confidence)).sum = 0 := by
    apply List.sum_eq_zero
    intro x hx
    obtain ⟨s, hs, rfl⟩ := List.mem_map.mp hx
    exact hz s hs
  rw [this]

/-- Witness of C35: one sample of confidence `0` over `redFruitStore`. -/
theorem evaluateParameters_zero_weight_witness :
    ([unweighedSample] : List (TrainingSample ℚ)) ≠ [] ∧
      (∀ s ∈ [unweighedSample], s.confidence = 0) ∧
      evaluateParameters Rat.sqrt redFruitStore [unweighedSample] (g_similarity_params ℚ) =
        0.5 :=
  ⟨by simp, by decide,
    (evaluateParameters_zero_weight Rat.sqrt redFruitStore (g_similarity_params ℚ)
      [unweighedSample] (by simp)).1 (by decide)⟩

/-- C36: after every full round of the loop of `optimizeParameters` every value of the live
parameter table lies in `[0.1, 5.0]`, whatever the initial table, the samples and the learning
rate: the live table after `max_iterations` rounds is `liveTable` at that round, and every
table `liveTable k` with `k ≥ 1` has all its values in the interval. -/
theorem optimizeParameters_live_range (sqrt : K → K) (store : Store) (s : LearnerState K)
    (max_iterations : Int) (learning_rate : K) :
    (optimizeLoop sqrt store s max_iterations learning_rate).g_similarity_params =
        liveTable sqrt store s learning_rate max_iterations.toNat ∧
    (∀ k, 1 ≤ k → ∀ e ∈ liveTable sqrt store s learning_rate k,
      (0.1 : K) ≤ e.2 ∧ e.2 ≤ 5.0) ∧
    (1 ≤ max_iterations →
      ∀ e ∈ (optimizeLoop sqrt store s max_iterations learning_rate).g_similarity_params,
        (0.1 : K) ≤ e.2 ∧ e.2 ≤ 5.0) := by
  obtain ⟨j, _, hst, _, _⟩ := optimizeLoop_spec sqrt store s max_iterations learning_rate
  have h1 : (optimizeLoop sqrt store s max_iterations learning_rate).g_similarity_params =
      liveTable sqrt store s learning_rate max_iterations.toNat := by rw [hst]
  refine ⟨h1, fun k hk => liveTable_range sqrt store s learning_rate k hk, fun hm => ?_⟩
  rw [h1]
  exact liveTable_range sqrt store s learning_rate _ (by omega)

/-- Witness of C36 on `outOfRangeState`: one round brings the value `10` to `5`. -/
theorem optimizeParameters_live_range_witness :
    (1 : Int) ≤ 1 ∧
      (optimizeLoop Rat.sqrt redFruitStore outOfRangeState 1 (1 / 100)).g_similarity_params =
        [("p55".toList, 5)] ∧
      ∀ e ∈ (optimizeLoop Rat.sqrt redFruitStore outOfRangeState 1
          (1 / 100)).g_similarity_params, (0.1 : ℚ) ≤ e.2 ∧ e.2 ≤ 5.0 :=
  ⟨le_rfl, by decide!,
    (optimizeParameters_live_range Rat.sqrt redFruitStore outOfRangeState 1 (1 / 100)).2.2
      le_rfl⟩

end ZeroWeight

/-! ## Sequences without a noun -/

theorem foldl_fst_eq_nil {α σ β : Type} (f : List α × σ → β → List α × σ) (l : List β)
    (hf : ∀ st w, w ∈ l → st.1 = [] → (f st w).1 = []) :
    ∀ init : List α × σ, init.1 = [] → (l.foldl f init).1 = [] := by
  induction l with
  | nil => intro init h; exact h
  | cons w ws ih =>
    intro init h
    rw [List.foldl_cons]
    exact ih (fun st x hx hst => hf st x (List.mem_cons_of_mem _ hx) hst) _
      (hf init w (List.mem_cons_self _ _) h)

theorem parseSequenceToNounSegments_no_noun (db : Option Store) (sequence : Str)
    (h : ∀ w ∈ parseCommaInput sequence, identifyPartOfSpeech db w ≠ "noun".toList) :
    parseSequenceToNounSegments db sequence = [] := by
  unfold parseSequenceToNounSegments
  apply foldl_fst_eq_nil
  · intro st w hw hst
    simp only [h w hw, if_false, ite_self]
    exact hst
  · rfl

/-- C39: `checkSequenceContainment` applied to two empty noun-segment lists returns `4.0`;
hence two sequences in which no word is tagged as a noun, whatever words they hold, parse to
empty segment lists and are reported as containing each other with full strength. -/
theorem checkSequenceContainment_nil (K : Type) [LinearOrderedField K] :
    checkSequenceContainment K [] [] = 4.0 ∧
    ∀ (db : Option Store) (sequence1 sequence2 : Str),
      (∀ w ∈ parseCommaInput sequence1, identifyPartOfSpeech db w ≠ "noun".toList) →
      (∀ w ∈ parseCommaInput sequence2, identifyPartOfSpeech db w ≠ "noun".toList) →
        parseSequenceToNounSegments db sequence1 = [] ∧
        parseSequenceToNounSegments db sequence2 = [] ∧
        detectSemanticContainment K db sequence1 sequence2 = 4.0 ∧
        detectSemanticContainment K db sequence2 sequence1 = 4.0 := by
  have h0 : checkSequenceContainment K [] [] = 4.0 := by
    rw [checkSequenceContainment_eq]
    simp [adjectiveCount]
  refine ⟨h0, ?_⟩
  intro db s1 s2 h1 h2
  have e1 := parseSequenceToNounSegments_no_noun db s1 h1
  have e2 := parseSequenceToNounSegments_no_noun db s2 h2
  refine ⟨e1, e2, ?_, ?_⟩
  · unfold detectSemanticContainment
    simp only []
    rw [e1, e2, h0]
  · unfold detectSemanticContainment
    simp only []
    rw [e1, e2, h0]

/-- Witness of C39: two sequences of adjectives and untagged words, with the fallback tagger. -/
theorem checkSequenceContainment_nil_witness :
    (∀ w ∈ parseCommaInput (utf8 "美丽,温柔"),
      identifyPartOfSpeech none w ≠ "noun".toList) ∧
    (∀ w ∈ parseCommaInput (utf8 "red, big"),
      identifyPartOfSpeech none w ≠ "noun".toList) ∧
    parseSequenceToNounSegments none (utf8 "美丽,温柔") = [] ∧
    parseSequenceToNounSegments none (utf8 "red, big") = [] ∧
    detectSemanticContainment ℚ none (utf8 "美丽,温柔") (utf8 "red, big") = 4.0 ∧
    detectSemanticContainment ℚ none (utf8 "red, big") (utf8 "美丽,温柔") = 4.0 :=
  ⟨by decide, by decide,
    (checkSequenceContainment_nil ℚ).2 none (utf8 "美丽,温柔") (utf8 "red, big")
      (by decide) (by decide)⟩

/-! ## The similar values of a query -/

theorem mem_setInsert (l : List Str) (v x : Str) : x ∈ setInsert l v ↔ x = v ∨ x ∈ l := by
  induction l with
  | nil => simp [setInsert]
  | cons u rest ih =>
    unfold setInsert
    by_cases h1 : v = u
    · rw [if_pos h1, h1]
      simp
    · rw [if_neg h1]
      by_cases h2 : v < u
      · rw [if_pos h2]
        simp
      · rw [if_neg h2, List.mem_cons, ih, List.mem_cons]
        tauto

theorem setInsert_sorted (l : List Str) (v : Str) (h : l.Pairwise (· < ·)) :
    (setInsert l v).Pairwise (· < ·) := by
  induction l with
  | nil => simp [setInsert]
  | cons u rest ih =>
    unfold setInsert
    rw [List.pairwise_cons] at h
    by_cases h1 : v = u
    · rw [if_pos h1]
      exact List.pairwise_cons.mpr h
    · rw [if_neg h1]
      by_cases h2 : v < u
      · rw [if_pos h2]
        refine List.pairwise_cons.mpr ⟨?_, List.pairwise_cons.mpr h⟩
        intro x hx
        rcases List.mem_cons.mp hx with rfl | hx
        · exact h2
        · exact lt_trans h2 (h.1 x hx)
      · rw [if_neg h2]
        refine List.pairwise_cons.mpr ⟨?_, ih h.2⟩
        intro x hx
        rcases (mem_setInsert rest v x).mp hx with rfl | hx
        · exact lt_of_le_of_ne (not_lt.mp h2) (Ne.symm h1)
        · exact h.1 x hx

theorem setInsert_foldl (values : List Str) :
    ∀ s : List Str, s.Pairwise (· < ·) →
      (values.foldl setInsert s).Pairwise (· < ·) ∧
        ∀ x, x ∈ values.foldl setInsert s ↔ x ∈ s ∨ x ∈ values := by
  induction values with
  | nil => intro s h; simp [h]
  | cons v vs ih =>
    intro s h
    rw [List.foldl_cons]
    obtain ⟨h1, h2⟩ := ih (setInsert s v) (setInsert_sorted s v h)
    refine ⟨h1, fun x => ?_⟩
    rw [h2, mem_setInsert, List.mem_cons]
    tauto

theorem uniqueValues_foldl (cs : List Concept) :
    ∀ s : List Str, s.Pairwise (· < ·) →
      (cs.foldl (fun s c => c.feature_values.foldl setInsert s) s).Pairwise (· < ·) ∧
        ∀ x, x ∈ cs.foldl (fun s c => c.feature_values.foldl setInsert s) s ↔
          x ∈ s ∨ ∃ c ∈ cs, x ∈ c.feature_values := by
  induction cs with
  | nil => intro s h; simp [h]
  | cons c cs ih =>
    intro s h
    rw [List.foldl_cons]
    obtain ⟨hs, hm⟩ := setInsert_foldl c.feature_values s h
    obtain ⟨h1, h2⟩ := ih _ hs
    refine ⟨h1, fun x => ?_⟩
    rw [h2, hm]
    constructor
    · rintro ((h | h) | ⟨c', hc', h⟩)
      · exact Or.inl h
      · exact Or.inr ⟨c, List.mem_cons_self _ _, h⟩
      · exact Or.inr ⟨c', List.mem_cons_of_mem _ hc', h⟩
    · rintro (h | ⟨c', hc', h⟩)
      · exact Or.inl (Or.inl h)
      · rcases List.mem_cons.mp hc' with rfl | hc'
        · exact Or.inl (Or.inr h)
        · exact Or.inr ⟨c', hc', h⟩

section SimilarValues
variable {K : Type} [LinearOrderedField K]

theorem similarValues_foldl (q : Str) (m : K) (values : List Str) :
    ∀ acc : List (Str × K),
      values.foldl
        (fun similar_values value =>
          let similarity := calculateStringSimilarity K q value
          if similarity ≥ m then similar_values ++ [(value, similarity)]
          else similar_values) acc =
      acc ++ (values.filter (fun v => decide (m ≤ calculateStringSimilarity K q v))).map
        (fun v => (v, calculateStringSimilarity K q v)) := by
  induction values with
  | nil => intro acc; simp
  | cons v vs ih =>
    intro acc
    rw [List.foldl_cons, ih]
    by_cases h : m ≤ calculateStringSimilarity K q v
    · have h' : calculateStringSimilarity K q v ≥ m := h
      simp [h, h', List.filter_cons]
    · have h' : ¬ calculateStringSimilarity K q v ≥ m := h
      simp [h, h', List.filter_cons]

theorem findSimilarValues_perm (store : Store) (q : Str) (m : K) :
    (findSimilarValues store q m).Perm
      (((store.getAll.foldl (fun s c => c.feature_values.foldl setInsert s) []).filter
        (fun v => decide (m ≤ calculateStringSimilarity K q v))).map
        (fun v => (v, calculateStringSimilarity K q v))) := by
  unfold findSimilarValues
  simp only []
  rw [similarValues_foldl, List.nil_append]
  exact stdSort_perm _ _

/-- C31: for every store, query value `q` and threshold `m`, `findSimilarValues(q, m)` holds
exactly the pairs `(v, s)` with `v` a feature value of a stored concept, `s` its similarity to
`q`, and `s ≥ m`; every such value occurs once; and the list is ordered by non-increasing
similarity. -/
theorem findSimilarValues_spec (store : Store) (q : Str) (m : K) :
    (∀ (v : Str) (s : K), (v, s) ∈ findSimilarValues store q m ↔
      (∃ c ∈ store.getAll, v ∈ c.feature_values) ∧
        s = calculateStringSimilarity K q v ∧ m ≤ s) ∧
    ((findSimilarValues store q m).map Prod.fst).Nodup ∧
    (findSimilarValues store q m).Pairwise (fun a b => b.2 ≤ a.2) := by
  have hperm := findSimilarValues_perm store q m
  obtain ⟨hsorted, hmem⟩ := uniqueValues_foldl store.getAll [] List.Pairwise.nil
  refine ⟨?_, ?_, findSimilarValues_sorted store q m⟩
  · intro v s
    rw [hperm.mem_iff, List.mem_map]
    constructor
    · rintro ⟨x, hx, hxe⟩
      rw [List.mem_filter, hmem] at hx
      injection hxe with h1 h2
      subst h1
      subst h2
      obtain ⟨hx1, hx2⟩ := hx
      rcases hx1 with hx1 | hx1
      · cases hx1
      · exact ⟨hx1, rfl, by simpa using hx2⟩
    · rintro ⟨hc, rfl, hs⟩
      refine ⟨v, ?_, rfl⟩
      rw [List.mem_filter, hmem]
      exact ⟨Or.inr hc, by simpa using hs⟩
  · rw [(hperm.map Prod.fst).nodup_iff, List.map_map]
    have hid : (Prod.fst ∘ fun v : Str => (v, calculateStringSimilarity K q v)) = id := by
      funext v; rfl
    rw [hid, List.map_id]
    apply List.Nodup.filter
    exact List.Pairwise.imp (fun {a b} hab => ne_of_lt hab) hsorted

end SimilarValues

/-! ## Bounds on the match counts -/

theorem matchConceptExact_count_le (fs : List Feature) (c : Concept) :
    (matchConceptExact fs c).match_count ≤ (fs.length : Int) := by
  rw [matchConceptExact_eq]
  exact Int.ofNat_le.mpr (enum_filter_indices fs _).1

section CountBounds
variable {K : Type} [LinearOrderedField K]

theorem matchConceptFuzzy_count_le (fs : List Feature) (c : Concept) (τ : K) :
    (matchConceptFuzzy fs c τ).match_count ≤ (fs.length : Int) := by
  rw [matchConceptFuzzy_eq]
  exact Int.ofNat_le.mpr (enum_filter_indices fs _).1

theorem substituteValue_length (fs : List Feature) (old_value new_value : Str) :
    (substituteValue fs old_value new_value).length = fs.length := by
  unfold substituteValue
  rw [List.length_map]

theorem recursiveMatchConcept_mem_length
    (recurse : List Feature → Int → K → List MatchResult)
    (store : Store) (fs : List Feature) (d : Int) (τ : K) (results : List MatchResult)
    (c : Concept) (x : MatchResult)
    (hx : x ∈ recursiveMatchConcept recurse store fs d τ results c) :
    x ∈ results ∨ (x = matchConceptFuzzy fs c τ ∧ 0 < x.match_count) ∨
      ∃ m r, m.length = fs.length ∧ r ∈ recurse m (d - 1) τ ∧ x = decayResult r := by
  unfold recursiveMatchConcept at hx
  by_cases h1 : (matchConceptFuzzy fs c τ).match_count > 0
  · simp only [h1, if_true, List.mem_append, List.mem_singleton] at hx
    rcases hx with hx | hx
    · exact Or.inl hx
    · exact Or.inr (Or.inl ⟨hx, by rw [hx]; exact h1⟩)
  · simp only [h1, if_false] at hx
    by_cases h2 : d > 1
    · simp only [h2, if_true] at hx
      rw [featureLoop_eq] at hx
      split at hx
      · exact Or.inl hx
      · rename_i m hm
        rcases List.mem_append.mp hx with hx | hx
        · exact Or.inl hx
        · obtain ⟨r, hr, rfl⟩ := List.mem_map.mp hx
          refine Or.inr (Or.inr ⟨m, r, ?_, hr, rfl⟩)
          have hmem := List.mem_of_find?_eq_some hm
          rw [List.mem_flatMap] at hmem
          obtain ⟨f, _, hf⟩ := hmem
          obtain ⟨p, _, rfl⟩ := List.mem_map.mp hf
          exact substituteValue_length fs f.value p.1
    · simp only [h2, if_false] at hx
      exact Or.inl hx

theorem recursiveMatch_collected_mem_length
    (recurse : List Feature → Int → K → List MatchResult)
    (store : Store) (fs : List Feature) (d : Int) (τ : K) (cs : List Concept) :
    ∀ (acc : List MatchResult) (x : MatchResult),
      x ∈ cs.foldl (recursiveMatchConcept recurse store fs d τ) acc →
      x ∈ acc ∨ (∃ c ∈ cs, x = matchConceptFuzzy fs c τ ∧ 0 < x.match_count) ∨
        ∃ m r, m.length = fs.length ∧ r ∈ recurse m (d - 1) τ ∧ x = decayResult r := by
  induction cs with
  | nil => intro acc x hx; exact Or.inl hx
  | cons c cs ih =>
    intro acc x hx
    rw [List.foldl_cons] at hx
    rcases ih _ x hx with h | ⟨c', hc', h⟩ | h
    · rcases recursiveMatchConcept_mem_length recurse store fs d τ acc c x h with h | h | h
      · exact Or.inl h
      · exact Or.inr (Or.inl ⟨c, List.mem_cons_self _ _, h⟩)
      · exact Or.inr (Or.inr h)
    · exact Or.inr (Or.inl ⟨c', List.mem_cons_of_mem _ hc', h⟩)
    · exact Or.inr (Or.inr h)

theorem decayResult_count_le (r : MatchResult) (n : Int) (h1 : 1 ≤ r.match_count)
    (h2 : r.match_count ≤ n) : (decayResult r).match_count ≤ n := by
  unfold decayResult
  simp only []
  apply max_le
  · omega
  · have : Int.tdiv r.match_count 2 ≤ r.match_count := by
      rw [Int.tdiv_eq_ediv (by omega) (by omega)]
      omega
    omega

theorem recursiveMatchFuel_count_le (store : Store) (τ : K) (fuel : Nat) :
    ∀ (fs : List Feature) (d : Int), ∀ r ∈ recursiveMatchFuel store fuel fs d τ,
      r.match_count ≤ (fs.length : Int) := by
  induction fuel with
  | zero => intro fs d r hr; simp [recursiveMatchFuel] at hr
  | succ fuel ih =>
    intro fs d r hr
    have hr' : r ∈ recursiveMatchStep (recursiveMatchFuel store fuel) store fs d τ := hr
    unfold recursiveMatchStep at hr'
    have hcol := (sortUnique_spec _).2.1 r hr'
    rcases recursiveMatch_collected_mem_length _ store fs d τ _ [] r hcol with h | ⟨c, _, h, _⟩ |
      ⟨m, r', hm, hr1, h⟩
    · simp at h
    · rw [h]; exact matchConceptFuzzy_count_le fs c τ
    · rw [h]
      apply decayResult_count_le
      · exact recursiveMatchFuel_count_pos store τ fuel m (d - 1) r' hr1
      · rw [← hm]; exact ih m (d - 1) r' hr1

theorem recursiveMatch_count_le (store : Store) (fs : List Feature) (d : Int) (τ : K) :
    ∀ r ∈ recursiveMatch store fs d τ, r.match_count ≤ (fs.length : Int) :=
  recursiveMatchFuel_count_le store τ _ fs d

theorem findMatchingConcepts_count (store : Store) (fs : List Feature) :
    ∀ r ∈ findMatchingConcepts store fs,
      1 ≤ r.match_count ∧ r.match_count ≤ (fs.length : Int) := by
  intro r hr
  rw [findMatchingConcepts_eq, List.mem_filter, List.mem_map] at hr
  obtain ⟨⟨c, _, rfl⟩, hpos⟩ := hr
  have hpos' : 0 < (matchConceptExact fs c).match_count := by simpa using hpos
  exact ⟨by omega, matchConceptExact_count_le fs c⟩

theorem findMatchingConceptsFuzzy_count (store : Store) (fs : List Feature)
    (use_fuzzy_matching : Bool) (τ : K) (d : Int) :
    ∀ r ∈ findMatchingConceptsFuzzy store fs use_fuzzy_matching τ d,
      1 ≤ r.match_count ∧ r.match_count ≤ (fs.length : Int) := by
  intro r hr
  unfold findMatchingConceptsFuzzy at hr
  by_cases h1 : (!use_fuzzy_matching) = true
  · rw [if_pos h1] at hr
    exact findMatchingConcepts_count store fs r hr
  · rw [if_neg h1] at hr
    by_cases h2 : d > 1
    · rw [if_pos h2] at hr
      exact ⟨recursiveMatch_count_pos store fs d τ r hr, recursiveMatch_count_le store fs d τ r hr⟩
    · rw [if_neg h2, fuzzyScan_foldl, List.nil_append, List.mem_filter, List.mem_map] at hr
      obtain ⟨⟨c, _, rfl⟩, hpos⟩ := hr
      have hpos' : 0 < (matchConceptFuzzy fs c τ).match_count := by simpa using hpos
      exact ⟨by omega, matchConceptFuzzy_count_le fs c τ⟩

theorem eq_nil_of_count_bounds (l : List MatchResult)
    (h : ∀ r ∈ l, 1 ≤ r.match_count ∧ r.match_count ≤ ((0 : Nat) : Int)) : l = [] := by
  cases l with
  | nil => rfl
  | cons r l =>
    have := h r (List.mem_cons_self _ _)
    omega

/-- C33: every result returned by `findMatchingConcepts` (the exact overload, and the overload
with a mode flag in every mode and at every depth) and by `recursiveMatch` (at every depth) has
`1 ≤ match_count ≤` the number of input features; in particular an empty feature list gives an
empty result, so no result with count `0` enters the divisor of `calculateMainSimilarity`. -/
theorem matchResults_count_bounds (store : Store) (fs : List Feature) (τ : K) (d : Int) :
    (∀ r ∈ findMatchingConcepts store fs,
      1 ≤ r.match_count ∧ r.match_count ≤ (fs.length : Int)) ∧
    (∀ use_fuzzy_matching : Bool, ∀ r ∈ findMatchingConceptsFuzzy store fs use_fuzzy_matching τ d,
      1 ≤ r.match_count ∧ r.match_count ≤ (fs.length : Int)) ∧
    (∀ r ∈ recursiveMatch store fs d τ,
      1 ≤ r.match_count ∧ r.match_count ≤ (fs.length : Int)) ∧
    findMatchingConcepts store [] = [] ∧
    (∀ use_fuzzy_matching : Bool, findMatchingConceptsFuzzy store [] use_fuzzy_matching τ d = []) ∧
    recursiveMatch store [] d τ = [] := by
  refine ⟨findMatchingConcepts_count store fs,
    fun u => findMatchingConceptsFuzzy_count store fs u τ d,
    fun r hr => ⟨recursiveMatch_count_pos store fs d τ r hr,
      recursiveMatch_count_le store fs d τ r hr⟩, ?_, ?_, ?_⟩
  · exact eq_nil_of_count_bounds _ (findMatchingConcepts_count store [])
  · intro u
    exact eq_nil_of_count_bounds _ (findMatchingConceptsFuzzy_count store [] u τ d)
  · exact eq_nil_of_count_bounds _ (fun r hr =>
      ⟨recursiveMatch_count_pos store [] d τ r hr, recursiveMatch_count_le store [] d τ r hr⟩)

/-! ## Direct matches survive the recursive search -/

theorem recursiveMatchConcept_subset (recurse : List Feature → Int → K → List MatchResult)
    (store : Store) (fs : List Feature) (d : Int) (τ : K) (results : List MatchResult)
    (c : Concept) (x : MatchResult) (hx : x ∈ results) :
    x ∈ recursiveMatchConcept recurse store fs d τ results c := by
  unfold recursiveMatchConcept
  by_cases h1 : (matchConceptFuzzy fs c τ).match_count > 0
  · simp only [h1, if_true]
    exact List.mem_append_left _ hx
  · simp only [h1, if_false]
    by_cases h2 : d > 1
    · simp only [h2, if_true]
      rw [featureLoop_eq]
      split
      · exact hx
      · exact List.mem_append_left _ hx
    · simp only [h2, if_false]
      exact hx

theorem recursiveMatch_collected_subset (recurse : List Feature → Int → K → List MatchResult)
    (store : Store) (fs : List Feature) (d : Int) (τ : K) (cs : List Concept) :
    ∀ (acc : List MatchResult) (x : MatchResult), x ∈ acc →
      x ∈ cs.foldl (recursiveMatchConcept recurse store fs d τ) acc := by
  induction cs with
  | nil => intro acc x hx; exact hx
  | cons c cs ih =>
    intro acc x hx
    rw [List.foldl_cons]
    exact ih _ x (recursiveMatchConcept_subset recurse store fs d τ acc c x hx)

theorem recursiveMatch_collected_direct (recurse : List Feature → Int → K → List MatchResult)
    (store : Store) (fs : List Feature) (d : Int) (τ : K) (cs : List Concept) :
    ∀ (acc : List MatchResult) (c : Concept), c ∈ cs →
      0 < (matchConceptFuzzy fs c τ).match_count →
      matchConceptFuzzy fs c τ ∈ cs.foldl (recursiveMatchConcept recurse store fs d τ) acc := by
  induction cs with
  | nil => intro acc c hc; cases hc
  | cons c0 cs ih =>
    intro acc c hc hpos
    rw [List.foldl_cons]
    rcases List.mem_cons.mp hc with rfl | hc
    · apply recursiveMatch_collected_subset
      unfold recursiveMatchConcept
      have h1 : (matchConceptFuzzy fs c τ).match_count > 0 := hpos
      simp only [h1, if_true]
      exact List.mem_append_right _ (List.mem_singleton.mpr rfl)
    · exact ih _ c hc hpos

theorem recursiveMatch_direct (store : Store) (fs : List Feature) (d : Int) (τ : K)
    (c : Concept) (hc : c ∈ store.getAll) (hpos : 0 < (matchConceptFuzzy fs c τ).match_count) :
    ∃ r ∈ recursiveMatch store fs d τ,
      r.concept_id = c.id ∧ (matchConceptFuzzy fs c τ).match_count ≤ r.match_count := by
  rw [recursiveMatch_eq]
  unfold recursiveMatchStep
  simp only []
  obtain ⟨r, hr, hid, hcount⟩ := (sortUnique_spec _).2.2 _
    (recursiveMatch_collected_direct (recursiveMatch store) store fs d τ store.getAll [] c hc hpos)
  exact ⟨r, hr, by rw [hid, matchConceptFuzzy_concept_id], hcount⟩

/-- C32: for every store (its concept ids are unique), feature list, threshold and depth, in
particular every depth `≥ 1`, every stored concept whose direct fuzzy match count `c` is
positive has a result in the output of `recursiveMatch` with its id and a `match_count ≥ c`;
hence every result of plain fuzzy matching has a result of recursive matching with the same
concept id and a count not smaller. -/
theorem recursiveMatch_contains_direct (store : Store) (fs : List Feature) (d : Int) (τ : K) :
    (∀ c ∈ store.getAll, 0 < (matchConceptFuzzy fs c τ).match_count →
      ∃ r ∈ recursiveMatch store fs d τ,
        r.concept_id = c.id ∧ (matchConceptFuzzy fs c τ).match_count ≤ r.match_count) ∧
    (∀ x ∈ findMatchingConceptsFuzzy store fs true τ 1,
      ∃ r ∈ recursiveMatch store fs d τ,
        r.concept_id = x.concept_id ∧ x.match_count ≤ r.match_count) ∧
    (∀ id ∈ (findMatchingConceptsFuzzy store fs true τ 1).map MatchResult.concept_id,
      id ∈ (recursiveMatch store fs d τ).map MatchResult.concept_id) := by
  have h2 : ∀ x ∈ findMatchingConceptsFuzzy store fs true τ 1,
      ∃ r ∈ recursiveMatch store fs d τ,
        r.concept_id = x.concept_id ∧ x.match_count ≤ r.match_count := by
    intro x hx
    unfold findMatchingConceptsFuzzy at hx
    simp only [Bool.not_true, Bool.false_eq_true, if_false, gt_iff_lt, lt_self_iff_false] at hx
    rw [fuzzyScan_foldl, List.nil_append, List.mem_filter, List.mem_map] at hx
    obtain ⟨⟨c, hc, rfl⟩, hpos⟩ := hx
    have hpos' : 0 < (matchConceptFuzzy fs c τ).match_count := by simpa using hpos
    obtain ⟨r, hr, hid, hcount⟩ := recursiveMatch_direct store fs d τ c hc hpos'
    exact ⟨r, hr, by rw [hid, matchConceptFuzzy_concept_id], hcount⟩
  refine ⟨fun c hc hpos => recursiveMatch_direct store fs d τ c hc hpos, h2, ?_⟩
  intro id hid
  obtain ⟨x, hx, rfl⟩ := List.mem_map.mp hid
  obtain ⟨r, hr, hrid, _⟩ := h2 x hx
  exact List.mem_map.mpr ⟨r, hr, hrid⟩

/-- Witness of C32: `redFruit` matches the feature `red` directly, and is in the output of
`recursiveMatch` at depth `2`. -/
theorem recursiveMatch_contains_direct_witness :
    redFruit ∈ redFruitStore.getAll ∧
    0 < (matchConceptFuzzy [⟨[], "red".toList⟩] redFruit ((3 : ℚ) / 5)).match_count ∧
    ∃ r ∈ recursiveMatch redFruitStore [⟨[], "red".toList⟩] 2 ((3 : ℚ) / 5),
      r.concept_id = redFruit.id ∧
        (matchConceptFuzzy [⟨[], "red".toList⟩] redFruit ((3 : ℚ) / 5)).match_count ≤
          r.match_count :=
  ⟨by decide, by decide!,
    (recursiveMatch_contains_direct redFruitStore [⟨[], "red".toList⟩] 2 ((3 : ℚ) / 5)).1
      redFruit (by decide) (by decide!)⟩

end CountBounds

/-! ## Range of the main similarity -/

theorem length_filter_mono {α : Type} (p q : α → Bool) (l : List α)
    (h : ∀ a ∈ l, p a = true → q a = true) :
    (l.filter p).length ≤ (l.filter q).length := by
  rw [← List.countP_eq_length_filter, ← List.countP_eq_length_filter]
  exact List.countP_mono_left h

section MainRange
variable {K : Type} [LinearOrderedField K]

theorem g_similarity_params_range :
    ∀ i j : Int, 1 ≤ i → i ≤ 5 → 1 ≤ j → j ≤ 5 →
      ∃ v : K, (g_similarity_params K).find (paramKey i j) = some v ∧ 0 ≤ v ∧ v ≤ 2 := by
  intro i j h1 h2 h3 h4
  interval_cases i <;> interval_cases j <;>
    exact ⟨_, rfl, by norm_num, by norm_num⟩

theorem sum_le_length_mul {α : Type} (g : α → K) (W : K) (l : List α)
    (h : ∀ a ∈ l, g a ≤ W) : (l.map g).sum ≤ (l.length : K) * W := by
  induction l with
  | nil => simp
  | cons a l ih =>
    simp only [List.map_cons, List.sum_cons, List.length_cons, Nat.cast_succ]
    have h1 := h a (List.mem_cons_self _ _)
    have h2 := ih (fun x hx => h x (List.mem_cons_of_mem _ hx))
    linarith

theorem coMatchedKeys_levels (cs : List Concept) (A B : List Feature) :
    ∀ k ∈ coMatchedKeys K cs A B, (1 ≤ k.1 ∧ k.1 ≤ 5) ∧ (1 ≤ k.2 ∧ k.2 ≤ 5) := by
  intro k hk
  unfold coMatchedKeys at hk
  rw [List.mem_filterMap] at hk
  obtain ⟨c, _, hc⟩ := hk
  split at hc
  · injection hc with hc
    rw [← hc]
    exact ⟨calculateMatchLevel_range _ _, calculateMatchLevel_range _ _⟩
  · cases hc

theorem coMatchedKeys_length_le (store : Store) (A B : List Feature) :
    (coMatchedKeys K store.concepts A B).length ≤ (findMatchingConcepts store A).length ∧
      (coMatchedKeys K store.concepts A B).length ≤ (findMatchingConcepts store B).length := by
  unfold coMatchedKeys
  rw [length_filterMap_eq, findMatchingConcepts_length, findMatchingConcepts_length]
  constructor
  · apply length_filter_mono
    intro c _ hc
    by_cases h : 0 < (matchConceptExact A c).match_count ∧ 0 < (matchConceptExact B c).match_count
    · simpa using h.1
    · rw [if_neg h] at hc
      cases hc
  · apply length_filter_mono
    intro c _ hc
    by_cases h : 0 < (matchConceptExact A c).match_count ∧ 0 < (matchConceptExact B c).match_count
    · simpa using h.2
    · rw [if_neg h] at hc
      cases hc

theorem guardedQuotient_range (s W : K) (n d : Nat) (hW : 0 ≤ W) (hs0 : 0 ≤ s)
    (hs : s ≤ (n : K) * W) (hnd : n ≤ d) :
    0 ≤ guardedQuotient s (d : Int) ∧ guardedQuotient s (d : Int) ≤ W := by
  unfold guardedQuotient
  by_cases hd : (d : Int) = 0
  · rw [if_pos hd]; exact ⟨le_rfl, hW⟩
  · rw [if_neg hd]
    have hd' : 0 < d := by omega
    have hdK : (0 : K) < ((d : Int) : K) := by exact_mod_cast hd'
    refine ⟨div_nonneg hs0 (le_of_lt hdK), ?_⟩
    rw [div_le_iff₀ hdK]
    have h1 : (n : K) * W ≤ ((d : Int) : K) * W := by
      apply mul_le_mul_of_nonneg_right _ hW
      exact_mod_cast hnd
    linarith

theorem calculateMainSimilarity_range (sqrt : K → K) (store : Store) (A B : List Feature)
    (params : Params K) (W : K)
    (hsqrt : ∀ x, 0 ≤ x → x ≤ W * W → 0 ≤ sqrt x ∧ sqrt x ≤ W)
    (hparams : ∀ i j : Int, 1 ≤ i → i ≤ 5 → 1 ≤ j → j ≤ 5 →
      ∃ v, params.find (paramKey i j) = some v ∧ 0 ≤ v ∧ v ≤ W) :
    0 ≤ calculateMainSimilarity sqrt store A B params ∧
      calculateMainSimilarity sqrt store A B params ≤ W := by
  have hW : 0 ≤ W := by
    obtain ⟨v, _, h0, h1⟩ := hparams 1 1 le_rfl (by norm_num) le_rfl (by norm_num)
    exact le_trans h0 h1
  have hpv : ∀ i j : Int, 1 ≤ i → i ≤ 5 → 1 ≤ j → j ≤ 5 →
      0 ≤ paramValue params i j ∧ paramValue params i j ≤ W := by
    intro i j h1 h2 h3 h4
    obtain ⟨v, hv, h0, hv1⟩ := hparams i j h1 h2 h3 h4
    unfold paramValue
    rw [hv]
    exact ⟨h0, hv1⟩
  rw [calculateMainSimilarity_eq]
  by_cases hn : ((coMatchedKeys K store.concepts A B).length : Int) = 0
  · rw [if_pos hn]; exact ⟨le_rfl, hW⟩
  · rw [if_neg hn]
    have hlev := coMatchedKeys_levels (K := K) store.concepts A B
    obtain ⟨hlA, hlB⟩ := coMatchedKeys_length_le (K := K) store A B
    have hA := guardedQuotient_range
      (((coMatchedKeys K store.concepts A B).map (fun k => paramValue params k.1 k.2)).sum) W
      (coMatchedKeys K store.concepts A B).length (findMatchingConcepts store A).length hW
      (sum_nonneg_of_forall _ _ (fun k hk =>
        (hpv k.1 k.2 (hlev k hk).1.1 (hlev k hk).1.2 (hlev k hk).2.1 (hlev k hk).2.2).1))
      (sum_le_length_mul _ W _ (fun k hk =>
        (hpv k.1 k.2 (hlev k hk).1.1 (hlev k hk).1.2 (hlev k hk).2.1 (hlev k hk).2.2).2))
      hlA
    have hB := guardedQuotient_range
      (((coMatchedKeys K store.concepts A B).map (fun k => paramValue params k.2 k.1)).sum) W
      (coMatchedKeys K store.concepts A B).length (findMatchingConcepts store B).length hW
      (sum_nonneg_of_forall _ _ (fun k hk =>
        (hpv k.2 k.1 (hlev k hk).2.1 (hlev k hk).2.2 (hlev k hk).1.1 (hlev k hk).1.2).1))
      (sum_le_length_mul _ W _ (fun k hk =>
        (hpv k.2 k.1 (hlev k hk).2.1 (hlev k hk).2.2 (hlev k hk).1.1 (hlev k hk).1.2).2))
      hlB
    exact hsqrt _ (mul_nonneg hA.1 hB.1) (mul_le_mul hA.2 hB.2 hB.1 hW)

theorem calculateMainSimilarity_red_red (sqrt : K → K) :
    calculateMainSimilarity sqrt redFruitStore [⟨[], "red".toList⟩] [⟨[], "red".toList⟩]
      (g_similarity_params K) = sqrt (2 * 2) := by
  rw [calculateMainSimilarity_eq]
  have hc : (matchConceptExact [⟨[], "red".toList⟩] redFruit).match_count = 1 := by decide
  have hk : coMatchedKeys K redFruitStore.concepts [⟨[], "red".toList⟩] [⟨[], "red".toList⟩] =
      [(5, 5)] := by
    have hl : calculateMatchLevel K 1 (([⟨[], "red".toList⟩] : List Feature).length : Int) = 5 :=
      calculateMatchLevel_full 1 one_pos
    simp only [coMatchedKeys, redFruitStore, List.filterMap_cons, List.filterMap_nil, hc,
      zero_lt_one, and_self, if_true, hl]
  have hlen : (findMatchingConcepts redFruitStore [⟨[], "red".toList⟩]).length = 1 := by decide
  rw [hk, hlen]
  simp only [List.length_singleton, Nat.cast_one, one_ne_zero, if_false, List.map_cons,
    List.map_nil, List.sum_cons, List.sum_nil, add_zero, paramValue_default_5_5, guardedQuotient,
    Int.cast_one, div_one]

/-- C34: for every store (its concept ids are unique), feature lists `A` and `B`, and
parameter table that defines the 25 keys `p11..p55` with values in `[0, W]`, the main similarity
lies in `[0, W]`, for a square root that maps `[0, W²]` into `[0, W]`; the number of co-matched
concepts never exceeds the size of either match set.  With the default table the result lies
in `[0, 2.0]`, and it exceeds `1` for the feature `red` against itself over the store holding
`{color:red, kind:fruit}`, where it is `sqrt (2 * 2)`. -/
theorem calculateMainSimilarity_bounded (sqrt : K → K) (store : Store) (A B : List Feature)
    (params : Params K) (W : K)
    (hsqrt : ∀ x, 0 ≤ x → x ≤ W * W → 0 ≤ sqrt x ∧ sqrt x ≤ W)
    (hparams : ∀ i j : Int, 1 ≤ i → i ≤ 5 → 1 ≤ j → j ≤ 5 →
      ∃ v, params.find (paramKey i j) = some v ∧ 0 ≤ v ∧ v ≤ W) :
    (0 ≤ calculateMainSimilarity sqrt store A B params ∧
      calculateMainSimilarity sqrt store A B params ≤ W) ∧
    ((analyzeOverlap K (findMatchingConcepts store A) (findMatchingConcepts store B)
        (A.length : Int) (B.length : Int)).2 ≤ ((findMatchingConcepts store A).length : Int) ∧
      (analyzeOverlap K (findMatchingConcepts store A) (findMatchingConcepts store B)
        (A.length : Int) (B.length : Int)).2 ≤ ((findMatchingConcepts store B).length : Int)) ∧
    ((∀ x, 0 ≤ x → x ≤ 2 * 2 → 0 ≤ sqrt x ∧ sqrt x ≤ 2) →
      0 ≤ calculateMainSimilarity sqrt store A B (g_similarity_params K) ∧
        calculateMainSimilarity sqrt store A B (g_similarity_params K) ≤ 2) ∧
    calculateMainSimilarity sqrt redFruitStore [⟨[], "red".toList⟩] [⟨[], "red".toList⟩]
        (g_similarity_params K) = sqrt (2 * 2) ∧
    (sqrt (2 * 2) = 2 →
      1 < calculateMainSimilarity sqrt redFruitStore [⟨[], "red".toList⟩]
        [⟨[], "red".toList⟩] (g_similarity_params K)) := by
  refine ⟨calculateMainSimilarity_range sqrt store A B params W hsqrt hparams, ?_,
    fun h2 => calculateMainSimilarity_range sqrt store A B (g_similarity_params K) 2 h2
      g_similarity_params_range,
    calculateMainSimilarity_red_red sqrt, fun h => ?_⟩
  · rw [analyzeOverlap_eq, overlapKeys_store]
    obtain ⟨hlA, hlB⟩ := coMatchedKeys_length_le (K := K) store A B
    exact ⟨Int.ofNat_le.mpr hlA, Int.ofNat_le.mpr hlB⟩
  · rw [calculateMainSimilarity_red_red, h]
    norm_num

/-- Witness of C34 over the real numbers with the real square root and the default table:
the similarity of `red` with itself over `redFruitStore` lies in `[0, 2]` and is `2`. -/
theorem calculateMainSimilarity_bounded_witness :
    (∀ x : ℝ, 0 ≤ x → x ≤ 2 * 2 → 0 ≤ Real.sqrt x ∧ Real.sqrt x ≤ 2) ∧
    (∀ i j : Int, 1 ≤ i → i ≤ 5 → 1 ≤ j → j ≤ 5 →
      ∃ v : ℝ, (g_similarity_params ℝ).find (paramKey i j) = some v ∧ 0 ≤ v ∧ v ≤ 2) ∧
    (0 ≤ calculateMainSimilarity Real.sqrt redFruitStore [⟨[], "red".toList⟩]
        [⟨[], "red".toList⟩] (g_similarity_params ℝ) ∧
      calculateMainSimilarity Real.sqrt redFruitStore [⟨[], "red".toList⟩]
        [⟨[], "red".toList⟩] (g_similarity_params ℝ) ≤ 2) ∧
    1 < calculateMainSimilarity Real.sqrt redFruitStore [⟨[], "red".toList⟩]
        [⟨[], "red".toList⟩] (g_similarity_params ℝ) := by
  have hsqrt : ∀ x : ℝ, 0 ≤ x → x ≤ 2 * 2 → 0 ≤ Real.sqrt x ∧ Real.sqrt x ≤ 2 := by
    intro x _ hx
    refine ⟨Real.sqrt_nonneg x, ?_⟩
    rw [Real.sqrt_le_left (by norm_num : (0 : ℝ) ≤ 2)]
    linarith
  have h := calculateMainSimilarity_bounded Real.sqrt redFruitStore [⟨[], "red".toList⟩]
    [⟨[], "red".toList⟩] (g_similarity_params ℝ) 2 hsqrt g_similarity_params_range
  exact ⟨hsqrt, g_similarity_params_range, h.1,
    h.2.2.2.2 (Real.sqrt_mul_self (by norm_num))⟩

end MainRange

end Approacher
